import Mathlib

/-!
# AspNetWebHelp: the Markdown renderer of `js/app.js`

`renderMarkdown` is a pipeline of `String.prototype.replace` calls with global
regular expressions, followed by a split into blocks that are wrapped in
paragraphs.  The embedding below keeps that shape:

* a JavaScript string is the list of its characters (`Str`).  No expression of
  the pipeline carries the `u` flag, but every character class and literal it
  uses lies in the Basic Multilingual Plane, so matching on code points and on
  UTF-16 code units agree on well-formed text;
* a regular expression with its replacement is a `Rule`: what the expression
  matches at one position of the subject, and the text put in its place;
* `replaceAll` is the left-to-right scan of `replace` with the `g` flag, written
  by structural recursion on the subject, so every stage is a total function;
* `splitBlocks`, `renderBlock` and `joinLines` are the paragraph stage.

The definitions come first: the renderer, then the notions used to state its
properties.  The theorems follow; those that settle a property of the
specification carry its number (`C1` to `C10`) in their comment.
-/

namespace AspNetWebHelp

/-- A JavaScript string, as the list of its characters. -/
abbrev Str := List Char

/-! ## Character classes of ECMAScript regular expressions -/

/-- ECMAScript LineTerminator: the characters `.` does not match, and the ones
the anchors `^` and `$` look at under the `m` flag. -/
def isLineTerminator (c : Char) : Bool :=
  c == '\n' || c == '\r' || c == Char.ofNat 0x2028 || c == Char.ofNat 0x2029

/-- The class `\s`, which is also what `trim()` strips: ECMAScript WhiteSpace
together with LineTerminator. -/
def isWhiteSpace (c : Char) : Bool :=
  c == '\t' || c == '\n' || c == '\x0b' || c == '\x0c' || c == '\r' || c == ' ' ||
  c == Char.ofNat 0x00A0 || c == Char.ofNat 0x1680 ||
  (0x2000 ≤ c.toNat && c.toNat ≤ 0x200a) ||
  c == Char.ofNat 0x2028 || c == Char.ofNat 0x2029 || c == Char.ofNat 0x202F ||
  c == Char.ofNat 0x205F || c == Char.ofNat 0x3000 || c == Char.ofNat 0xFEFF

/-- The anchor `^` under the `m` flag: the position is index 0 (`none`) or the
character before it is a line terminator. -/
def atLineStart (prev : Option Char) : Bool :=
  match prev with
  | none => true
  | some c => isLineTerminator c

/-! ## Pieces of regular expressions -/

/-- A literal in a regular expression: the text after the literal `d` when the
subject begins with it. -/
def literal : Str → Str → Option Str
  | [], s => some s
  | _ :: _, [] => none
  | d :: ds, c :: s => if c = d then literal ds s else none

/-- The lazy group `([\s\S]*?)` followed by the literal `d`: the shortest
prefix of the subject after which `d` stands. -/
def lazyAny (d : Str) : Str → Option Str
  | [] => if d.isPrefixOf [] then some [] else none
  | c :: s => if d.isPrefixOf (c :: s) then some [] else (lazyAny d s).map (c :: ·)

/-- The lazy group `(.*?)` followed by the literal `d`: as `lazyAny`, but `.`
does not step over a line terminator. -/
def lazyDot (d : Str) : Str → Option Str
  | [] => if d.isPrefixOf [] then some [] else none
  | c :: s =>
    if d.isPrefixOf (c :: s) then some []
    else if isLineTerminator c then none
    else (lazyDot d s).map (c :: ·)

/-- The lazy group `(.+?)` followed by the literal `d`: one character that is
not a line terminator, then as few more as possible. -/
def lazyDotPlus (d : Str) : Str → Option Str
  | [] => none
  | c :: s => if isLineTerminator c then none else (lazyDot d s).map (c :: ·)

/-- The greedy group `([^x]+)` followed by the literal character `x`: the run
of characters other than `x` at the head of the subject, which must not be
empty and must be followed by `x`; returned with the text after that `x`.
(Giving characters back never helps: the character after a shorter run is not
`x`.) -/
def runUntil (x : Char) (s : Str) : Option (Str × Str) :=
  match s.takeWhile (· != x), s.dropWhile (· != x) with
  | c :: cap, _ :: rest => some (c :: cap, rest)
  | _, _ => none

/-- The greedy group `(.*)` followed by `$` under the `m` flag: the rest of the
line. -/
def restOfLine (s : Str) : Str :=
  s.takeWhile (fun c => !isLineTerminator c)

/-! ## `String.prototype.replace` with a global regular expression -/

/-- A regular expression together with its replacement.  Given the character
before a position of the subject (`none` at index 0) and the subject from that
position on, a rule returns the replacement text and the length of the match
when the expression matches at that position. -/
abbrev Rule := Option Char → Str → Option (Str × Nat)

/-- The scan of `replace` with the `g` flag.  The expression is tried at each
position from left to right; where it matches, the replacement is emitted and
the scan resumes after the match, otherwise the character is copied.  `skip`
counts the characters of the last match that are still to be passed over.  No
expression of the pipeline matches the empty string. -/
def replaceFrom (r : Rule) : Nat → Option Char → Str → Str
  | _, _, [] => []
  | skip + 1, _, c :: s => replaceFrom r skip (some c) s
  | 0, prev, c :: s =>
    match r prev (c :: s) with
    | some (rep, n) => rep ++ replaceFrom r (n - 1) (some c) s
    | none => c :: replaceFrom r 0 (some c) s

/-- The call `s.replace(re, replacement)` for a global `re`. -/
def replaceAll (r : Rule) (s : Str) : Str :=
  replaceFrom r 0 none s

/-- The method `trim()`: white space and line terminators are removed from both ends. -/
def trim (s : Str) : Str :=
  ((s.dropWhile isWhiteSpace).reverse.dropWhile isWhiteSpace).reverse

/-! ## The rules of `renderMarkdown`, in source order -/

/-- The rule `/\r\n/g` with replacement `"\n"`. -/
def crlfRule : Rule := fun _ s =>
  (literal ['\r', '\n'] s).map fun _ => (['\n'], 2)

/-- A rule for a one-character expression such as `/&/g`, with the replacement `rep`. -/
def charRule (x : Char) (rep : Str) : Rule := fun _ s =>
  (literal [x] s).map fun _ => (rep, 1)

/-- The three backticks of a fence. -/
def fence : Str := "```".toList

/-- The rule `/```([\s\S]*?)```/g` with the replacement function
`(_, code) => "<pre><code>" + code.trim() + "</code></pre>"`. -/
def codeBlockRule : Rule := fun _ s =>
  (literal fence s).bind fun r =>
  (lazyAny fence r).map fun code =>
    ("<pre><code>".toList ++ trim code ++ "</code></pre>".toList, 3 + code.length + 3)

/-- A heading rule such as `/^### (.*)$/gm` with replacement `"<h3>$1</h3>"`:
`marker` is the literal run of `#` with its space. -/
def headingRule (marker openTag closeTag : Str) : Rule := fun prev s =>
  if atLineStart prev then
    (literal marker s).map fun r =>
      (openTag ++ restOfLine r ++ closeTag, marker.length + (restOfLine r).length)
  else none

/-- An emphasis rule such as `/\*\*(.+?)\*\*/g` with replacement
`"<strong>$1</strong>"`: `d` is the literal run of asterisks. -/
def emphasisRule (d openTags closeTags : Str) : Rule := fun _ s =>
  (literal d s).bind fun r =>
  (lazyDotPlus d r).map fun cap =>
    (openTags ++ cap ++ closeTags, d.length + cap.length + d.length)

/-- The rule ``/`([^`]+)`/g`` with replacement `"<code>$1</code>"`. -/
def inlineCodeRule : Rule := fun _ s =>
  (literal ['`'] s).bind fun r =>
  (runUntil '`' r).map fun (cap, _) =>
    ("<code>".toList ++ cap ++ "</code>".toList, 1 + cap.length + 1)

/-- The text of the anchor element before the target. -/
def anchorOpen : Str := "<a href=\"".toList

/-- The text of the anchor element between the target and the label. -/
def anchorAttrs : Str := "\" target=\"_blank\" rel=\"noreferrer\">".toList

/-- The rule `/\[([^\]]+)\]\(([^)]+)\)/g` with replacement
`'<a href="$2" target="_blank" rel="noreferrer">$1</a>'`. -/
def linkRule : Rule := fun _ s =>
  (literal ['['] s).bind fun r =>
  (runUntil ']' r).bind fun (label, r1) =>
  (literal ['('] r1).bind fun r2 =>
  (runUntil ')' r2).map fun (target, _) =>
    (anchorOpen ++ target ++ anchorAttrs ++ label ++ "</a>".toList,
      1 + label.length + 2 + target.length + 1)

/-- The rule `/^\s*[-*] (.*)$/gm` with replacement `"<li>$1</li>"`.  The greedy
`\s*` takes the whole run of white space (line terminators included); giving
characters back never helps, the character after a shorter run being white
space and so neither `-` nor `*`. -/
def listItemRule : Rule := fun prev s =>
  if atLineStart prev then
    match s.dropWhile isWhiteSpace with
    | b :: ' ' :: r =>
      if b = '-' ∨ b = '*' then
        some ("<li>".toList ++ restOfLine r ++ "</li>".toList,
          (s.takeWhile isWhiteSpace).length + 2 + (restOfLine r).length)
      else none
    | _ => none
  else none

/-- The rule `/(<li>[\s\S]*?<\/li>)/g` with replacement `"<ul>$1</ul>"`. -/
def listWrapRule : Rule := fun _ s =>
  (literal "<li>".toList s).bind fun r =>
  (lazyAny "</li>".toList r).map fun cap =>
    ("<ul>".toList ++ ("<li>".toList ++ cap ++ "</li>".toList) ++ "</ul>".toList,
      4 + cap.length + 5)

/-! ## The paragraph stage -/

/-- The call `text.split(/\n{2,}/)`: the pieces between the maximal runs of two
or more line feeds.  `inRun` says that the scan stands inside such a run, whose
remaining line feeds are passed over. -/
def splitFrom : Bool → Str → List Str
  | _, [] => [[]]
  | inRun, c :: s =>
    if inRun && c == '\n' then splitFrom true s
    else if c == '\n' && s.head? == some '\n' then [] :: splitFrom true s
    else
      match splitFrom false s with
      | b :: bs => (c :: b) :: bs
      | [] => [[c]]

/-- The pieces of `text.split(/\n{2,}/)`. -/
def splitBlocks (s : Str) : List Str :=
  splitFrom false s

/-- The test `/^<(h[1-6]|ul|ol|li|pre|blockquote)/.test(trimmed)`. -/
def startsWithBlockTag (s : Str) : Bool :=
  match s with
  | '<' :: r =>
    (match r with
      | 'h' :: d :: _ => '1' ≤ d && d ≤ '6'
      | _ => false) ||
    "ul".toList.isPrefixOf r || "ol".toList.isPrefixOf r || "li".toList.isPrefixOf r ||
    "pre".toList.isPrefixOf r || "blockquote".toList.isPrefixOf r
  | _ => false

/-- The function mapped over the blocks: an empty block gives the empty string,
a block that starts with a block-level tag is kept, any other is wrapped in a
paragraph. -/
def renderBlock (block : Str) : Str :=
  let trimmed := trim block
  if trimmed.isEmpty then []
  else if startsWithBlockTag trimmed then trimmed
  else "<p>".toList ++ trimmed ++ "</p>".toList

/-- The call `.join("\n")`. -/
def joinLines : List Str → Str
  | [] => []
  | [b] => b
  | b :: b' :: bs => b ++ '\n' :: joinLines (b' :: bs)

/-! ## The stages of `renderMarkdown` -/

/-- The statement `markdown.replace(/\r\n/g, "\n")`. -/
def normalizeLineEndings (s : Str) : Str :=
  replaceAll crlfRule s

/-- The statement `text.replace(/&/g, "&amp;").replace(/</g, "&lt;").replace(/>/g, "&gt;")`. -/
def escapeHtml (s : Str) : Str :=
  replaceAll (charRule '>' "&gt;".toList)
    (replaceAll (charRule '<' "&lt;".toList)
      (replaceAll (charRule '&' "&amp;".toList) s))

/-- The code-block stage. -/
def codeBlocks (s : Str) : Str :=
  replaceAll codeBlockRule s

/-- The heading stage: six replacements, from six `#` down to one. -/
def headings (s : Str) : Str :=
  replaceAll (headingRule "# ".toList "<h1>".toList "</h1>".toList)
    (replaceAll (headingRule "## ".toList "<h2>".toList "</h2>".toList)
      (replaceAll (headingRule "### ".toList "<h3>".toList "</h3>".toList)
        (replaceAll (headingRule "#### ".toList "<h4>".toList "</h4>".toList)
          (replaceAll (headingRule "##### ".toList "<h5>".toList "</h5>".toList)
            (replaceAll (headingRule "###### ".toList "<h6>".toList "</h6>".toList) s)))))

/-- The bold and italic stage: three, two, then one asterisk. -/
def emphasis (s : Str) : Str :=
  replaceAll (emphasisRule "*".toList "<em>".toList "</em>".toList)
    (replaceAll (emphasisRule "**".toList "<strong>".toList "</strong>".toList)
      (replaceAll
        (emphasisRule "***".toList "<strong><em>".toList "</em></strong>".toList) s))

/-- The inline-code stage. -/
def inlineCode (s : Str) : Str :=
  replaceAll inlineCodeRule s

/-- The link stage. -/
def links (s : Str) : Str :=
  replaceAll linkRule s

/-- The list stage: items, then the wrapping of items. -/
def lists (s : Str) : Str :=
  replaceAll listWrapRule (replaceAll listItemRule s)

/-- The paragraph stage. -/
def paragraphs (s : Str) : Str :=
  joinLines ((splitBlocks s).map renderBlock)

/-- The function `renderMarkdown` of `js/app.js`. -/
def renderMarkdown (markdown : Str) : Str :=
  if markdown.isEmpty then []
  else
    paragraphs (lists (links (inlineCode (emphasis (headings (codeBlocks
      (escapeHtml (normalizeLineEndings markdown))))))))

/-! ## Texts named by the properties -/

/-- Plain text in the sense of the properties: letters, digits and spaces. -/
def isPlainText (t : Str) : Bool :=
  t.all (fun c => c.isAlphanum || c == ' ')

/-- Plain text whose spaces are interior: it neither starts nor ends with one. -/
def isInteriorText (t : Str) : Bool :=
  isPlainText t && t.head? != some ' ' && t.getLast? != some ' '

/-- A word: letters and digits only. -/
def isWord (t : Str) : Bool :=
  t.all Char.isAlphanum

/-- The text of a link target in the sense of the properties: letters, digits
and the characters `:`, `/`, `.`. -/
def isTargetText (t : Str) : Bool :=
  t.all (fun c => c.isAlphanum || c == ':' || c == '/' || c == '.')

/-- The opening tag of a heading of level `n`. -/
def headingOpen (n : Nat) : Str :=
  "<h".toList ++ [Nat.digitChar n] ++ ">".toList

/-- The closing tag of a heading of level `n`. -/
def headingClose (n : Nat) : Str :=
  "</h".toList ++ [Nat.digitChar n] ++ ">".toList

/-- The opening tags of the emphasis element for a delimiter of `d` asterisks. -/
def emphasisOpen : Nat → Str
  | 1 => "<em>".toList
  | 2 => "<strong>".toList
  | _ => "<strong><em>".toList

/-- The closing tags of the emphasis element for a delimiter of `d` asterisks. -/
def emphasisClose : Nat → Str
  | 1 => "</em>".toList
  | 2 => "</strong>".toList
  | _ => "</em></strong>".toList

/-- The text holds two line feeds in a row, the separator of `split(/\n{2,}/)`. -/
def hasBlankLine : Str → Bool
  | [] => false
  | c :: s => (c == '\n' && s.head? == some '\n') || hasBlankLine s

/-- The scan of `leadsWith` after the text `x`: whether the position reached
stands in the leading white space of a line. -/
def leadAfter (lead : Bool) (x : Str) : Bool :=
  x.foldl (fun l c => isLineTerminator c || (l && isWhiteSpace c)) lead

/-- Some line of the text begins, after optional white space, with a character of
`q`.  `lead` says whether the text starts in the leading white space of a line;
a text that follows other characters on its first line starts with `false`, and
then only its later lines count. -/
def leadsWith (q : Char → Bool) : Bool → Str → Bool
  | _, [] => false
  | lead, c :: s =>
    (lead && q c) || leadsWith q (isLineTerminator c || (lead && isWhiteSpace c)) s

/-- The characters that make a line a heading or a list item when they begin it:
`#` and `-`. -/
def isLineMarker (c : Char) : Bool :=
  c == '#' || c == '-'

/-! ## Notions about the scan -/

/-- The character before the position reached once `x` has been passed over. -/
def prevAfter (prev : Option Char) (x : Str) : Option Char :=
  x.foldl (fun _ c => some c) prev

/-- The rule `r` matches only where the subject begins with a character in `p`. -/
def Rule.StartsIn (r : Rule) (p : Char → Prop) : Prop :=
  ∀ prev c s, r prev (c :: s) ≠ none → p c

/-- The rule `r` matches only a subject that holds a character in `p`. -/
def Rule.Needs (r : Rule) (p : Char → Prop) : Prop :=
  ∀ prev s, r prev s ≠ none → ∃ c ∈ s, p c

/-! ## The shape of the output: characters, entities and tags -/

/-- A character that stands for itself in markup: any but `<`, `>` and `&`. -/
def isPlain (c : Char) : Bool :=
  c != '<' && c != '>' && c != '&'

/-- What the escaping stage writes for one character. -/
def escapeChar (c : Char) : Str :=
  if c = '&' then "&amp;".toList
  else if c = '<' then "&lt;".toList
  else if c = '>' then "&gt;".toList
  else [c]

/-- A piece of text the renderer emits as a unit.  The two halves of the
opening anchor tag carry a side: `some false` for `<a href="`, which enters the
`href` attribute, `some true` for the attributes that leave it.  Entities and
all other tags carry `none`. -/
abbrev Token := Str × Option Bool

/-- The side of the text after a token: inside an `href` attribute or not. -/
def sideAfter (a : Bool) : Option Bool → Bool
  | none => a
  | some x => !x

/-- The text `s` is a sequence of plain characters and of tokens of `T`, which
starts on side `a` (inside an `href` attribute or not) and ends on side `b`; a
half of the anchor tag stands only on its own side. -/
inductive Markup (T : List Token) : Bool → Bool → Str → Prop
  | nil (a : Bool) : Markup T a a []
  | char {a b : Bool} {s : Str} (c : Char) :
      isPlain c = true → Markup T a b s → Markup T a b (c :: s)
  | tok {a b : Bool} {s : Str} (t : Str) (k : Option Bool) :
      (t, k) ∈ T → (∀ x, k = some x → x = a) → Markup T (sideAfter a k) b s →
      Markup T a b (t ++ s)

/-- The entities of the escaping stage. -/
def entities : List Str := ["&amp;".toList, "&lt;".toList, "&gt;".toList]

/-- The tags emitted by the code, heading, emphasis and inline-code stages. -/
def inlineTags : List Str :=
  ["<pre>", "</pre>", "<code>", "</code>", "<h1>", "</h1>", "<h2>", "</h2>", "<h3>", "</h3>",
    "<h4>", "</h4>", "<h5>", "</h5>", "<h6>", "</h6>", "<strong>", "</strong>", "<em>",
    "</em>"].map String.toList

/-- The tags emitted by the list and paragraph stages. -/
def blockTags : List Str :=
  ["<li>", "</li>", "<ul>", "</ul>", "<p>", "</p>"].map String.toList

/-- The tags of the output other than the opening anchor tag: `<h1>` to `<h6>`,
`<pre>`, `<code>`, `<strong>`, `<em>`, `<li>`, `<ul>`, `<p>`, their closing tags
and `</a>`. -/
def outputTags : List Str :=
  inlineTags ++ ["</a>".toList] ++ blockTags

/-- Tokens of the text before the link stage. -/
def tokensA : List Token :=
  (entities ++ inlineTags).map (fun t => (t, none))

/-- Tokens of the text after the link stage. -/
def tokensB : List Token :=
  tokensA ++ [(anchorOpen, some false), (anchorAttrs, some true), ("</a>".toList, none)]

/-- Tokens of the output. -/
def tokensC : List Token :=
  tokensB ++ blockTags.map (fun t => (t, none))

/-- The characters that occur in the tokens of `T`. -/
def tokenChars (T : List Token) : List Char :=
  T.flatMap (fun t => t.1)

/-- The first characters of the tokens of `T`. -/
def firstChars (T : List Token) : List Char :=
  T.flatMap (fun t => t.1.take 1)

/-- The characters that stand after the first one in a token of `T`. -/
def tailChars (T : List Token) : List Char :=
  T.flatMap (fun t => t.1.tail)

/-- The characters that stand before the last one in a token of `T`. -/
def initChars (T : List Token) : List Char :=
  T.flatMap (fun t => t.1.dropLast)

/-- The last characters of the tokens of `T`. -/
def lastChars (T : List Token) : List Char :=
  T.flatMap (fun t => t.1.reverse.take 1)

/-- No token of `T` lies across the boundary between `x` and `y`. -/
def NoStraddle (T : List Token) (x y : Str) : Prop :=
  ∀ t ∈ T, ∀ t1 t2, t.1 = t1 ++ t2 → t1 ≠ [] → t2 ≠ [] → t1 <:+ x → t2 <+: y → False

/-- Inside a text that follows the character `p`, the test `P` of where a rule
can start fails at every position. -/
def interiorFrom (P : Option Char → Char → Bool) : Char → Str → Bool
  | _, [] => true
  | p, c :: t => !P (some p) c && interiorFrom P c t

/-- The test `P` of where a rule can start fails at every position of a text but
the first. -/
def interiorOK (P : Option Char → Char → Bool) : Str → Bool
  | [] => true
  | c :: t => interiorFrom P c t

/-- The replacement of the rule `r` holds only characters of the matched text and
characters of tags. -/
def Rule.Emits (r : Rule) : Prop :=
  ∀ prev s rep n, r prev s = some (rep, n) → ∀ c ∈ rep, c ∈ s ∨ c ∈ tokenChars tokensC

/-- The character `c`, standing in the output between `pre` and `post`, is not
source content taken for markup: a `<` starts a tag of the renderer there, a `>`
ends one there, and a `&` starts an entity there.  The opening anchor tag is
`<a href="`, a target, and the attributes `" target="_blank" rel="noreferrer">`. -/
def MarkupAt (pre : Str) (c : Char) (post : Str) : Prop :=
  (c = '<' → (∃ t ∈ outputTags, t <+: c :: post) ∨
    ∃ target rest, c :: post = anchorOpen ++ target ++ anchorAttrs ++ rest) ∧
  (c = '>' → (∃ t ∈ outputTags, t <:+ pre ++ [c]) ∨
    ∃ before target, pre ++ [c] = before ++ anchorOpen ++ target ++ anchorAttrs) ∧
  (c = '&' → ∃ e ∈ entities, e <+: c :: post)

/-- The text `x` is one line that still begins with the bullet prefix `p`; what
follows is a sequence of tokens of `T` without line terminator and, when the
bullet is the asterisk (`star`), without any other asterisk. -/
def BulletLine (T : List Token) (p : Str) (star : Bool) (x : Str) : Prop :=
  ∃ y, x = p ++ y ∧ Markup T false false y ∧ (∀ c ∈ y, isLineTerminator c = false) ∧
    (star = true → '*' ∉ y)

/-! ## The scan -/

theorem prevAfter_append (prev : Option Char) (x y : Str) :
    prevAfter prev (x ++ y) = prevAfter (prevAfter prev x) y := by
  simp [prevAfter, List.foldl_append]

theorem prevAfter_cons (prev : Option Char) (c : Char) (x : Str) :
    prevAfter prev (c :: x) = prevAfter (some c) x := rfl

theorem replaceFrom_nil (r : Rule) (k : Nat) (prev : Option Char) :
    replaceFrom r k prev [] = [] := by
  cases k <;> rfl

theorem replaceFrom_cons_succ (r : Rule) (k : Nat) (prev : Option Char) (c : Char) (s : Str) :
    replaceFrom r (k + 1) prev (c :: s) = replaceFrom r k (some c) s := rfl

theorem replaceFrom_cons_zero (r : Rule) (prev : Option Char) (c : Char) (s : Str) :
    replaceFrom r 0 prev (c :: s) =
      match r prev (c :: s) with
      | some (rep, n) => rep ++ replaceFrom r (n - 1) (some c) s
      | none => c :: replaceFrom r 0 (some c) s := rfl

theorem replaceFrom_skip (r : Rule) (x y : Str) (prev : Option Char) :
    replaceFrom r x.length prev (x ++ y) = replaceFrom r 0 (prevAfter prev x) y := by
  induction x generalizing prev with
  | nil => simp [prevAfter]
  | cons c x ih =>
    rw [List.length_cons, List.cons_append, replaceFrom_cons_succ, ih]; rfl

theorem replaceFrom_none (r : Rule) (prev : Option Char) (c : Char) (s : Str)
    (h : r prev (c :: s) = none) :
    replaceFrom r 0 prev (c :: s) = c :: replaceFrom r 0 (some c) s := by
  rw [replaceFrom_cons_zero, h]

theorem replaceFrom_match (r : Rule) (prev : Option Char) (m rest rep : Str)
    (hm : m ≠ []) (h : r prev (m ++ rest) = some (rep, m.length)) :
    replaceFrom r 0 prev (m ++ rest) = rep ++ replaceFrom r 0 (prevAfter prev m) rest := by
  cases m with
  | nil => exact absurd rfl hm
  | cons c m =>
    have h' : r prev (c :: (m ++ rest)) = some (rep, m.length + 1) := by simpa using h
    rw [List.cons_append, replaceFrom_cons_zero, h']
    simp only [Nat.add_sub_cancel]
    rw [replaceFrom_skip]; rfl

theorem replaceFrom_pass (r : Rule) (x y : Str) (prev : Option Char)
    (h : ∀ a c b, x = a ++ c :: b → r (prevAfter prev a) (c :: (b ++ y)) = none) :
    replaceFrom r 0 prev (x ++ y) = x ++ replaceFrom r 0 (prevAfter prev x) y := by
  induction x generalizing prev with
  | nil => simp [prevAfter]
  | cons c x ih =>
    have h0 : r prev (c :: (x ++ y)) = none := by simpa [prevAfter] using h [] c x rfl
    rw [List.cons_append, replaceFrom_none r prev c _ h0, ih (some c)]
    · rfl
    · intro a d b hx
      simpa [prevAfter] using h (c :: a) d b (by simp [hx])

theorem replaceFrom_id (r : Rule) (s : Str) (prev : Option Char)
    (h : ∀ a c b, s = a ++ c :: b → r (prevAfter prev a) (c :: b) = none) :
    replaceFrom r 0 prev s = s := by
  have := replaceFrom_pass r s [] prev (by simpa using h)
  simpa [replaceFrom_nil] using this

theorem replaceFrom_pass_of_startsIn {r : Rule} {p : Char → Prop} (hr : r.StartsIn p)
    (x y : Str) (prev : Option Char) (hx : ∀ c ∈ x, ¬ p c) :
    replaceFrom r 0 prev (x ++ y) = x ++ replaceFrom r 0 (prevAfter prev x) y := by
  apply replaceFrom_pass
  intro a c b hxe
  by_contra hne
  exact hx c (by simp [hxe]) (hr _ _ _ hne)

theorem replaceFrom_id_of_needs {r : Rule} {p : Char → Prop} (hr : r.Needs p)
    (s : Str) (prev : Option Char) (hs : ∀ c ∈ s, ¬ p c) :
    replaceFrom r 0 prev s = s := by
  apply replaceFrom_id
  intro a c b hse
  by_contra hne
  obtain ⟨d, hd, hp⟩ := hr _ _ hne
  exact hs d (by rw [hse]; exact List.mem_append_right _ hd) hp

theorem replaceAll_id_of_needs {r : Rule} {p : Char → Prop} (hr : r.Needs p)
    (s : Str) (hs : ∀ c ∈ s, ¬ p c) : replaceAll r s = s :=
  replaceFrom_id_of_needs hr s none hs

/-! ## Pieces of regular expressions -/

theorem isPrefixOf_iff (d s : Str) : d.isPrefixOf s = true ↔ ∃ r, s = d ++ r := by
  induction d generalizing s with
  | nil => simp
  | cons x d ih =>
    cases s with
    | nil => simp
    | cons c s =>
      simp only [List.isPrefixOf, Bool.and_eq_true, beq_iff_eq, ih, List.cons_append,
        List.cons.injEq]
      constructor
      · rintro ⟨rfl, r, rfl⟩; exact ⟨r, rfl, rfl⟩
      · rintro ⟨r, rfl, rfl⟩; exact ⟨rfl, r, rfl⟩

theorem literal_eq_some (d s r : Str) : literal d s = some r ↔ s = d ++ r := by
  induction d generalizing s with
  | nil => simp [literal, eq_comm]
  | cons x d ih =>
    cases s with
    | nil => simp [literal]
    | cons c s =>
      by_cases hc : c = x
      · subst hc; simp [literal, ih]
      · simp [literal, hc]

theorem literal_append (d r : Str) : literal d (d ++ r) = some r :=
  (literal_eq_some d (d ++ r) r).2 rfl

theorem literal_cons_ne (x c : Char) (d s : Str) (h : c ≠ x) :
    literal (x :: d) (c :: s) = none := by
  simp [literal, h]

theorem lazyAny_some (d : Str) (s cap : Str) (h : lazyAny d s = some cap) :
    ∃ rest, s = cap ++ d ++ rest := by
  induction s generalizing cap with
  | nil =>
    simp only [lazyAny] at h
    split at h
    · rename_i hp
      obtain ⟨r, hr⟩ := (isPrefixOf_iff d []).1 hp
      simp only [Option.some.injEq] at h
      subst h
      exact ⟨r, by simpa using hr⟩
    · simp at h
  | cons c s ih =>
    simp only [lazyAny] at h
    split at h
    · rename_i hp
      obtain ⟨r, hr⟩ := (isPrefixOf_iff d _).1 hp
      simp only [Option.some.injEq] at h
      subst h
      exact ⟨r, by simpa using hr⟩
    · simp only [Option.map_eq_some'] at h
      obtain ⟨cap', hcap, rfl⟩ := h
      obtain ⟨rest, hrest⟩ := ih cap' hcap
      exact ⟨rest, by simp [hrest]⟩

theorem lazyDot_some (d : Str) (s cap : Str) (h : lazyDot d s = some cap) :
    (∃ rest, s = cap ++ d ++ rest) ∧ ∀ c ∈ cap, isLineTerminator c = false := by
  induction s generalizing cap with
  | nil =>
    simp only [lazyDot] at h
    split at h
    · rename_i hp
      obtain ⟨r, hr⟩ := (isPrefixOf_iff d []).1 hp
      simp only [Option.some.injEq] at h
      subst h
      exact ⟨⟨r, by simpa using hr⟩, by simp⟩
    · simp at h
  | cons c s ih =>
    simp only [lazyDot] at h
    split at h
    · rename_i hp
      obtain ⟨r, hr⟩ := (isPrefixOf_iff d _).1 hp
      simp only [Option.some.injEq] at h
      subst h
      exact ⟨⟨r, by simpa using hr⟩, by simp⟩
    · split at h
      · simp at h
      · rename_i hlt
        simp only [Option.map_eq_some'] at h
        obtain ⟨cap', hcap, rfl⟩ := h
        obtain ⟨⟨rest, hrest⟩, hall⟩ := ih cap' hcap
        refine ⟨⟨rest, by simp [hrest]⟩, ?_⟩
        intro x hx
        rcases List.mem_cons.1 hx with rfl | hx
        · simpa using hlt
        · exact hall x hx

theorem lazyDotPlus_some (d : Str) (s cap : Str) (h : lazyDotPlus d s = some cap) :
    (∃ rest, s = cap ++ d ++ rest) ∧ cap ≠ [] ∧ ∀ c ∈ cap, isLineTerminator c = false := by
  cases s with
  | nil => simp [lazyDotPlus] at h
  | cons c s =>
    simp only [lazyDotPlus] at h
    split at h
    · simp at h
    · rename_i hlt
      simp only [Option.map_eq_some'] at h
      obtain ⟨cap', hcap, rfl⟩ := h
      obtain ⟨⟨rest, hrest⟩, hall⟩ := lazyDot_some d s cap' hcap
      refine ⟨⟨rest, by simp [hrest]⟩, by simp, ?_⟩
      intro x hx
      rcases List.mem_cons.1 hx with rfl | hx
      · simpa using hlt
      · exact hall x hx

theorem runUntil_some (x : Char) (s cap rest : Str) (h : runUntil x s = some (cap, rest)) :
    s = cap ++ x :: rest ∧ cap ≠ [] ∧ x ∉ cap := by
  unfold runUntil at h
  split at h
  · rename_i c cap' y rest' htake hdrop
    simp only [Option.some.injEq, Prod.mk.injEq] at h
    obtain ⟨rfl, rfl⟩ := h
    have hy : y = x := by
      have := List.head_dropWhile_not (· != x) s
      rw [hdrop] at this
      simpa using this
    subst hy
    refine ⟨?_, by simp, ?_⟩
    · rw [← htake, ← hdrop, List.takeWhile_append_dropWhile]
    · intro hmem
      rw [← htake] at hmem
      have := List.mem_takeWhile_imp hmem
      simp at this
  · simp at h

theorem restOfLine_spec (s : Str) :
    (∃ rest, s = restOfLine s ++ rest ∧
      (rest = [] ∨ ∃ c r, rest = c :: r ∧ isLineTerminator c = true)) ∧
    ∀ c ∈ restOfLine s, isLineTerminator c = false := by
  refine ⟨⟨s.dropWhile (fun c => !isLineTerminator c), ?_, ?_⟩, ?_⟩
  · simp [restOfLine, List.takeWhile_append_dropWhile]
  · cases h : s.dropWhile (fun c => !isLineTerminator c) with
    | nil => exact Or.inl rfl
    | cons c r =>
      right
      refine ⟨c, r, rfl, ?_⟩
      have := List.head_dropWhile_not (fun c => !isLineTerminator c) s
      rw [h] at this
      simpa using this
  · intro c hc
    have := List.mem_takeWhile_imp hc
    simpa using this

/-! ## What each rule matches -/

theorem crlfRule_some {prev : Option Char} {s rep : Str} {n : Nat}
    (h : crlfRule prev s = some (rep, n)) :
    ∃ rest, s = ['\r', '\n'] ++ rest ∧ rep = ['\n'] ∧ n = 2 := by
  simp only [crlfRule, Option.map_eq_some', literal_eq_some] at h
  obtain ⟨r, hr, h⟩ := h
  simp only [Prod.mk.injEq] at h
  exact ⟨r, hr, h.1.symm, h.2.symm⟩

theorem charRule_some {x : Char} {out : Str} {prev : Option Char} {s rep : Str} {n : Nat}
    (h : charRule x out prev s = some (rep, n)) :
    ∃ rest, s = x :: rest ∧ rep = out ∧ n = 1 := by
  simp only [charRule, Option.map_eq_some', literal_eq_some] at h
  obtain ⟨r, hr, h⟩ := h
  simp only [Prod.mk.injEq] at h
  exact ⟨r, by simpa using hr, h.1.symm, h.2.symm⟩

theorem codeBlockRule_some {prev : Option Char} {s rep : Str} {n : Nat}
    (h : codeBlockRule prev s = some (rep, n)) :
    ∃ code rest, s = fence ++ code ++ fence ++ rest ∧
      rep = "<pre><code>".toList ++ trim code ++ "</code></pre>".toList ∧
      n = (fence ++ code ++ fence).length := by
  simp only [codeBlockRule, Option.bind_eq_some, Option.map_eq_some', literal_eq_some] at h
  obtain ⟨r, hr, code, hcode, h⟩ := h
  obtain ⟨rest, hrest⟩ := lazyAny_some _ _ _ hcode
  simp only [Prod.mk.injEq] at h
  refine ⟨code, rest, ?_, h.1.symm, ?_⟩
  · rw [hr, hrest]; simp
  · rw [← h.2]; simp [fence]; omega

theorem headingRule_some {marker o cl : Str} {prev : Option Char} {s rep : Str} {n : Nat}
    (h : headingRule marker o cl prev s = some (rep, n)) :
    atLineStart prev = true ∧ ∃ cap rest, s = marker ++ cap ++ rest ∧
      (∀ c ∈ cap, isLineTerminator c = false) ∧
      (rest = [] ∨ ∃ c r, rest = c :: r ∧ isLineTerminator c = true) ∧
      rep = o ++ cap ++ cl ∧ n = (marker ++ cap).length := by
  unfold headingRule at h
  split at h
  · rename_i hp
    simp only [Option.map_eq_some', literal_eq_some] at h
    obtain ⟨r, hr, h⟩ := h
    simp only [Prod.mk.injEq] at h
    obtain ⟨⟨rest, hrest, hlt⟩, hcap⟩ := restOfLine_spec r
    refine ⟨hp, restOfLine r, rest, ?_, hcap, hlt, h.1.symm, ?_⟩
    · rw [hr, List.append_assoc, ← hrest]
    · rw [← h.2]; simp
  · simp at h

theorem emphasisRule_some {d o cl : Str} {prev : Option Char} {s rep : Str} {n : Nat}
    (h : emphasisRule d o cl prev s = some (rep, n)) :
    ∃ cap rest, s = d ++ cap ++ d ++ rest ∧ cap ≠ [] ∧
      (∀ c ∈ cap, isLineTerminator c = false) ∧
      rep = o ++ cap ++ cl ∧ n = (d ++ cap ++ d).length := by
  simp only [emphasisRule, Option.bind_eq_some, Option.map_eq_some', literal_eq_some] at h
  obtain ⟨r, hr, cap, hcap, h⟩ := h
  obtain ⟨⟨rest, hrest⟩, hne, hall⟩ := lazyDotPlus_some _ _ _ hcap
  simp only [Prod.mk.injEq] at h
  refine ⟨cap, rest, ?_, hne, hall, h.1.symm, ?_⟩
  · rw [hr, hrest]; simp
  · rw [← h.2]; simp; omega

theorem inlineCodeRule_some {prev : Option Char} {s rep : Str} {n : Nat}
    (h : inlineCodeRule prev s = some (rep, n)) :
    ∃ cap rest, s = '`' :: cap ++ '`' :: rest ∧ cap ≠ [] ∧ '`' ∉ cap ∧
      rep = "<code>".toList ++ cap ++ "</code>".toList ∧ n = ('`' :: cap ++ ['`']).length := by
  simp only [inlineCodeRule, Option.bind_eq_some, Option.map_eq_some', literal_eq_some] at h
  obtain ⟨r, hr, ⟨cap, rest⟩, hcap, h⟩ := h
  obtain ⟨hs, hne, hnot⟩ := runUntil_some _ _ _ _ hcap
  simp only [Prod.mk.injEq] at h
  refine ⟨cap, rest, ?_, hne, hnot, h.1.symm, ?_⟩
  · rw [hr, hs]; simp
  · rw [← h.2]; simp; omega

theorem linkRule_some {prev : Option Char} {s rep : Str} {n : Nat}
    (h : linkRule prev s = some (rep, n)) :
    ∃ label target rest, s = '[' :: label ++ ']' :: '(' :: target ++ ')' :: rest ∧
      label ≠ [] ∧ ']' ∉ label ∧ target ≠ [] ∧ ')' ∉ target ∧
      rep = anchorOpen ++ target ++ anchorAttrs ++ label ++ "</a>".toList ∧
      n = ('[' :: label ++ ']' :: '(' :: target ++ [')']).length := by
  simp only [linkRule, Option.bind_eq_some, Option.map_eq_some', literal_eq_some] at h
  obtain ⟨r, hr, ⟨label, r1⟩, hlabel, r2, hr2, ⟨target, rest⟩, htarget, h⟩ := h
  obtain ⟨hs1, hne1, hnot1⟩ := runUntil_some _ _ _ _ hlabel
  obtain ⟨hs2, hne2, hnot2⟩ := runUntil_some _ _ _ _ htarget
  simp only [Prod.mk.injEq] at h
  simp only at hr2
  refine ⟨label, target, rest, ?_, hne1, hnot1, hne2, hnot2, h.1.symm, ?_⟩
  · rw [hr, hs1, hr2, hs2]; simp
  · rw [← h.2]; simp; omega

theorem listItemRule_some {prev : Option Char} {s rep : Str} {n : Nat}
    (h : listItemRule prev s = some (rep, n)) :
    atLineStart prev = true ∧ ∃ ws b cap rest, s = ws ++ b :: ' ' :: cap ++ rest ∧
      (∀ c ∈ ws, isWhiteSpace c = true) ∧ (b = '-' ∨ b = '*') ∧
      (∀ c ∈ cap, isLineTerminator c = false) ∧
      (rest = [] ∨ ∃ c r, rest = c :: r ∧ isLineTerminator c = true) ∧
      rep = "<li>".toList ++ cap ++ "</li>".toList ∧
      n = (ws ++ b :: ' ' :: cap).length := by
  unfold listItemRule at h
  split at h
  · rename_i hp
    split at h
    · rename_i b r hdrop
      split at h
      · rename_i hb
        simp only [Option.some.injEq, Prod.mk.injEq] at h
        obtain ⟨⟨rest, hrest, hlt⟩, hcap⟩ := restOfLine_spec r
        refine ⟨hp, s.takeWhile isWhiteSpace, b, restOfLine r, rest, ?_, ?_, hb, hcap, hlt,
          h.1.symm, ?_⟩
        · have := List.takeWhile_append_dropWhile isWhiteSpace s
          rw [hdrop] at this
          rw [List.append_assoc, List.cons_append, List.cons_append, ← hrest, this]
        · intro c hc
          exact List.mem_takeWhile_imp hc
        · rw [← h.2]; simp; omega
      · simp at h
    · simp at h
  · simp at h

theorem listWrapRule_some {prev : Option Char} {s rep : Str} {n : Nat}
    (h : listWrapRule prev s = some (rep, n)) :
    ∃ cap rest, s = "<li>".toList ++ cap ++ "</li>".toList ++ rest ∧
      rep = "<ul>".toList ++ ("<li>".toList ++ cap ++ "</li>".toList) ++ "</ul>".toList ∧
      n = ("<li>".toList ++ cap ++ "</li>".toList).length := by
  simp only [listWrapRule, Option.bind_eq_some, Option.map_eq_some', literal_eq_some] at h
  obtain ⟨r, hr, cap, hcap, h⟩ := h
  obtain ⟨rest, hrest⟩ := lazyAny_some _ _ _ hcap
  simp only [Prod.mk.injEq] at h
  refine ⟨cap, rest, ?_, h.1.symm, ?_⟩
  · rw [hr, hrest]; simp
  · rw [← h.2]; simp; omega

/-! ## Sequences of tokens -/

theorem Markup.cases_head {T : List Token} {a b : Bool} {s : Str} (h : Markup T a b s) :
    (s = [] ∧ a = b) ∨
    (∃ c s', s = c :: s' ∧ isPlain c = true ∧ Markup T a b s') ∨
    (∃ t k s', s = t ++ s' ∧ (t, k) ∈ T ∧ (∀ x, k = some x → x = a) ∧
      Markup T (sideAfter a k) b s') := by
  cases h with
  | nil => exact Or.inl ⟨rfl, rfl⟩
  | char c hc h => exact Or.inr (Or.inl ⟨c, _, rfl, hc, h⟩)
  | tok t k ht hk h => exact Or.inr (Or.inr ⟨t, k, _, rfl, ht, hk, h⟩)

theorem Markup.append {T : List Token} {a b c : Bool} {x y : Str}
    (hx : Markup T a b x) (hy : Markup T b c y) : Markup T a c (x ++ y) := by
  induction hx with
  | nil => simpa using hy
  | char d hd _ ih => exact Markup.char d hd (ih hy)
  | tok t k ht hk _ ih =>
    rw [List.append_assoc]
    exact Markup.tok t k ht hk (ih hy)

theorem Markup.mono {T T' : List Token} (hsub : ∀ t ∈ T, t ∈ T') {a b : Bool} {s : Str}
    (h : Markup T a b s) : Markup T' a b s := by
  induction h with
  | nil => exact Markup.nil _
  | char d hd _ ih => exact Markup.char d hd ih
  | tok t k ht hk _ ih => exact Markup.tok t k (hsub _ ht) hk ih

theorem Markup.of_plain {T : List Token} (a : Bool) {s : Str}
    (h : ∀ c ∈ s, isPlain c = true) : Markup T a a s := by
  induction s with
  | nil => exact Markup.nil _
  | cons c s ih =>
    exact Markup.char c (h c (by simp)) (ih (fun d hd => h d (by simp [hd])))

theorem Markup.single {T : List Token} (a : Bool) (t : Str) (h : (t, none) ∈ T) :
    Markup T a a t := by
  have := Markup.tok (a := a) (b := a) (s := []) t none h (by simp) (Markup.nil _)
  simpa using this

theorem NoStraddle.nil_left (T : List Token) (y : Str) : NoStraddle T [] y := by
  intro t _ t1 t2 _ h1 _ hs _
  exact h1 (List.suffix_nil.1 hs)

theorem NoStraddle.nil_right (T : List Token) (x : Str) : NoStraddle T x [] := by
  intro t _ t1 t2 _ _ h2 _ hp
  exact h2 (List.prefix_nil.1 hp)

theorem NoStraddle.tail {T : List Token} {c : Char} {x y : Str}
    (h : NoStraddle T (c :: x) y) : NoStraddle T x y := by
  intro t ht t1 t2 e h1 h2 hs hp
  exact h t ht t1 t2 e h1 h2 (hs.trans (List.suffix_cons c x)) hp

theorem NoStraddle.drop_left {T : List Token} {w x y : Str}
    (h : NoStraddle T (w ++ x) y) : NoStraddle T x y := by
  intro t ht t1 t2 e h1 h2 hs hp
  exact h t ht t1 t2 e h1 h2 (hs.trans (List.suffix_append w x)) hp

theorem mem_tokenChars {T : List Token} {t : Token} (ht : t ∈ T) {c : Char} (hc : c ∈ t.1) :
    c ∈ tokenChars T := by
  simp only [tokenChars, List.mem_flatMap]
  exact ⟨t, ht, hc⟩

theorem NoStraddle.of_head {T : List Token} {c : Char} (hc : c ∉ tailChars T) (x y : Str) :
    NoStraddle T x (c :: y) := by
  intro t ht t1 t2 e h1 h2 _ hp
  cases t2 with
  | nil => exact h2 rfl
  | cons d t2 =>
    obtain ⟨r, hr⟩ := hp
    simp only [List.cons_append, List.cons.injEq] at hr
    apply hc
    simp only [tailChars, List.mem_flatMap]
    refine ⟨t, ht, ?_⟩
    rw [e, ← hr.1]
    cases t1 with
    | nil => exact absurd rfl h1
    | cons f t1 => simp

theorem NoStraddle.of_last {T : List Token} {c : Char} (hc : c ∉ initChars T) (x y : Str) :
    NoStraddle T (x ++ [c]) y := by
  intro t ht t1 t2 e h1 h2 hs _
  obtain ⟨r, hr⟩ := hs
  rcases List.eq_nil_or_concat t1 with h | ⟨t1', d, h⟩
  · exact h1 h
  · subst h
    simp only [List.concat_eq_append] at e hr
    rw [← List.append_assoc] at hr
    have := List.append_inj_right' hr (by simp)
    simp only [List.cons.injEq, and_true] at this
    apply hc
    simp only [initChars, List.mem_flatMap]
    refine ⟨t, ht, ?_⟩
    cases t2 with
    | nil => exact absurd rfl h2
    | cons f t2 =>
      rw [e, this, List.append_assoc, List.dropLast_append_of_ne_nil _ (by simp)]
      simp [List.dropLast]

theorem Markup.split {T : List Token} {a c : Bool} {s : Str} (h : Markup T a c s) :
    ∀ x y, s = x ++ y → NoStraddle T x y → ∃ b, Markup T a b x ∧ Markup T b c y := by
  induction h with
  | nil =>
    intro x y hs _
    have := List.append_eq_nil.1 hs.symm
    rw [this.1, this.2]
    exact ⟨_, Markup.nil _, Markup.nil _⟩
  | @char a c s d hd h ih =>
    intro x y hs hn
    cases x with
    | nil =>
      simp only [List.nil_append] at hs
      subst hs
      exact ⟨a, Markup.nil _, Markup.char d hd h⟩
    | cons e x =>
      simp only [List.cons_append, List.cons.injEq] at hs
      obtain ⟨rfl, rfl⟩ := hs
      obtain ⟨b, h1, h2⟩ := ih x y rfl hn.tail
      exact ⟨b, Markup.char d hd h1, h2⟩
  | @tok a c s t k ht hk h ih =>
    intro x y hs hn
    rcases List.append_eq_append_iff.1 hs with ⟨a', hx, hy⟩ | ⟨c', ht', hy⟩
    · subst hx
      obtain ⟨b, h1, h2⟩ := ih a' y hy hn.drop_left
      exact ⟨b, Markup.tok t k ht hk h1, h2⟩
    · by_cases hx0 : x = []
      · subst hx0
        simp only [List.nil_append] at hs
        subst hs
        exact ⟨a, Markup.nil _, Markup.tok t k ht hk h⟩
      · by_cases hc0 : c' = []
        · subst hc0
          simp only [List.append_nil, List.nil_append] at ht' hy
          subst ht' hy
          refine ⟨sideAfter a k, ?_, h⟩
          have := Markup.tok (b := sideAfter a k) (s := []) t k ht hk (Markup.nil _)
          simpa using this
        · exfalso
          exact hn (t, k) ht x c' ht' hx0 hc0 (List.suffix_refl x) ⟨s, hy.symm⟩

theorem mem_firstChars {T : List Token} {t : Token} (ht : t ∈ T) {c : Char} {r : Str}
    (hc : t.1 = c :: r) : c ∈ firstChars T := by
  simp only [firstChars, List.mem_flatMap]
  exact ⟨t, ht, by simp [hc]⟩

theorem mem_lastChars {T : List Token} {t : Token} (ht : t ∈ T) {c : Char} {r : Str}
    (hc : t.1 = r ++ [c]) : c ∈ lastChars T := by
  simp only [lastChars, List.mem_flatMap]
  exact ⟨t, ht, by simp [hc]⟩

theorem Markup.uncons {T : List Token} (hne : ∀ t ∈ T, t.1 ≠ []) {a b : Bool} {c : Char}
    {s : Str} (h : Markup T a b (c :: s)) (hc : c ∉ firstChars T) :
    isPlain c = true ∧ Markup T a b s := by
  rcases h.cases_head with ⟨h0, _⟩ | ⟨d, s', hs, hd, h'⟩ | ⟨t, k, s', hs, ht, _, _⟩
  · simp at h0
  · simp only [List.cons.injEq] at hs
    obtain ⟨rfl, rfl⟩ := hs
    exact ⟨hd, h'⟩
  · exfalso
    cases t with
    | nil => exact hne _ ht rfl
    | cons d t =>
      simp only [List.cons_append, List.cons.injEq] at hs
      obtain ⟨rfl, _⟩ := hs
      exact hc (mem_firstChars ht rfl)

theorem Markup.unsnoc {T : List Token} (hne : ∀ t ∈ T, t.1 ≠ []) {a b : Bool} {c : Char}
    {s : Str} (h : Markup T a b (s ++ [c])) (hc : c ∉ lastChars T) :
    isPlain c = true ∧ Markup T a b s := by
  have hn : NoStraddle T s [c] := by
    intro t ht t1 t2 e _ h2 _ hp
    cases t2 with
    | nil => exact h2 rfl
    | cons d t2 =>
      obtain ⟨r, hr⟩ := hp
      simp only [List.cons_append, List.cons.injEq] at hr
      obtain ⟨rfl, hr⟩ := hr
      have := List.append_eq_nil.1 hr
      rw [this.1] at e
      exact hc (mem_lastChars ht e)
  obtain ⟨b', h1, h2⟩ := h.split s [c] rfl hn
  rcases h2.cases_head with ⟨h0, _⟩ | ⟨d, s', hs, hd, h'⟩ | ⟨t, k, s', hs, ht, _, _⟩
  · simp at h0
  · simp only [List.cons.injEq] at hs
    obtain ⟨rfl, rfl⟩ := hs
    rcases h'.cases_head with ⟨_, hb⟩ | ⟨_, _, h0, _⟩ | ⟨t, k, s', hs, ht, _, _⟩
    · subst hb
      exact ⟨hd, h1⟩
    · simp at h0
    · exfalso
      have := List.append_eq_nil.1 hs.symm
      exact hne _ ht this.1
  · exfalso
    cases t with
    | nil => exact hne _ ht rfl
    | cons d t =>
      simp only [List.cons_append, List.cons.injEq] at hs
      obtain ⟨rfl, hs⟩ := hs
      have := List.append_eq_nil.1 hs.symm
      exact hc (mem_lastChars (r := []) ht (by simp [this.1]))

theorem Markup.side_eq_of_chars {T : List Token} (hne : ∀ t ∈ T, t.1 ≠ []) {a b : Bool}
    {s : Str} (h : Markup T a b s) (hs : ∀ c ∈ s, c ∉ firstChars T) : a = b := by
  induction s with
  | nil =>
    rcases h.cases_head with ⟨_, hab⟩ | ⟨_, _, h0, _⟩ | ⟨t, k, s', hs', ht, _, _⟩
    · exact hab
    · simp at h0
    · exact absurd (List.append_eq_nil.1 hs'.symm).1 (hne _ ht)
  | cons c s ih =>
    exact ih (h.uncons hne (hs c (by simp))).2 (fun d hd => hs d (by simp [hd]))

theorem Markup.dropWhile {T : List Token} (hne : ∀ t ∈ T, t.1 ≠ []) (p : Char → Bool)
    (hp : ∀ c, p c = true → c ∉ firstChars T) {a b : Bool} {s : Str}
    (h : Markup T a b s) : Markup T a b (s.dropWhile p) := by
  induction s with
  | nil => simpa using h
  | cons c s ih =>
    by_cases hc : p c = true
    · rw [List.dropWhile_cons_of_pos hc]
      exact ih (h.uncons hne (hp c hc)).2
    · rw [List.dropWhile_cons_of_neg hc]
      exact h

theorem Markup.rdropWhile {T : List Token} (hne : ∀ t ∈ T, t.1 ≠ []) (p : Char → Bool)
    (hp : ∀ c, p c = true → c ∉ lastChars T) {a b : Bool} {s : Str}
    (h : Markup T a b s) : Markup T a b (s.reverse.dropWhile p).reverse := by
  induction s using List.reverseRecOn with
  | nil => simpa using h
  | append_singleton s c ih =>
    by_cases hc : p c = true
    · rw [List.reverse_append, List.reverse_singleton, List.singleton_append,
        List.dropWhile_cons_of_pos hc]
      exact ih (h.unsnoc hne (hp c hc)).2
    · rw [List.reverse_append, List.reverse_singleton, List.singleton_append,
        List.dropWhile_cons_of_neg hc]
      simpa using h

theorem interiorFrom_spec (P : Option Char → Char → Bool) (d : Char) (t : Str)
    (h : interiorFrom P d t = true) (x : Str) (c : Char) (y : Str) (ht : t = x ++ c :: y) :
    P (prevAfter (some d) x) c = false := by
  induction x generalizing d t with
  | nil =>
    subst ht
    simp only [List.nil_append, interiorFrom, Bool.and_eq_true, Bool.not_eq_true'] at h
    exact h.1
  | cons e x ih =>
    subst ht
    simp only [List.cons_append, interiorFrom, Bool.and_eq_true, Bool.not_eq_true'] at h
    exact ih e _ h.2 rfl

theorem replaceFrom_markup_aux {T T' : List Token} (hne : ∀ t ∈ T, t.1 ≠ [])
    (hsub : ∀ t ∈ T, t ∈ T') (r : Rule) (P : Option Char → Char → Bool) (Q : Bool → Prop)
    (hstart : ∀ prev c s, P prev c = false → r prev (c :: s) = none)
    (hint : ∀ t ∈ T, interiorOK P t.1 = true)
    (hQ : ∀ t ∈ T, ∀ a, Q a → (∀ x, t.2 = some x → x = a) → Q (sideAfter a t.2))
    (hm : ∀ a c prev s rep n, Q a → Markup T a c s → r prev s = some (rep, n) →
      ∃ m rest b, s = m ++ rest ∧ m.length = n ∧ m ≠ [] ∧ Markup T' a b rep ∧ Q b ∧
        Markup T b c rest) :
    ∀ (k : Nat) (s : Str), s.length ≤ k → ∀ a c prev, Q a → Markup T a c s →
      Markup T' a c (replaceFrom r 0 prev s) := by
  intro k
  induction k with
  | zero =>
    intro s hs a c prev _ h
    have : s = [] := List.length_eq_zero.1 (Nat.le_zero.1 hs)
    subst this
    rw [replaceFrom_nil]
    exact h.mono hsub
  | succ k ih =>
    intro s hs a c prev hq h
    cases s with
    | nil => rw [replaceFrom_nil]; exact h.mono hsub
    | cons d s =>
      cases hr : r prev (d :: s) with
      | some res =>
        obtain ⟨rep, n⟩ := res
        obtain ⟨m, rest, b, hs', hmn, hm0, hrep, hqb, hrest⟩ := hm a c prev _ rep n hq h hr
        rw [hs'] at hr ⊢
        rw [← hmn] at hr
        rw [replaceFrom_match r prev m rest rep hm0 hr]
        refine hrep.append (ih rest ?_ b c _ hqb hrest)
        have hl : (d :: s).length = m.length + rest.length := by rw [hs']; simp
        have : 0 < m.length := List.length_pos.2 hm0
        simp only [List.length_cons] at hs hl
        omega
      | none =>
        rw [replaceFrom_none r prev d s hr]
        rcases h.cases_head with ⟨h0, _⟩ | ⟨e, s', hs', he, h'⟩ | ⟨t, kk, s', hs', ht, hk, h'⟩
        · simp at h0
        · simp only [List.cons.injEq] at hs'
          obtain ⟨rfl, rfl⟩ := hs'
          exact Markup.char d he (ih s (by simpa using hs) a c _ hq h')
        · cases t with
          | nil => exact absurd rfl (hne _ ht)
          | cons e t =>
            simp only [List.cons_append, List.cons.injEq] at hs'
            obtain ⟨rfl, rfl⟩ := hs'
            rw [replaceFrom_pass r t s' (some d)]
            · have := Markup.tok (d :: t) kk (hsub _ ht) hk
                (ih s' (by simp at hs; omega) _ c (prevAfter (some d) t)
                  (hQ _ ht a hq hk) h')
              simpa using this
            · intro x y z hx
              apply hstart
              have hi := hint _ ht
              simp only [interiorOK] at hi
              exact interiorFrom_spec P d t hi x y z hx

theorem replaceFrom_markup {T T' : List Token} (hne : ∀ t ∈ T, t.1 ≠ [])
    (hsub : ∀ t ∈ T, t ∈ T') (r : Rule) (P : Option Char → Char → Bool)
    (hstart : ∀ prev c s, P prev c = false → r prev (c :: s) = none)
    (hint : ∀ t ∈ T, interiorOK P t.1 = true)
    (hm : ∀ a c prev s rep n, Markup T a c s → r prev s = some (rep, n) →
      ∃ m rest b, s = m ++ rest ∧ m.length = n ∧ m ≠ [] ∧ Markup T' a b rep ∧
        Markup T b c rest)
    {a c : Bool} {s : Str} (prev : Option Char) (h : Markup T a c s) :
    Markup T' a c (replaceFrom r 0 prev s) := by
  refine replaceFrom_markup_aux hne hsub r P (fun _ => True) hstart hint
    (fun _ _ _ _ _ => trivial) ?_ s.length s (Nat.le_refl _) a c prev trivial h
  intro a c prev s rep n _ hs hr
  obtain ⟨m, rest, b, h1, h2, h3, h4, h5⟩ := hm a c prev s rep n hs hr
  exact ⟨m, rest, b, h1, h2, h3, h4, trivial, h5⟩

/-! ## The tokens of the renderer -/

theorem tokensC_ne_nil : ∀ t ∈ tokensC, t.1 ≠ [] := by decide

theorem tokensA_sub_B : ∀ t ∈ tokensA, t ∈ tokensB := by
  intro t ht; exact List.mem_append_left _ ht

theorem tokensB_sub_C : ∀ t ∈ tokensB, t ∈ tokensC := by
  intro t ht; exact List.mem_append_left _ ht

theorem tokensA_sub_C : ∀ t ∈ tokensA, t ∈ tokensC :=
  fun t ht => tokensB_sub_C t (tokensA_sub_B t ht)

theorem tokensA_flat : ∀ t ∈ tokensA, t.2 = none := by decide

theorem ne_nil_of_sub {T : List Token} (hT : ∀ t ∈ T, t ∈ tokensC) : ∀ t ∈ T, t.1 ≠ [] :=
  fun t ht => tokensC_ne_nil t (hT t ht)

theorem flatMap_sub {T T' : List Token} (hT : ∀ t ∈ T, t ∈ T') (f : Token → List Char)
    {c : Char} (hc : c ∈ T.flatMap f) : c ∈ T'.flatMap f := by
  simp only [List.mem_flatMap] at hc ⊢
  obtain ⟨t, ht, h⟩ := hc
  exact ⟨t, hT t ht, h⟩

theorem tokenChars_not_lineTerminator :
    ∀ c ∈ tokenChars tokensC, isLineTerminator c = false := by decide!

theorem firstChars_not_whiteSpace :
    ∀ c ∈ firstChars tokensC, isWhiteSpace c = false := by decide

theorem lastChars_not_whiteSpace :
    ∀ c ∈ lastChars tokensC, isWhiteSpace c = false := by decide

theorem firstChars_sub_tokenChars (T : List Token) {c : Char} (hc : c ∈ firstChars T) :
    c ∈ tokenChars T := by
  simp only [firstChars, tokenChars, List.mem_flatMap] at hc ⊢
  obtain ⟨t, ht, h⟩ := hc
  exact ⟨t, ht, List.mem_of_mem_take h⟩

theorem tailChars_sub_tokenChars (T : List Token) {c : Char} (hc : c ∈ tailChars T) :
    c ∈ tokenChars T := by
  simp only [tailChars, tokenChars, List.mem_flatMap] at hc ⊢
  obtain ⟨t, ht, h⟩ := hc
  exact ⟨t, ht, List.mem_of_mem_tail h⟩

/-- A character that occurs in no token, such as the delimiters of Markdown. -/
theorem sep_cases {c : Char}
    (hc : c = '*' ∨ c = '`' ∨ c = '#' ∨ c = '[' ∨ c = ']' ∨ c = '(' ∨ c = ')' ∨ c = '-' ∨
      isLineTerminator c = true) : c ∉ tokenChars tokensC := by
  rcases hc with rfl | rfl | rfl | rfl | rfl | rfl | rfl | rfl | h
  · decide!
  · decide!
  · decide!
  · decide!
  · decide!
  · decide!
  · decide!
  · decide!
  · intro hm
    rw [tokenChars_not_lineTerminator c hm] at h
    exact Bool.false_ne_true h

theorem sep_not_tokenChar {T : List Token} (hT : ∀ t ∈ T, t ∈ tokensC) {c : Char}
    (hc : c ∉ tokenChars tokensC) : c ∉ tokenChars T :=
  fun h => hc (flatMap_sub hT _ h)

theorem sep_not_first {T : List Token} (hT : ∀ t ∈ T, t ∈ tokensC) {c : Char}
    (hc : c ∉ tokenChars tokensC) : c ∉ firstChars T :=
  fun h => sep_not_tokenChar hT hc (firstChars_sub_tokenChars T h)

theorem sep_not_tail {T : List Token} (hT : ∀ t ∈ T, t ∈ tokensC) {c : Char}
    (hc : c ∉ tokenChars tokensC) : c ∉ tailChars T :=
  fun h => sep_not_tokenChar hT hc (tailChars_sub_tokenChars T h)

theorem whiteSpace_not_first {T : List Token} (hT : ∀ t ∈ T, t ∈ tokensC) {c : Char}
    (hc : isWhiteSpace c = true) : c ∉ firstChars T := by
  intro h
  rw [firstChars_not_whiteSpace c (flatMap_sub hT _ h)] at hc
  exact Bool.false_ne_true hc

theorem whiteSpace_not_last {T : List Token} (hT : ∀ t ∈ T, t ∈ tokensC) {c : Char}
    (hc : isWhiteSpace c = true) : c ∉ lastChars T := by
  intro h
  rw [lastChars_not_whiteSpace c (flatMap_sub hT _ h)] at hc
  exact Bool.false_ne_true hc

theorem lt_not_tailChars : '<' ∉ tailChars tokensC := by decide!

theorem amp_not_tailChars : '&' ∉ tailChars tokensC := by decide!

theorem gt_not_initChars : '>' ∉ initChars tokensC := by decide!

theorem Markup.strip {T : List Token} (hT : ∀ t ∈ T, t ∈ tokensC) {a b : Bool} (d : Str)
    {s : Str} (h : Markup T a b (d ++ s)) (hd : ∀ c ∈ d, c ∉ firstChars T) :
    Markup T a b s := by
  induction d with
  | nil => simpa using h
  | cons c d ih =>
    exact ih ((Markup.uncons (ne_nil_of_sub hT) h (hd c (by simp))).2)
      (fun x hx => hd x (by simp [hx]))

theorem Markup.split_sep {T : List Token} (hT : ∀ t ∈ T, t ∈ tokensC) {a c : Bool}
    {x y : Str} {d : Char} (h : Markup T a c (x ++ d :: y))
    (hd : d ∉ tokenChars tokensC) : ∃ b, Markup T a b x ∧ Markup T b c y := by
  obtain ⟨b, h1, h2⟩ := h.split x (d :: y) rfl (NoStraddle.of_head (sep_not_tail hT hd) x y)
  exact ⟨b, h1, (Markup.uncons (ne_nil_of_sub hT) h2 (sep_not_first hT hd)).2⟩

theorem Markup.split_line {T : List Token} (hT : ∀ t ∈ T, t ∈ tokensC) {a c : Bool}
    {x y : Str} (h : Markup T a c (x ++ y))
    (hy : y = [] ∨ ∃ d r, y = d :: r ∧ isLineTerminator d = true) :
    ∃ b, Markup T a b x ∧ Markup T b c y := by
  rcases hy with rfl | ⟨d, r, rfl, hd⟩
  · exact h.split x [] rfl (NoStraddle.nil_right T x)
  · exact h.split x (d :: r) rfl
      (NoStraddle.of_head (sep_not_tail hT (sep_cases (by simp [hd]))) x r)

theorem Markup.trim {T : List Token} (hT : ∀ t ∈ T, t ∈ tokensC) {a b : Bool} {s : Str}
    (h : Markup T a b s) : Markup T a b (trim s) := by
  unfold AspNetWebHelp.trim
  exact Markup.rdropWhile (ne_nil_of_sub hT) _ (fun c hc => whiteSpace_not_last hT hc)
    (Markup.dropWhile (ne_nil_of_sub hT) _ (fun c hc => whiteSpace_not_first hT hc) h)

theorem Markup.flat_side {T : List Token} (hT : ∀ t ∈ T, t.2 = none) {a b : Bool} {s : Str}
    (h : Markup T a b s) : a = b := by
  induction h with
  | nil => rfl
  | char _ _ _ ih => exact ih
  | tok t k ht _ _ ih =>
    have := hT _ ht
    simp only at this
    subst this
    simpa [sideAfter] using ih

theorem Markup.flat_any {T : List Token} (hT : ∀ t ∈ T, t.2 = none) {a b : Bool} {s : Str}
    (h : Markup T a b s) (x : Bool) : Markup T x x s := by
  induction h with
  | nil => exact Markup.nil _
  | char d hd _ ih => exact Markup.char d hd ih
  | tok t k ht _ _ ih =>
    have := hT _ ht
    simp only at this
    subst this
    exact Markup.tok t none ht (by simp) (by simpa [sideAfter] using ih)

/-! ## Each stage keeps the text a sequence of tokens -/

theorem Markup.tags {T : List Token} (x : Bool) (ts : List Str)
    (h : ∀ t ∈ ts, (t, none) ∈ T) : Markup T x x ts.flatten := by
  induction ts with
  | nil => exact Markup.nil _
  | cons t ts ih =>
    rw [List.flatten_cons]
    exact Markup.tok t none (h t (by simp)) (by simp)
      (by simpa [sideAfter] using ih (fun u hu => h u (by simp [hu])))

theorem interior_star : ∀ t ∈ tokensC, interiorOK (fun _ c => c == '*') t.1 = true := by
  decide!

theorem interior_backtick : ∀ t ∈ tokensC, interiorOK (fun _ c => c == '`') t.1 = true := by
  decide!

theorem interior_bracket : ∀ t ∈ tokensC, interiorOK (fun _ c => c == '[') t.1 = true := by
  decide!

theorem interior_lt : ∀ t ∈ tokensC, interiorOK (fun _ c => c == '<') t.1 = true := by
  decide!

theorem interior_lineStart :
    ∀ t ∈ tokensC, interiorOK (fun prev _ => atLineStart prev) t.1 = true := by
  decide!

theorem codeBlockRule_markup (a c : Bool) (prev : Option Char) (s rep : Str) (n : Nat)
    (h : Markup tokensA a c s) (hr : codeBlockRule prev s = some (rep, n)) :
    ∃ m rest b, s = m ++ rest ∧ m.length = n ∧ m ≠ [] ∧ Markup tokensA a b rep ∧
      Markup tokensA b c rest := by
  obtain ⟨code, rest, hs, hrep, hn⟩ := codeBlockRule_some hr
  have hsep : ∀ x ∈ fence, x ∉ firstChars tokensA := by
    intro x hx
    have : x = '`' := by simpa [fence] using hx
    subst this
    exact sep_not_first tokensA_sub_C (sep_cases (by simp))
  subst hs
  rw [List.append_assoc, List.append_assoc] at h
  have h1 := Markup.strip tokensA_sub_C fence h hsep
  obtain ⟨b, hcode, h2⟩ := Markup.split_sep tokensA_sub_C (d := '`')
    (y := '`' :: '`' :: rest) (by simpa [fence] using h1) (sep_cases (by simp))
  have h3 := Markup.strip tokensA_sub_C ['`', '`'] (s := rest) (by simpa using h2)
    (by
      intro x hx
      have : x = '`' := by simpa using hx
      subst this
      exact sep_not_first tokensA_sub_C (sep_cases (by simp)))
  refine ⟨fence ++ code ++ fence, rest, b, rfl, hn.symm, by simp [fence], ?_, h3⟩
  rw [hrep]
  have ho : Markup tokensA a a "<pre><code>".toList :=
    Markup.tags a ["<pre>".toList, "<code>".toList] (by decide)
  have hc : Markup tokensA b b "</code></pre>".toList :=
    Markup.tags b ["</code>".toList, "</pre>".toList] (by decide)
  exact (ho.append (hcode.trim tokensA_sub_C)).append hc

theorem headingRule_markup {marker o cl : Str}
    (hmk : ∀ x ∈ marker, x = '#' ∨ x = ' ') (hm0 : marker ≠ [])
    (ho : (o, none) ∈ tokensA) (hcl : (cl, none) ∈ tokensA)
    (a c : Bool) (prev : Option Char) (s rep : Str) (n : Nat)
    (h : Markup tokensA a c s) (hr : headingRule marker o cl prev s = some (rep, n)) :
    ∃ m rest b, s = m ++ rest ∧ m.length = n ∧ m ≠ [] ∧ Markup tokensA a b rep ∧
      Markup tokensA b c rest := by
  obtain ⟨_, cap, rest, hs, _, hrest, hrep, hn⟩ := headingRule_some hr
  subst hs
  rw [List.append_assoc] at h
  have h1 := Markup.strip tokensA_sub_C marker h (by
    intro x hx
    rcases hmk x hx with rfl | rfl
    · exact sep_not_first tokensA_sub_C (sep_cases (by simp))
    · exact whiteSpace_not_first tokensA_sub_C (by decide))
  obtain ⟨b, hcap, h2⟩ := Markup.split_line tokensA_sub_C h1 hrest
  refine ⟨marker ++ cap, rest, b, rfl, hn.symm, by simp [hm0], ?_, h2⟩
  rw [hrep]
  exact ((Markup.single a o ho).append hcap).append (Markup.single b cl hcl)

theorem emphasisRule_markup {d o cl : Str} (hd : ∀ x ∈ d, x = '*') (hd0 : d ≠ [])
    (ho : ∀ x, Markup tokensA x x o) (hcl : ∀ x, Markup tokensA x x cl)
    (a c : Bool) (prev : Option Char) (s rep : Str) (n : Nat)
    (h : Markup tokensA a c s) (hr : emphasisRule d o cl prev s = some (rep, n)) :
    ∃ m rest b, s = m ++ rest ∧ m.length = n ∧ m ≠ [] ∧ Markup tokensA a b rep ∧
      Markup tokensA b c rest := by
  obtain ⟨cap, rest, hs, _, _, hrep, hn⟩ := emphasisRule_some hr
  have hstar : ∀ x ∈ d, x ∉ firstChars tokensA := by
    intro x hx
    rw [hd x hx]
    exact sep_not_first tokensA_sub_C (sep_cases (by simp))
  subst hs
  rw [List.append_assoc, List.append_assoc] at h
  have h1 := Markup.strip tokensA_sub_C d h hstar
  cases d with
  | nil => exact absurd rfl hd0
  | cons e d =>
    have he : e = '*' := hd e (by simp)
    subst he
    obtain ⟨b, hcap, h2⟩ := Markup.split_sep tokensA_sub_C (d := '*') (y := d ++ rest)
      (by simpa using h1) (sep_cases (by simp))
    have h3 := Markup.strip tokensA_sub_C d h2 (fun x hx => hstar x (by simp [hx]))
    refine ⟨'*' :: d ++ cap ++ '*' :: d, rest, b, by simp, hn.symm, by simp, ?_, h3⟩
    rw [hrep]
    exact ((ho a).append hcap).append (hcl b)

theorem inlineCodeRule_markup (a c : Bool) (prev : Option Char) (s rep : Str) (n : Nat)
    (h : Markup tokensA a c s) (hr : inlineCodeRule prev s = some (rep, n)) :
    ∃ m rest b, s = m ++ rest ∧ m.length = n ∧ m ≠ [] ∧ Markup tokensA a b rep ∧
      Markup tokensA b c rest := by
  obtain ⟨cap, rest, hs, _, _, hrep, hn⟩ := inlineCodeRule_some hr
  subst hs
  have h1 := (Markup.uncons (ne_nil_of_sub tokensA_sub_C) h
    (sep_not_first tokensA_sub_C (sep_cases (by simp)))).2
  obtain ⟨b, hcap, h2⟩ := Markup.split_sep tokensA_sub_C h1 (sep_cases (by simp))
  refine ⟨'`' :: cap ++ ['`'], rest, b, by simp, hn.symm, by simp, ?_, h2⟩
  rw [hrep]
  exact ((Markup.single a _ (by decide)).append hcap).append (Markup.single b _ (by decide))

theorem linkRule_markup (a c : Bool) (prev : Option Char) (s rep : Str) (n : Nat)
    (ha : a = false) (h : Markup tokensA a c s) (hr : linkRule prev s = some (rep, n)) :
    ∃ m rest b, s = m ++ rest ∧ m.length = n ∧ m ≠ [] ∧ Markup tokensB a b rep ∧
      b = false ∧ Markup tokensA b c rest := by
  obtain ⟨label, target, rest, hs, _, _, _, _, hrep, hn⟩ := linkRule_some hr
  subst hs ha
  have huc := fun {x y : Bool} {e : Char} {t : Str} (hh : Markup tokensA x y (e :: t))
      (hsep : e ∉ tokenChars tokensC) =>
    (Markup.uncons (ne_nil_of_sub tokensA_sub_C) hh (sep_not_first tokensA_sub_C hsep)).2
  simp only [List.cons_append, List.append_assoc] at h
  have h1 := huc h (sep_cases (by simp))
  obtain ⟨b1, hlabel, h2⟩ := Markup.split_sep tokensA_sub_C (x := label) h1
    (sep_cases (by simp))
  have h3 := huc h2 (sep_cases (by simp))
  obtain ⟨b2, htarget, h4⟩ := Markup.split_sep tokensA_sub_C (x := target) h3
    (sep_cases (by simp))
  have e1 := hlabel.flat_side tokensA_flat
  have e2 := htarget.flat_side tokensA_flat
  subst e1 e2
  refine ⟨'[' :: label ++ ']' :: '(' :: target ++ [')'], rest, false, by simp, hn.symm,
    by simp, ?_, rfl, h4⟩
  rw [hrep]
  have ht : Markup tokensB true true target := (htarget.flat_any tokensA_flat true).mono
    tokensA_sub_B
  have hl : Markup tokensB false false label := hlabel.mono tokensA_sub_B
  have hclose : Markup tokensB false false "</a>".toList :=
    Markup.single false _ (by decide)
  have hattrs : Markup tokensB true false (anchorAttrs ++ (label ++ "</a>".toList)) :=
    Markup.tok anchorAttrs (some true) (by decide) (by simp)
      (by simpa [sideAfter] using hl.append hclose)
  have hopen : Markup tokensB false false
      (anchorOpen ++ (target ++ (anchorAttrs ++ (label ++ "</a>".toList)))) :=
    Markup.tok anchorOpen (some false) (by decide) (by simp)
      (by simpa [sideAfter] using ht.append hattrs)
  simpa using hopen

theorem listItemRule_markup (a c : Bool) (prev : Option Char) (s rep : Str) (n : Nat)
    (h : Markup tokensB a c s) (hr : listItemRule prev s = some (rep, n)) :
    ∃ m rest b, s = m ++ rest ∧ m.length = n ∧ m ≠ [] ∧ Markup tokensC a b rep ∧
      Markup tokensB b c rest := by
  obtain ⟨_, ws, d, cap, rest, hs, hws, hd, _, hrest, hrep, hn⟩ := listItemRule_some hr
  subst hs
  have hdsep : d ∉ tokenChars tokensC := by
    rcases hd with rfl | rfl
    · exact sep_cases (by simp)
    · exact sep_cases (by simp)
  rw [List.append_assoc] at h
  obtain ⟨b0, h0, h1⟩ := Markup.split_sep tokensB_sub_C (y := ' ' :: cap ++ rest)
    (by simpa using h) hdsep
  have e0 := h0.side_eq_of_chars (ne_nil_of_sub tokensB_sub_C)
    (fun x hx => whiteSpace_not_first tokensB_sub_C (hws x hx))
  subst e0
  have h2 := (Markup.uncons (ne_nil_of_sub tokensB_sub_C) h1
    (whiteSpace_not_first tokensB_sub_C (by decide))).2
  obtain ⟨b, hcap, h3⟩ := Markup.split_line tokensB_sub_C h2 hrest
  refine ⟨ws ++ d :: ' ' :: cap, rest, b, by simp, hn.symm, by simp, ?_, h3⟩
  rw [hrep]
  exact ((Markup.single a _ (by decide)).append (hcap.mono tokensB_sub_C)).append
    (Markup.single b _ (by decide))

theorem listWrapRule_markup (a c : Bool) (prev : Option Char) (s rep : Str) (n : Nat)
    (h : Markup tokensC a c s) (hr : listWrapRule prev s = some (rep, n)) :
    ∃ m rest b, s = m ++ rest ∧ m.length = n ∧ m ≠ [] ∧ Markup tokensC a b rep ∧
      Markup tokensC b c rest := by
  obtain ⟨cap, rest, hs, hrep, hn⟩ := listWrapRule_some hr
  subst hs
  have hsplit : "<li>".toList ++ cap ++ "</li>".toList =
      ("<li>".toList ++ cap ++ "</li".toList) ++ ['>'] := by simp
  rw [hsplit] at h
  obtain ⟨b, h1, h2⟩ := h.split _ rest rfl (NoStraddle.of_last gt_not_initChars _ _)
  rw [← hsplit] at h1
  refine ⟨"<li>".toList ++ cap ++ "</li>".toList, rest, b, rfl, hn.symm, by simp, ?_, h2⟩
  rw [hrep]
  exact ((Markup.single a _ (by decide)).append h1).append (Markup.single b _ (by decide))

theorem literal_none_of_head {x c : Char} {d s : Str} (h : (c == x) = false) :
    literal (x :: d) (c :: s) = none := by
  simp only [beq_eq_false_iff_ne, ne_eq] at h
  simp [literal, h]

theorem codeBlockRule_start (prev : Option Char) (c : Char) (s : Str)
    (h : (c == '`') = false) : codeBlockRule prev (c :: s) = none := by
  simp [codeBlockRule, fence, literal_none_of_head h]

theorem inlineCodeRule_start (prev : Option Char) (c : Char) (s : Str)
    (h : (c == '`') = false) : inlineCodeRule prev (c :: s) = none := by
  simp [inlineCodeRule, literal_none_of_head h]

theorem emphasisRule_start {d o cl : Str} (hd : ∀ x ∈ d, x = '*') (hd0 : d ≠ [])
    (prev : Option Char) (c : Char) (s : Str)
    (h : (c == '*') = false) : emphasisRule d o cl prev (c :: s) = none := by
  cases d with
  | nil => exact absurd rfl hd0
  | cons e d =>
    have he : e = '*' := hd e (by simp)
    subst he
    simp [emphasisRule, literal_none_of_head h]

theorem linkRule_start (prev : Option Char) (c : Char) (s : Str)
    (h : (c == '[') = false) : linkRule prev (c :: s) = none := by
  simp [linkRule, literal_none_of_head h]

theorem listWrapRule_start (prev : Option Char) (c : Char) (s : Str)
    (h : (c == '<') = false) : listWrapRule prev (c :: s) = none := by
  have : "<li>".toList = '<' :: "li>".toList := rfl
  simp [listWrapRule, this, literal_none_of_head h]

theorem headingRule_start (marker o cl : Str) (prev : Option Char) (s : Str)
    (h : atLineStart prev = false) : headingRule marker o cl prev s = none := by
  simp [headingRule, h]

theorem listItemRule_start (prev : Option Char) (s : Str)
    (h : atLineStart prev = false) : listItemRule prev s = none := by
  simp [listItemRule, h]

theorem interior_sub {T : List Token} (hT : ∀ t ∈ T, t ∈ tokensC)
    {P : Option Char → Char → Bool} (h : ∀ t ∈ tokensC, interiorOK P t.1 = true) :
    ∀ t ∈ T, interiorOK P t.1 = true :=
  fun t ht => h t (hT t ht)

theorem codeBlocks_markup {a c : Bool} {s : Str} (prev : Option Char)
    (h : Markup tokensA a c s) : Markup tokensA a c (replaceFrom codeBlockRule 0 prev s) :=
  replaceFrom_markup (ne_nil_of_sub tokensA_sub_C) (fun _ ht => ht) codeBlockRule
    (fun _ c => c == '`') (fun prev c s hc => codeBlockRule_start prev c s hc)
    (interior_sub tokensA_sub_C interior_backtick) codeBlockRule_markup prev h

theorem headingRule_stage {marker o cl : Str}
    (hmk : ∀ x ∈ marker, x = '#' ∨ x = ' ') (hm0 : marker ≠ [])
    (ho : (o, none) ∈ tokensA) (hcl : (cl, none) ∈ tokensA)
    {a c : Bool} {s : Str} (prev : Option Char) (h : Markup tokensA a c s) :
    Markup tokensA a c (replaceFrom (headingRule marker o cl) 0 prev s) :=
  replaceFrom_markup (ne_nil_of_sub tokensA_sub_C) (fun _ ht => ht) _
    (fun prev _ => atLineStart prev)
    (fun prev _ s hc => headingRule_start marker o cl prev _ hc)
    (interior_sub tokensA_sub_C interior_lineStart)
    (headingRule_markup hmk hm0 ho hcl) prev h

theorem emphasisRule_stage {d o cl : Str} (hd : ∀ x ∈ d, x = '*') (hd0 : d ≠ [])
    (ho : ∀ x, Markup tokensA x x o) (hcl : ∀ x, Markup tokensA x x cl)
    {a c : Bool} {s : Str} (prev : Option Char) (h : Markup tokensA a c s) :
    Markup tokensA a c (replaceFrom (emphasisRule d o cl) 0 prev s) :=
  replaceFrom_markup (ne_nil_of_sub tokensA_sub_C) (fun _ ht => ht) _
    (fun _ c => c == '*') (fun prev c s hc => emphasisRule_start hd hd0 prev c s hc)
    (interior_sub tokensA_sub_C interior_star)
    (emphasisRule_markup hd hd0 ho hcl) prev h

theorem inlineCode_markup {a c : Bool} {s : Str} (prev : Option Char)
    (h : Markup tokensA a c s) : Markup tokensA a c (replaceFrom inlineCodeRule 0 prev s) :=
  replaceFrom_markup (ne_nil_of_sub tokensA_sub_C) (fun _ ht => ht) inlineCodeRule
    (fun _ c => c == '`') (fun prev c s hc => inlineCodeRule_start prev c s hc)
    (interior_sub tokensA_sub_C interior_backtick) inlineCodeRule_markup prev h

theorem links_markup {s : Str} (prev : Option Char)
    (h : Markup tokensA false false s) :
    Markup tokensB false false (replaceFrom linkRule 0 prev s) := by
  refine replaceFrom_markup_aux (ne_nil_of_sub tokensA_sub_C) tokensA_sub_B linkRule
    (fun _ c => c == '[') (fun a => a = false)
    (fun prev c s hc => linkRule_start prev c s hc)
    (interior_sub tokensA_sub_C interior_bracket) ?_ ?_ s.length s (Nat.le_refl _)
    false false prev rfl h
  · intro t ht a ha _
    rw [tokensA_flat t ht]
    exact ha
  · intro a c prev s rep n ha hs hr
    exact linkRule_markup a c prev s rep n ha hs hr

theorem listItems_markup {a c : Bool} {s : Str} (prev : Option Char)
    (h : Markup tokensB a c s) : Markup tokensC a c (replaceFrom listItemRule 0 prev s) :=
  replaceFrom_markup (ne_nil_of_sub tokensB_sub_C) tokensB_sub_C listItemRule
    (fun prev _ => atLineStart prev) (fun prev _ s hc => listItemRule_start prev _ hc)
    (interior_sub tokensB_sub_C interior_lineStart) listItemRule_markup prev h

theorem listWrap_markup {a c : Bool} {s : Str} (prev : Option Char)
    (h : Markup tokensC a c s) : Markup tokensC a c (replaceFrom listWrapRule 0 prev s) :=
  replaceFrom_markup tokensC_ne_nil (fun _ ht => ht) listWrapRule
    (fun _ c => c == '<') (fun prev c s hc => listWrapRule_start prev c s hc)
    interior_lt listWrapRule_markup prev h

theorem headings_markup {a c : Bool} {s : Str} (h : Markup tokensA a c s) :
    Markup tokensA a c (headings s) := by
  unfold headings replaceAll
  have hk : ∀ (k : Nat) (x : Char), x ∈ List.replicate k '#' ++ [' '] → x = '#' ∨ x = ' ' := by
    intro k x hx
    rcases List.mem_append.1 hx with h1 | h1
    · exact Or.inl (List.eq_of_mem_replicate h1)
    · exact Or.inr (by simpa using h1)
  refine headingRule_stage (hk 1) (by decide) (by decide) (by decide) none ?_
  refine headingRule_stage (hk 2) (by decide) (by decide) (by decide) none ?_
  refine headingRule_stage (hk 3) (by decide) (by decide) (by decide) none ?_
  refine headingRule_stage (hk 4) (by decide) (by decide) (by decide) none ?_
  refine headingRule_stage (hk 5) (by decide) (by decide) (by decide) none ?_
  exact headingRule_stage (hk 6) (by decide) (by decide) (by decide) none h

theorem emphasis_markup {a c : Bool} {s : Str} (h : Markup tokensA a c s) :
    Markup tokensA a c (emphasis s) := by
  unfold emphasis replaceAll
  have hk : ∀ (k : Nat) (x : Char), x ∈ List.replicate k '*' → x = '*' :=
    fun k x hx => List.eq_of_mem_replicate hx
  refine emphasisRule_stage (hk 1) (by decide)
    (fun x => Markup.tags x ["<em>".toList] (by decide))
    (fun x => Markup.tags x ["</em>".toList] (by decide)) none ?_
  refine emphasisRule_stage (hk 2) (by decide)
    (fun x => Markup.tags x ["<strong>".toList] (by decide))
    (fun x => Markup.tags x ["</strong>".toList] (by decide)) none ?_
  exact emphasisRule_stage (hk 3) (by decide)
    (fun x => Markup.tags x ["<strong>".toList, "<em>".toList] (by decide))
    (fun x => Markup.tags x ["</em>".toList, "</strong>".toList] (by decide)) none h

/-! ## The escaping stage -/

theorem replaceFrom_charRule (x : Char) (rep : Str) (prev : Option Char) (s : Str) :
    replaceFrom (charRule x rep) 0 prev s = s.flatMap (fun c => if c = x then rep else [c]) := by
  induction s generalizing prev with
  | nil => simp [replaceFrom_nil]
  | cons c s ih =>
    by_cases hc : c = x
    · subst hc
      have := replaceFrom_match (charRule c rep) prev [c] s rep (by simp)
        (by simp [charRule, literal])
      simp only [List.singleton_append] at this
      rw [this, ih]
      simp
    · rw [replaceFrom_none _ _ _ _ (by simp [charRule, literal, hc]), ih]
      simp [hc]

theorem escapeHtml_eq (s : Str) : escapeHtml s = s.flatMap escapeChar := by
  unfold escapeHtml replaceAll
  rw [replaceFrom_charRule, replaceFrom_charRule, replaceFrom_charRule,
    List.flatMap_assoc, List.flatMap_assoc]
  congr 1
  funext c
  unfold escapeChar
  by_cases h1 : c = '&'
  · subst h1; decide
  · by_cases h2 : c = '<'
    · subst h2; decide
    · by_cases h3 : c = '>'
      · subst h3; decide
      · simp [h1, h2, h3]

theorem escapeHtml_append (x y : Str) : escapeHtml (x ++ y) = escapeHtml x ++ escapeHtml y := by
  simp [escapeHtml_eq]

theorem escapeChar_markup (a : Bool) (c : Char) : Markup tokensA a a (escapeChar c) := by
  unfold escapeChar
  split
  · exact Markup.single a _ (by decide)
  · split
    · exact Markup.single a _ (by decide)
    · split
      · exact Markup.single a _ (by decide)
      · rename_i h1 h2 h3
        exact Markup.of_plain a (by simp [isPlain, h1, h2, h3])

theorem escapeHtml_markup (a : Bool) (s : Str) : Markup tokensA a a (escapeHtml s) := by
  rw [escapeHtml_eq]
  induction s with
  | nil => exact Markup.nil _
  | cons c s ih =>
    rw [List.flatMap_cons]
    exact (escapeChar_markup a c).append ih

/-! ## The paragraph stage -/

theorem splitFrom_cons (inRun : Bool) (c : Char) (s : Str) :
    splitFrom inRun (c :: s) =
      if inRun && c == '\n' then splitFrom true s
      else if c == '\n' && s.head? == some '\n' then [] :: splitFrom true s
      else
        match splitFrom false s with
        | b :: bs => (c :: b) :: bs
        | [] => [[c]] := by
  rw [splitFrom]

theorem splitFrom_ne_nil (inRun : Bool) (s : Str) : splitFrom inRun s ≠ [] := by
  induction s generalizing inRun with
  | nil => simp [splitFrom]
  | cons c s ih =>
    rw [splitFrom_cons]
    split
    · exact ih true
    · split
      · simp
      · split <;> simp

theorem joinLines_cons (b : Str) (bs : List Str) (h : bs ≠ []) :
    joinLines (b :: bs) = b ++ '\n' :: joinLines bs := by
  cases bs with
  | nil => exact absurd rfl h
  | cons b' bs => rfl

theorem splitFrom_false_cases (s : Str) :
    splitFrom false s = [s] ∨
    ∃ b rest, splitFrom false s = b :: splitFrom true rest ∧ s = b ++ '\n' :: rest ∧
      rest.head? = some '\n' := by
  induction s with
  | nil => left; rfl
  | cons c s ih =>
    rw [splitFrom_cons]
    simp only [Bool.false_and, Bool.false_eq_true, if_false]
    split
    · rename_i h
      simp only [Bool.and_eq_true, beq_iff_eq] at h
      right
      exact ⟨[], s, rfl, by simp [h.1], h.2⟩
    · rcases ih with h1 | ⟨b, rest, h1, h2, h3⟩
      · left
        rw [h1]
      · right
        rw [h1]
        exact ⟨c :: b, rest, rfl, by simp [h2], h3⟩

theorem splitFrom_true (s : Str) :
    splitFrom true s = splitFrom false (s.dropWhile (· == '\n')) := by
  induction s with
  | nil => rfl
  | cons c s ih =>
    by_cases hc : c = '\n'
    · subst hc
      rw [List.dropWhile_cons_of_pos (by simp), ← ih, splitFrom_cons]
      simp
    · rw [List.dropWhile_cons_of_neg (by simpa using hc), splitFrom_cons, splitFrom_cons]
      simp [hc]

theorem renderBlock_markup {a c : Bool} {s : Str} (h : Markup tokensC a c s) :
    Markup tokensC a c (renderBlock s) := by
  have ht := h.trim (fun _ ht => ht)
  unfold renderBlock
  simp only
  split
  · rename_i he
    have : trim s = [] := by simpa using he
    rw [this] at ht
    rcases ht.cases_head with ⟨_, hab⟩ | ⟨_, _, h0, _⟩ | ⟨t, k, s', hs', ht', _, _⟩
    · subst hab; exact Markup.nil _
    · simp at h0
    · exact absurd (List.append_eq_nil.1 hs'.symm).1 (tokensC_ne_nil _ ht')
  · split
    · exact ht
    · exact ((Markup.single a _ (by decide)).append ht).append (Markup.single c _ (by decide))

theorem paragraphs_markup_aux (k : Nat) : ∀ (s : Str), s.length ≤ k → ∀ a c,
    Markup tokensC a c s → Markup tokensC a c (joinLines ((splitFrom false s).map renderBlock)) := by
  induction k with
  | zero =>
    intro s hs a c h
    have : s = [] := List.length_eq_zero.1 (Nat.le_zero.1 hs)
    subst this
    simpa [splitFrom, joinLines] using renderBlock_markup h
  | succ k ih =>
    intro s hs a c h
    rcases splitFrom_false_cases s with h1 | ⟨b, rest, h1, h2, h3⟩
    · rw [h1]
      simpa [joinLines] using renderBlock_markup h
    · rw [h1, List.map_cons, joinLines_cons _ _ (by simp [splitFrom_ne_nil]), splitFrom_true]
      subst h2
      obtain ⟨b1, hb, hrest⟩ := Markup.split_sep (fun _ ht => ht) h (sep_cases (by decide))
      have hrest' := Markup.dropWhile tokensC_ne_nil (· == '\n')
        (fun x hx => sep_not_first (fun _ ht => ht)
          (sep_cases (by simp only [beq_iff_eq] at hx; subst hx; decide))) hrest
      refine (renderBlock_markup hb).append (Markup.char '\n' (by decide) (ih _ ?_ b1 c hrest'))
      have := (List.dropWhile_sublist (l := rest) (· == '\n')).length_le
      simp only [List.length_append, List.length_cons] at hs
      omega

theorem paragraphs_markup {a c : Bool} {s : Str} (h : Markup tokensC a c s) :
    Markup tokensC a c (paragraphs s) :=
  paragraphs_markup_aux s.length s (Nat.le_refl _) a c h

/-- The output of `renderMarkdown` is a sequence of plain characters, entities
and tags, in which the two halves of every opening anchor tag alternate. -/
theorem renderMarkdown_markup (s : Str) : Markup tokensC false false (renderMarkdown s) := by
  unfold renderMarkdown
  split
  · exact Markup.nil _
  · apply paragraphs_markup
    unfold lists replaceAll
    apply listWrap_markup
    apply listItems_markup
    unfold links replaceAll
    apply links_markup
    unfold inlineCode replaceAll
    apply inlineCode_markup
    apply emphasis_markup
    apply headings_markup
    unfold codeBlocks replaceAll
    apply codeBlocks_markup
    exact escapeHtml_markup false _

/-! ## Reading the token sequence at one position -/

theorem Markup.cases_last {T : List Token} {a b : Bool} {s : Str} (h : Markup T a b s) :
    (s = [] ∧ a = b) ∨
    (∃ s' c, s = s' ++ [c] ∧ isPlain c = true ∧ Markup T a b s') ∨
    (∃ s' t k a', s = s' ++ t ∧ (t, k) ∈ T ∧ Markup T a a' s' ∧
      (∀ x, k = some x → x = a') ∧ b = sideAfter a' k) := by
  induction h with
  | nil => exact Or.inl ⟨rfl, rfl⟩
  | @char a b s d hd h ih =>
    right
    rcases ih with ⟨rfl, rfl⟩ | ⟨s', c, rfl, hc, h'⟩ | ⟨s', t, k, a', rfl, ht, h', hk, hb⟩
    · exact Or.inl ⟨[], d, rfl, hd, Markup.nil _⟩
    · exact Or.inl ⟨d :: s', c, rfl, hc, Markup.char d hd h'⟩
    · exact Or.inr ⟨d :: s', t, k, a', rfl, ht, Markup.char d hd h', hk, hb⟩
  | @tok a b s u j hu hj h ih =>
    right
    rcases ih with ⟨rfl, rfl⟩ | ⟨s', c, rfl, hc, h'⟩ | ⟨s', t, k, a', rfl, ht, h', hk, hb⟩
    · exact Or.inr ⟨[], u, j, a, by simp, hu, Markup.nil _, hj, rfl⟩
    · exact Or.inl ⟨u ++ s', c, by simp, hc, Markup.tok u j hu hj h'⟩
    · exact Or.inr ⟨u ++ s', t, k, a', by simp, ht, Markup.tok u j hu hj h', hk, hb⟩

theorem tokensC_side_false {t : Str} (h : (t, some false) ∈ tokensC) : t = anchorOpen := by
  simp only [tokensC, tokensB, tokensA, List.mem_append, List.mem_map, Prod.mk.injEq,
    List.mem_cons, List.mem_singleton, List.not_mem_nil] at h
  rcases h with (⟨_, _, _, h⟩ | h) | ⟨_, _, _, h⟩
  · simp at h
  · rcases h with h | h | h
    · exact h.1
    · simp at h
    · simp at h
  · simp at h

theorem tokensC_side_true {t : Str} (h : (t, some true) ∈ tokensC) : t = anchorAttrs := by
  simp only [tokensC, tokensB, tokensA, List.mem_append, List.mem_map, Prod.mk.injEq,
    List.mem_cons, List.mem_singleton, List.not_mem_nil] at h
  rcases h with (⟨_, _, _, h⟩ | h) | ⟨_, _, _, h⟩
  · simp at h
  · rcases h with h | h | h
    · simp at h
    · exact h.1
    · simp at h
  · simp at h

theorem tokensC_open_tag : ∀ t ∈ tokensC, t.2 = none → t.1.head? = some '<' →
    t.1 ∈ outputTags := by decide!

theorem tokensC_close_tag : ∀ t ∈ tokensC, t.2 = none → t.1.getLast? = some '>' →
    t.1 ∈ outputTags := by decide!

theorem tokensC_entity : ∀ t ∈ tokensC, t.1.head? = some '&' → t.1 ∈ entities := by decide!

theorem Markup.exists_attrs {a b : Bool} {s : Str} (h : Markup tokensC a b s)
    (ha : a = true) (hb : b = false) : ∃ target rest, s = target ++ anchorAttrs ++ rest := by
  induction h with
  | nil => subst ha; exact absurd hb (by decide)
  | char d _ _ ih =>
    obtain ⟨target, rest, hs⟩ := ih ha hb
    exact ⟨d :: target, rest, by simp [hs]⟩
  | @tok a b s t k ht hk _ ih =>
    cases k with
    | none =>
      obtain ⟨target, rest, hs⟩ := ih (by simpa [sideAfter] using ha) hb
      exact ⟨t ++ target, rest, by simp [hs]⟩
    | some x =>
      have hx : x = a := hk x rfl
      subst hx ha
      exact ⟨[], s, by simp [tokensC_side_true ht]⟩

theorem Markup.exists_open {a b : Bool} {s : Str} (h : Markup tokensC a b s)
    (ha : a = false) (hb : b = true) : ∃ before target, s = before ++ anchorOpen ++ target := by
  induction h with
  | nil => subst ha; exact absurd hb (by decide)
  | char d _ _ ih =>
    obtain ⟨before, target, hs⟩ := ih ha hb
    exact ⟨d :: before, target, by simp [hs]⟩
  | @tok a b s t k ht hk _ ih =>
    cases k with
    | none =>
      obtain ⟨before, target, hs⟩ := ih (by simpa [sideAfter] using ha) hb
      exact ⟨t ++ before, target, by simp [hs]⟩
    | some x =>
      have hx : x = a := hk x rfl
      subst hx ha
      exact ⟨[], s, by simp [tokensC_side_false ht]⟩

theorem Markup.at_lt {pre post : Str} (h : Markup tokensC false false (pre ++ '<' :: post)) :
    (∃ t ∈ outputTags, t <+: '<' :: post) ∨
    ∃ target rest, '<' :: post = anchorOpen ++ target ++ anchorAttrs ++ rest := by
  obtain ⟨b, _, h2⟩ := h.split pre ('<' :: post) rfl (NoStraddle.of_head lt_not_tailChars _ _)
  rcases h2.cases_head with ⟨h0, _⟩ | ⟨d, s', hs, hd, _⟩ | ⟨t, k, s', hs, ht, hk, h'⟩
  · simp at h0
  · simp only [List.cons.injEq] at hs
    rw [← hs.1] at hd
    exact absurd hd (by decide)
  · have hhead : t.head? = some '<' := by
      cases t with
      | nil => exact absurd rfl (tokensC_ne_nil _ ht)
      | cons e t =>
        simp only [List.cons_append, List.cons.injEq] at hs
        simp [← hs.1]
    cases k with
    | none => exact Or.inl ⟨t, tokensC_open_tag _ ht rfl hhead, ⟨s', hs.symm⟩⟩
    | some x =>
      right
      cases x with
      | true =>
        rw [tokensC_side_true ht] at hhead
        exact absurd hhead (by decide)
      | false =>
        obtain ⟨target, rest, hs'⟩ := h'.exists_attrs rfl rfl
        exact ⟨target, rest, by rw [hs, tokensC_side_false ht, hs']; simp⟩

theorem Markup.at_gt {pre post : Str} (h : Markup tokensC false false (pre ++ '>' :: post)) :
    (∃ t ∈ outputTags, t <:+ pre ++ ['>']) ∨
    ∃ before target, pre ++ ['>'] = before ++ anchorOpen ++ target ++ anchorAttrs := by
  obtain ⟨b, h1, _⟩ := h.split (pre ++ ['>']) post (by simp)
    (NoStraddle.of_last gt_not_initChars _ _)
  rcases h1.cases_last with ⟨h0, _⟩ | ⟨s', d, hs, hd, _⟩ | ⟨s', t, k, a', hs, ht, h', hk, _⟩
  · simp at h0
  · have := List.append_inj_right' hs (by simp)
    simp only [List.cons.injEq, and_true] at this
    rw [← this] at hd
    exact absurd hd (by decide)
  · have hlast : t.getLast? = some '>' := by
      have h2 : (pre ++ ['>']).getLast? = (s' ++ t).getLast? := by rw [hs]
      rw [List.getLast?_append_of_ne_nil _ (tokensC_ne_nil _ ht)] at h2
      rw [← h2]
      simp
    cases k with
    | none => exact Or.inl ⟨t, tokensC_close_tag _ ht rfl hlast, ⟨s', hs.symm⟩⟩
    | some x =>
      right
      have hx : x = a' := hk x rfl
      subst hx
      cases x with
      | false =>
        rw [tokensC_side_false ht] at hlast
        exact absurd hlast (by decide)
      | true =>
        obtain ⟨before, target, hs'⟩ := h'.exists_open rfl rfl
        exact ⟨before, target, by rw [hs, tokensC_side_true ht, hs']⟩

theorem Markup.at_amp {pre post : Str} (h : Markup tokensC false false (pre ++ '&' :: post)) :
    ∃ e ∈ entities, e <+: '&' :: post := by
  obtain ⟨b, _, h2⟩ := h.split pre ('&' :: post) rfl (NoStraddle.of_head amp_not_tailChars _ _)
  rcases h2.cases_head with ⟨h0, _⟩ | ⟨d, s', hs, hd, _⟩ | ⟨t, k, s', hs, ht, hk, h'⟩
  · simp at h0
  · simp only [List.cons.injEq] at hs
    rw [← hs.1] at hd
    exact absurd hd (by decide)
  · have hhead : t.head? = some '&' := by
      cases t with
      | nil => exact absurd rfl (tokensC_ne_nil _ ht)
      | cons e t =>
        simp only [List.cons_append, List.cons.injEq] at hs
        simp [← hs.1]
    exact ⟨t, tokensC_entity _ ht hhead, ⟨s', hs.symm⟩⟩

/-! ## Stages that leave a text unchanged -/

theorem crlfRule_needs : Rule.Needs crlfRule (· = '\r') := by
  intro prev s h
  obtain ⟨⟨rep, n⟩, hr⟩ := Option.ne_none_iff_exists'.1 h
  obtain ⟨rest, hs, _⟩ := crlfRule_some hr
  exact ⟨'\r', by simp [hs], rfl⟩

theorem charRule_needs (x : Char) (out : Str) : Rule.Needs (charRule x out) (· = x) := by
  intro prev s h
  obtain ⟨⟨rep, n⟩, hr⟩ := Option.ne_none_iff_exists'.1 h
  obtain ⟨rest, hs, _⟩ := charRule_some hr
  exact ⟨x, by simp [hs], rfl⟩

theorem codeBlockRule_needs : Rule.Needs codeBlockRule (· = '`') := by
  intro prev s h
  obtain ⟨⟨rep, n⟩, hr⟩ := Option.ne_none_iff_exists'.1 h
  obtain ⟨code, rest, hs, _⟩ := codeBlockRule_some hr
  exact ⟨'`', by simp [hs, fence], rfl⟩

theorem headingRule_needs (marker o cl : Str) (hm : marker.head? = some '#') :
    Rule.Needs (headingRule marker o cl) (· = '#') := by
  intro prev s h
  obtain ⟨⟨rep, n⟩, hr⟩ := Option.ne_none_iff_exists'.1 h
  obtain ⟨_, cap, rest, hs, _⟩ := headingRule_some hr
  refine ⟨'#', ?_, rfl⟩
  rw [hs]
  exact List.mem_append_left _ (List.mem_append_left _ (List.mem_of_mem_head? hm))

theorem emphasisRule_needs (d o cl : Str) (hd : d.head? = some '*') :
    Rule.Needs (emphasisRule d o cl) (· = '*') := by
  intro prev s h
  obtain ⟨⟨rep, n⟩, hr⟩ := Option.ne_none_iff_exists'.1 h
  obtain ⟨cap, rest, hs, _⟩ := emphasisRule_some hr
  refine ⟨'*', ?_, rfl⟩
  rw [hs]
  exact List.mem_append_left _ (List.mem_append_left _ (List.mem_append_left _
    (List.mem_of_mem_head? hd)))

theorem inlineCodeRule_needs : Rule.Needs inlineCodeRule (· = '`') := by
  intro prev s h
  obtain ⟨⟨rep, n⟩, hr⟩ := Option.ne_none_iff_exists'.1 h
  obtain ⟨cap, rest, hs, _⟩ := inlineCodeRule_some hr
  exact ⟨'`', by simp [hs], rfl⟩

theorem linkRule_needs : Rule.Needs linkRule (· = '[') := by
  intro prev s h
  obtain ⟨⟨rep, n⟩, hr⟩ := Option.ne_none_iff_exists'.1 h
  obtain ⟨label, target, rest, hs, _⟩ := linkRule_some hr
  exact ⟨'[', by simp [hs], rfl⟩

theorem listItemRule_needs : Rule.Needs listItemRule (fun c => c = '-' ∨ c = '*') := by
  intro prev s h
  obtain ⟨⟨rep, n⟩, hr⟩ := Option.ne_none_iff_exists'.1 h
  obtain ⟨_, ws, b, cap, rest, hs, _, hb, _⟩ := listItemRule_some hr
  exact ⟨b, by simp [hs], hb⟩

theorem listWrapRule_needs : Rule.Needs listWrapRule (· = '<') := by
  intro prev s h
  obtain ⟨⟨rep, n⟩, hr⟩ := Option.ne_none_iff_exists'.1 h
  obtain ⟨cap, rest, hs, _⟩ := listWrapRule_some hr
  refine ⟨'<', ?_, rfl⟩
  rw [hs]
  exact List.mem_append_left _ (List.mem_append_left _ (List.mem_append_left _ (by decide)))

theorem normalizeLineEndings_id (s : Str) (h : '\r' ∉ s) : normalizeLineEndings s = s :=
  replaceAll_id_of_needs crlfRule_needs s (fun c hc e => h (e ▸ hc))

theorem escapeHtml_id (s : Str) (h : ∀ c ∈ s, isPlain c = true) : escapeHtml s = s := by
  rw [escapeHtml_eq]
  induction s with
  | nil => rfl
  | cons c s ih =>
    have hc := h c (by simp)
    simp only [isPlain, Bool.and_eq_true, bne_iff_ne, ne_eq] at hc
    rw [List.flatMap_cons, ih (fun d hd => h d (by simp [hd]))]
    simp [escapeChar, hc.1.1, hc.1.2, hc.2]

theorem codeBlocks_id (s : Str) (h : '`' ∉ s) : codeBlocks s = s :=
  replaceAll_id_of_needs codeBlockRule_needs s (fun c hc e => h (e ▸ hc))

theorem headings_id (s : Str) (h : '#' ∉ s) : headings s = s := by
  have key : ∀ marker o cl, marker.head? = some '#' →
      replaceAll (headingRule marker o cl) s = s :=
    fun marker o cl hm =>
      replaceAll_id_of_needs (headingRule_needs marker o cl hm) s (fun c hc e => h (e ▸ hc))
  unfold headings
  rw [key "###### ".toList _ _ rfl, key "##### ".toList _ _ rfl, key "#### ".toList _ _ rfl,
    key "### ".toList _ _ rfl, key "## ".toList _ _ rfl, key "# ".toList _ _ rfl]

theorem emphasis_id (s : Str) (h : '*' ∉ s) : emphasis s = s := by
  have key : ∀ d o cl, d.head? = some '*' → replaceAll (emphasisRule d o cl) s = s :=
    fun d o cl hd =>
      replaceAll_id_of_needs (emphasisRule_needs d o cl hd) s (fun c hc e => h (e ▸ hc))
  unfold emphasis
  rw [key "***".toList _ _ rfl, key "**".toList _ _ rfl, key "*".toList _ _ rfl]

theorem inlineCode_id (s : Str) (h : '`' ∉ s) : inlineCode s = s :=
  replaceAll_id_of_needs inlineCodeRule_needs s (fun c hc e => h (e ▸ hc))

theorem links_id (s : Str) (h : '[' ∉ s) : links s = s :=
  replaceAll_id_of_needs linkRule_needs s (fun c hc e => h (e ▸ hc))

theorem listItems_id (s : Str) (prev : Option Char) (h1 : '-' ∉ s) (h2 : '*' ∉ s) :
    replaceFrom listItemRule 0 prev s = s :=
  replaceFrom_id_of_needs listItemRule_needs s prev (fun c hc e => by
    rcases e with e | e
    · exact h1 (e ▸ hc)
    · exact h2 (e ▸ hc))

theorem tokensB_not_li : ∀ t ∈ tokensB, t.1.take 2 ≠ ['<', 'l'] ∧ 2 ≤ t.1.length := by decide!

theorem listWrap_id_of_markup {a b : Bool} {s : Str} (prev : Option Char)
    (h : Markup tokensB a b s) : replaceFrom listWrapRule 0 prev s = s := by
  apply replaceFrom_id
  intro x c y hs
  by_contra hne
  obtain ⟨⟨rep, n⟩, hr⟩ := Option.ne_none_iff_exists'.1 hne
  obtain ⟨cap, rest, hcy, _⟩ := listWrapRule_some hr
  have hc : c = '<' := by
    have : (c :: y).head? = some '<' := by rw [hcy]; rfl
    simpa using this
  subst hc hs
  obtain ⟨b', _, h2⟩ := h.split x ('<' :: y) rfl
    (NoStraddle.of_head (fun hm => lt_not_tailChars (flatMap_sub tokensB_sub_C _ hm)) _ _)
  rcases h2.cases_head with ⟨h0, _⟩ | ⟨d, s', hs, hd, _⟩ | ⟨t, k, s', hs, ht, _, _⟩
  · simp at h0
  · simp only [List.cons.injEq] at hs
    rw [← hs.1] at hd
    exact absurd hd (by decide)
  · obtain ⟨h1, h2⟩ := tokensB_not_li _ ht
    apply h1
    have h3 : ('<' :: y).take 2 = ['<', 'l'] := by rw [hcy]; rfl
    rw [hs, List.take_append_of_le_length h2] at h3
    exact h3

theorem lists_id_of_markup {a b : Bool} {s : Str} (h : Markup tokensB a b s)
    (h1 : '-' ∉ s) (h2 : '*' ∉ s) : lists s = s := by
  unfold lists replaceAll
  rw [listItems_id s none h1 h2, listWrap_id_of_markup none h]

/-! ## The paragraph stage on one block -/

theorem splitFrom_one (s : Str) (h : '\n' ∉ s) : splitFrom false s = [s] := by
  induction s with
  | nil => rfl
  | cons c s ih =>
    have hc : c ≠ '\n' := fun e => h (by simp [e])
    rw [splitFrom_cons, ih (fun hm => h (by simp [hm]))]
    simp [hc]

theorem trim_id (s : Str) (h1 : ∀ c, s.head? = some c → isWhiteSpace c = false)
    (h2 : ∀ c, s.getLast? = some c → isWhiteSpace c = false) : trim s = s := by
  unfold trim
  have e1 : s.dropWhile isWhiteSpace = s := by
    cases s with
    | nil => rfl
    | cons c s => rw [List.dropWhile_cons_of_neg (by simp [h1 c rfl])]
  rw [e1]
  have e2 : s.reverse.dropWhile isWhiteSpace = s.reverse := by
    cases hs : s.reverse with
    | nil => rfl
    | cons c r =>
      have : s.getLast? = some c := by
        rw [← List.head?_reverse, hs]; rfl
      rw [List.dropWhile_cons_of_neg (by simp [h2 c this])]
  rw [e2, List.reverse_reverse]

theorem paragraphs_one (s : Str) (h : '\n' ∉ s) : paragraphs s = renderBlock s := by
  unfold paragraphs splitBlocks
  rw [splitFrom_one s h]
  rfl

/-! ## Plain text -/

theorem alnum_range (c : Char) (h : c.isAlphanum = true) :
    (65 ≤ c.toNat ∧ c.toNat ≤ 90 ∨ 97 ≤ c.toNat ∧ c.toNat ≤ 122) ∨
      48 ≤ c.toNat ∧ c.toNat ≤ 57 := by
  simp only [Char.isAlphanum, Char.isAlpha, Char.isUpper, Char.isLower, Char.isDigit,
    Bool.or_eq_true, Bool.and_eq_true, decide_eq_true_eq] at h
  exact h

theorem alnum_not_whiteSpace (c : Char) (h : c.isAlphanum = true) :
    isWhiteSpace c = false := by
  have hr := alnum_range c h
  simp only [isWhiteSpace, Bool.or_eq_false_iff, beq_eq_false_iff_ne, ne_eq,
    Bool.and_eq_false_imp, decide_eq_true_eq, decide_eq_false_iff_not, not_le]
  repeat' constructor
  all_goals first
    | (intro e; subst e; revert hr; decide)
    | (intro h1; omega)

theorem plainChar_ne {c x : Char} (h : (c.isAlphanum || c == ' ') = true)
    (hx : (x.isAlphanum || x == ' ') = false) : c ≠ x := by
  intro e
  subst e
  rw [h] at hx
  exact Bool.noConfusion hx

theorem plainText_mem {t : Str} (h : isPlainText t = true) {c : Char} (hc : c ∈ t) :
    (c.isAlphanum || c == ' ') = true := by
  unfold isPlainText at h
  exact List.all_eq_true.1 h c hc

theorem plainText_not_mem {t : Str} (h : isPlainText t = true) {x : Char}
    (hx : (x.isAlphanum || x == ' ') = false) : x ∉ t :=
  fun hm => plainChar_ne (plainText_mem h hm) hx rfl

theorem plainChar_isPlain {c : Char} (h : (c.isAlphanum || c == ' ') = true) :
    isPlain c = true := by
  simp only [isPlain, Bool.and_eq_true, bne_iff_ne, ne_eq]
  exact ⟨⟨plainChar_ne h (by decide), plainChar_ne h (by decide)⟩, plainChar_ne h (by decide)⟩

theorem plainChar_not_lineTerminator {c : Char} (h : (c.isAlphanum || c == ' ') = true) :
    isLineTerminator c = false := by
  simp only [isLineTerminator, Bool.or_eq_false_iff, beq_eq_false_iff_ne, ne_eq]
  exact ⟨⟨⟨plainChar_ne h (by decide), plainChar_ne h (by decide)⟩,
    plainChar_ne h (by decide)⟩, plainChar_ne h (by decide)⟩

theorem isWord_plainText {t : Str} (h : isWord t = true) : isPlainText t = true := by
  unfold isWord at h
  unfold isPlainText
  rw [List.all_eq_true] at h ⊢
  intro c hc
  simp [h c hc]

theorem interiorText_plainText {t : Str} (h : isInteriorText t = true) :
    isPlainText t = true := by
  simp only [isInteriorText, Bool.and_eq_true] at h
  exact h.1.1

theorem interiorText_head {t : Str} (h : isInteriorText t = true) (c : Char)
    (hc : t.head? = some c) : isWhiteSpace c = false := by
  have hp := interiorText_plainText h
  simp only [isInteriorText, Bool.and_eq_true, bne_iff_ne, ne_eq] at h
  have hm : c ∈ t := List.mem_of_mem_head? hc
  have := plainText_mem hp hm
  simp only [Bool.or_eq_true, beq_iff_eq] at this
  rcases this with h1 | h1
  · exact alnum_not_whiteSpace c h1
  · subst h1; exact absurd hc h.1.2

theorem interiorText_last {t : Str} (h : isInteriorText t = true) (c : Char)
    (hc : t.getLast? = some c) : isWhiteSpace c = false := by
  have hp := interiorText_plainText h
  simp only [isInteriorText, Bool.and_eq_true, bne_iff_ne, ne_eq] at h
  have hm : c ∈ t := List.mem_of_getLast?_eq_some hc
  have := plainText_mem hp hm
  simp only [Bool.or_eq_true, beq_iff_eq] at this
  rcases this with h1 | h1
  · exact alnum_not_whiteSpace c h1
  · subst h1; exact absurd hc h.2

theorem hasBlankLine_of_not_mem (s : Str) (h : '\n' ∉ s) : hasBlankLine s = false := by
  induction s with
  | nil => rfl
  | cons c s ih =>
    have hc : c ≠ '\n' := fun e => h (by simp [e])
    simp [hasBlankLine, hc, ih (fun hm => h (by simp [hm]))]

theorem splitFrom_single (s : Str) (h : hasBlankLine s = false) : splitFrom false s = [s] := by
  induction s with
  | nil => rfl
  | cons c s ih =>
    simp only [hasBlankLine, Bool.or_eq_false_iff] at h
    rw [splitFrom_cons, ih h.2]
    simp [h.1]

theorem paragraphs_single (s : Str) (h : hasBlankLine s = false) :
    paragraphs s = renderBlock s := by
  unfold paragraphs splitBlocks
  rw [splitFrom_single s h]
  rfl

/-! ## An unterminated fence -/

theorem codeBlockRule_count {prev : Option Char} {s : Str} (h : codeBlockRule prev s ≠ none) :
    6 ≤ s.count '`' := by
  obtain ⟨⟨rep, n⟩, hr⟩ := Option.ne_none_iff_exists'.1 h
  obtain ⟨code, rest, hs, _⟩ := codeBlockRule_some hr
  rw [hs]
  simp only [List.count_append, fence]
  have : "```".toList.count '`' = 3 := by decide
  omega

theorem codeBlocks_id_of_count (s : Str) (prev : Option Char) (h : s.count '`' < 6) :
    replaceFrom codeBlockRule 0 prev s = s := by
  apply replaceFrom_id
  intro x c y hs
  by_contra hne
  have := codeBlockRule_count hne
  rw [hs, List.count_append] at h
  omega

theorem inlineCodeRule_shape {prev : Option Char} {s : Str} (h : inlineCodeRule prev s ≠ none) :
    ∃ c cap rest, s = '`' :: c :: cap ++ '`' :: rest ∧ c ≠ '`' := by
  obtain ⟨⟨rep, n⟩, hr⟩ := Option.ne_none_iff_exists'.1 h
  obtain ⟨cap, rest, hs, hne, hnot, _⟩ := inlineCodeRule_some hr
  cases cap with
  | nil => exact absurd rfl hne
  | cons c cap =>
    exact ⟨c, cap, rest, by simpa using hs, fun e => hnot (by simp [e])⟩

theorem inlineCode_fence_text (t : Str) (prev : Option Char) (ht : '`' ∉ t) :
    replaceFrom inlineCodeRule 0 prev ('`' :: '`' :: '`' :: t) = '`' :: '`' :: '`' :: t := by
  have hn1 : ∀ p (r : Str), inlineCodeRule p ('`' :: '`' :: r) = none := by
    intro p r
    by_contra hne
    obtain ⟨c, cap, rest, hs, hc⟩ := inlineCodeRule_shape hne
    simp only [List.cons_append, List.cons.injEq, true_and] at hs
    exact hc hs.1.symm
  have hn2 : ∀ p, inlineCodeRule p ('`' :: t) = none := by
    intro p
    by_contra hne
    obtain ⟨c, cap, rest, hs, hc⟩ := inlineCodeRule_shape hne
    simp only [List.cons_append, List.cons.injEq, true_and] at hs
    exact ht (by rw [hs]; simp)
  rw [replaceFrom_none _ _ _ _ (hn1 _ _), replaceFrom_none _ _ _ _ (hn1 _ _),
    replaceFrom_none _ _ _ _ (hn2 _),
    replaceFrom_id_of_needs inlineCodeRule_needs t _ (fun c hc e => ht (e ▸ hc))]

/-- C10, as the code has it: an unterminated fence is not a code block.  For
every non-empty plain text `t` with interior spaces, the text made of three
backticks, a line feed and `t` is rendered as one paragraph that still holds
the backticks. -/
theorem unterminated_fence_is_paragraph (t : Str) (ht : isInteriorText t = true)
    (hne : t ≠ []) :
    renderMarkdown ("```\n".toList ++ t) = "<p>```\n".toList ++ t ++ "</p>".toList := by
  have hp := interiorText_plainText ht
  have hnot : ∀ x : Char, (x.isAlphanum || x == ' ') = false → x ∉ "```\n".toList →
      x ∉ "```\n".toList ++ t := by
    intro x hx hx' hm
    rcases List.mem_append.1 hm with h | h
    · exact hx' h
    · exact plainText_not_mem hp hx h
  have hplain : ∀ c ∈ "```\n".toList ++ t, isPlain c = true := by
    intro c hc
    rcases List.mem_append.1 hc with h | h
    · exact (by decide : ∀ c ∈ "```\n".toList, isPlain c = true) c h
    · exact plainChar_isPlain (plainText_mem hp h)
  have hmk : Markup tokensB false false ("```\n".toList ++ t) := Markup.of_plain false hplain
  have htick : '`' ∉ '\n' :: t := by
    intro hm
    rcases List.mem_cons.1 hm with h | h
    · exact absurd h (by decide)
    · exact plainText_not_mem hp (by decide) h
  unfold renderMarkdown
  rw [if_neg (by simp), normalizeLineEndings_id _ (hnot _ (by decide) (by decide)),
    escapeHtml_id _ hplain]
  have hcode : codeBlocks ("```\n".toList ++ t) = "```\n".toList ++ t := by
    apply codeBlocks_id_of_count
    rw [List.count_append, List.count_eq_zero_of_not_mem (plainText_not_mem hp (by decide))]
    decide
  rw [hcode, headings_id _ (hnot _ (by decide) (by decide)),
    emphasis_id _ (hnot _ (by decide) (by decide))]
  have hinline : inlineCode ("```\n".toList ++ t) = "```\n".toList ++ t :=
    inlineCode_fence_text ('\n' :: t) none htick
  rw [hinline, links_id _ (hnot _ (by decide) (by decide)),
    lists_id_of_markup hmk (hnot _ (by decide) (by decide)) (hnot _ (by decide) (by decide))]
  have hblank : hasBlankLine ("```\n".toList ++ t) = false := by
    cases t with
    | nil => exact absurd rfl hne
    | cons c t =>
      have hc : c ≠ '\n' := plainChar_ne (plainText_mem hp (by simp)) (by decide)
      have := hasBlankLine_of_not_mem (c :: t) (plainText_not_mem hp (by decide))
      simp [hasBlankLine, hc] at this ⊢
      exact this
  rw [paragraphs_single _ hblank]
  have htrim : trim ("```\n".toList ++ t) = "```\n".toList ++ t := by
    apply trim_id
    · intro c hc
      have : c = '`' := by simpa using hc.symm
      subst this
      decide
    · intro c hc
      rw [List.getLast?_append_of_ne_nil _ hne] at hc
      exact interiorText_last ht c hc
  unfold renderBlock
  simp only [htrim]
  rw [if_neg (by simp), if_neg (by simp [startsWithBlockTag])]
  simp

/-- Witness for `unterminated_fence_is_paragraph`, at the text of the claim. -/
theorem unterminated_fence_is_paragraph_witness :
    isInteriorText "abc".toList = true ∧ "abc".toList ≠ [] ∧
    renderMarkdown "```\nabc".toList = "<p>```\nabc</p>".toList :=
  ⟨by decide, by decide, unterminated_fence_is_paragraph "abc".toList (by decide) (by decide)⟩

/-- C10 as stated fails: the text of the claim's witness does not give a code block. -/
theorem unterminated_fence_counterexample :
    renderMarkdown "```\nabc".toList ≠ "<pre><code>abc</code></pre>".toList := by
  decide!

/-! ## Paragraphs -/

theorem renderBlock_plain (t : Str) (ht : isInteriorText t = true) (hne : t ≠ []) :
    renderBlock t = "<p>".toList ++ t ++ "</p>".toList := by
  have htrim : trim t = t := trim_id t (interiorText_head ht) (interiorText_last ht)
  unfold renderBlock
  simp only [htrim]
  rw [if_neg (by simpa using hne)]
  cases t with
  | nil => exact absurd rfl hne
  | cons c t =>
    have hc : c ≠ '<' :=
      plainChar_ne (plainText_mem (interiorText_plainText ht) (by simp)) (by decide)
    rw [if_neg (by simp [startsWithBlockTag, hc])]

theorem splitFrom_block (a rest : Str) (ha : '\n' ∉ a) :
    splitFrom false (a ++ '\n' :: '\n' :: rest) = a :: splitFrom true ('\n' :: rest) := by
  induction a with
  | nil => rw [List.nil_append, splitFrom_cons]; simp
  | cons c a ih =>
    have hc : c ≠ '\n' := fun e => ha (by simp [e])
    rw [List.cons_append, splitFrom_cons, ih (fun hm => ha (by simp [hm]))]
    simp [hc]

theorem splitFrom_run (k : Nat) (b : Str) (hb : '\n' ∉ b) :
    splitFrom true (List.replicate k '\n' ++ b) = [b] := by
  induction k with
  | zero =>
    rw [List.replicate_zero, List.nil_append, splitFrom_true]
    have : b.dropWhile (· == '\n') = b := by
      cases b with
      | nil => rfl
      | cons c b =>
        have hc : c ≠ '\n' := fun e => hb (by simp [e])
        rw [List.dropWhile_cons_of_neg (by simpa using hc)]
    rw [this, splitFrom_one b hb]
  | succ k ih =>
    rw [List.replicate_succ, List.cons_append, splitFrom_cons]
    simpa using ih

/-- C9: two or more line feeds between two plain texts give exactly two
paragraphs, each with its own text, joined by one line feed, and no empty
paragraph. -/
theorem two_paragraphs (a b : Str) (k : Nat) (ha : isInteriorText a = true)
    (hb : isInteriorText b = true) (ha0 : a ≠ []) (hb0 : b ≠ []) (hk : 2 ≤ k) :
    renderMarkdown (a ++ List.replicate k '\n' ++ b) =
      "<p>".toList ++ a ++ "</p>\n<p>".toList ++ b ++ "</p>".toList := by
  have hpa := interiorText_plainText ha
  have hpb := interiorText_plainText hb
  have hnot : ∀ x : Char, (x.isAlphanum || x == ' ') = false → x ≠ '\n' →
      x ∉ a ++ List.replicate k '\n' ++ b := by
    intro x hx hx' hm
    rcases List.mem_append.1 hm with h | h
    · rcases List.mem_append.1 h with h | h
      · exact plainText_not_mem hpa hx h
      · exact hx' (List.eq_of_mem_replicate h)
    · exact plainText_not_mem hpb hx h
  have hplain : ∀ c ∈ a ++ List.replicate k '\n' ++ b, isPlain c = true := by
    intro c hc
    rcases List.mem_append.1 hc with h | h
    · rcases List.mem_append.1 h with h | h
      · exact plainChar_isPlain (plainText_mem hpa h)
      · rw [List.eq_of_mem_replicate h]; decide
    · exact plainChar_isPlain (plainText_mem hpb h)
  have hmk : Markup tokensB false false (a ++ List.replicate k '\n' ++ b) :=
    Markup.of_plain false hplain
  unfold renderMarkdown
  rw [if_neg (by simp [ha0]), normalizeLineEndings_id _ (hnot _ (by decide) (by decide)),
    escapeHtml_id _ hplain, codeBlocks_id _ (hnot _ (by decide) (by decide)),
    headings_id _ (hnot _ (by decide) (by decide)),
    emphasis_id _ (hnot _ (by decide) (by decide)),
    inlineCode_id _ (hnot _ (by decide) (by decide)),
    links_id _ (hnot _ (by decide) (by decide)),
    lists_id_of_markup hmk (hnot _ (by decide) (by decide)) (hnot _ (by decide) (by decide))]
  obtain ⟨j, rfl⟩ : ∃ j, k = j + 2 := ⟨k - 2, by omega⟩
  unfold paragraphs splitBlocks
  have hsplit : a ++ List.replicate (j + 2) '\n' ++ b =
      a ++ '\n' :: '\n' :: (List.replicate j '\n' ++ b) := by
    simp [List.replicate_succ]
  rw [hsplit, splitFrom_block a _ (plainText_not_mem hpa (by decide))]
  have hrun := splitFrom_run (j + 1) b (plainText_not_mem hpb (by decide))
  rw [List.replicate_succ, List.cons_append] at hrun
  rw [hrun]
  simp only [List.map_cons, List.map_nil, joinLines]
  rw [renderBlock_plain a ha ha0, renderBlock_plain b hb hb0]
  simp

/-- Witness for `two_paragraphs`, at the text of the claim. -/
theorem two_paragraphs_witness :
    isInteriorText "para one".toList = true ∧ isInteriorText "para two".toList = true ∧
    "para one".toList ≠ [] ∧ "para two".toList ≠ [] ∧ 2 ≤ 3 ∧
    renderMarkdown "para one\n\n\npara two".toList =
      "<p>para one</p>\n<p>para two</p>".toList :=
  ⟨by decide, by decide, by decide, by decide, by decide,
    two_paragraphs "para one".toList "para two".toList 3 (by decide) (by decide) (by decide)
      (by decide) (by decide)⟩

/-! ## Headings -/

theorem restOfLine_id (t : Str) (ht : ∀ c ∈ t, isLineTerminator c = false) :
    restOfLine t = t := by
  unfold restOfLine
  rw [List.takeWhile_eq_self_iff]
  intro c hc
  simp [ht c hc]

theorem replaceFrom_heading_inside (marker o cl : Str) (s : Str) (prev : Option Char)
    (hp : atLineStart prev = false) (hs : ∀ c ∈ s, isLineTerminator c = false) :
    replaceFrom (headingRule marker o cl) 0 prev s = s := by
  induction s generalizing prev with
  | nil => rfl
  | cons c s ih =>
    rw [replaceFrom_none _ _ _ _ (headingRule_start marker o cl prev _ hp),
      ih (some c) (by simpa [atLineStart] using hs c (by simp))
        (fun d hd => hs d (by simp [hd]))]

theorem heading_skip (marker o cl : Str) (s : Str)
    (hs : ∀ c ∈ s, isLineTerminator c = false) (h0 : literal marker s = none) :
    replaceAll (headingRule marker o cl) s = s := by
  unfold replaceAll
  cases s with
  | nil => rfl
  | cons c s =>
    rw [replaceFrom_none _ _ _ _ (by simp [headingRule, h0]),
      replaceFrom_heading_inside marker o cl s (some c)
        (by simpa [atLineStart] using hs c (by simp)) (fun d hd => hs d (by simp [hd]))]

theorem heading_hit (marker o cl : Str) (t : Str) (hm : marker ≠ [])
    (ht : ∀ c ∈ t, isLineTerminator c = false) :
    replaceAll (headingRule marker o cl) (marker ++ t) = o ++ t ++ cl := by
  unfold replaceAll
  have hr : headingRule marker o cl none ((marker ++ t) ++ []) =
      some (o ++ t ++ cl, (marker ++ t).length) := by
    simp [headingRule, atLineStart, literal_append, restOfLine_id t ht]
  have := replaceFrom_match _ none (marker ++ t) [] _ (by simp [hm]) hr
  simpa [replaceFrom_nil] using this

theorem heading_text_noLT (n : Nat) (t : Str) (ht : isPlainText t = true) :
    ∀ c ∈ List.replicate n '#' ++ ' ' :: t, isLineTerminator c = false := by
  intro c hc
  rcases List.mem_append.1 hc with h | h
  · rw [List.eq_of_mem_replicate h]; decide
  · rcases List.mem_cons.1 h with h | h
    · rw [h]; decide
    · exact plainChar_not_lineTerminator (plainText_mem ht h)

theorem headings_level (n : Nat) (t : Str) (hn : 1 ≤ n ∧ n ≤ 6) (ht : isPlainText t = true) :
    headings (List.replicate n '#' ++ ' ' :: t) = headingOpen n ++ t ++ headingClose n := by
  have hlt : ∀ c ∈ t, isLineTerminator c = false :=
    fun c hc => plainChar_not_lineTerminator (plainText_mem ht hc)
  have hsharp : ∀ (o cl : Str), '#' ∉ o → '#' ∉ cl → '#' ∉ o ++ t ++ cl := by
    intro o cl ho hcl hm
    rcases List.mem_append.1 hm with h | h
    · rcases List.mem_append.1 h with h | h
      · exact ho h
      · exact plainText_not_mem ht (by decide) h
    · exact hcl h
  have key : ∀ marker o cl o' cl', marker.head? = some '#' → '#' ∉ o' → '#' ∉ cl' →
      replaceAll (headingRule marker o cl) (o' ++ t ++ cl') = o' ++ t ++ cl' :=
    fun marker o cl o' cl' hm ho hcl =>
      replaceAll_id_of_needs (headingRule_needs marker o cl hm) _
        (fun c hc e => hsharp o' cl' ho hcl (e ▸ hc))
  have hskip := fun (marker o cl : Str) (h0 : literal marker (List.replicate n '#' ++ ' ' :: t)
      = none) => heading_skip marker o cl _ (heading_text_noLT n t ht) h0
  obtain ⟨h1, h6⟩ := hn
  unfold headings
  interval_cases n
  · rw [hskip _ _ _ (by simp [literal]), hskip _ _ _ (by simp [literal]),
      hskip _ _ _ (by simp [literal]), hskip _ _ _ (by simp [literal]),
      hskip _ _ _ (by simp [literal])]
    exact heading_hit "# ".toList _ _ t (by decide) hlt
  · rw [hskip _ _ _ (by simp [literal]), hskip _ _ _ (by simp [literal]),
      hskip _ _ _ (by simp [literal]), hskip _ _ _ (by simp [literal])]
    rw [show List.replicate 2 '#' ++ ' ' :: t = "## ".toList ++ t from rfl,
      heading_hit "## ".toList _ _ t (by decide) hlt]
    exact key "# ".toList _ _ _ _ rfl (by decide) (by decide)
  · rw [hskip _ _ _ (by simp [literal]), hskip _ _ _ (by simp [literal]),
      hskip _ _ _ (by simp [literal])]
    rw [show List.replicate 3 '#' ++ ' ' :: t = "### ".toList ++ t from rfl,
      heading_hit "### ".toList _ _ t (by decide) hlt,
      key "## ".toList _ _ _ _ rfl (by decide) (by decide)]
    exact key "# ".toList _ _ _ _ rfl (by decide) (by decide)
  · rw [hskip _ _ _ (by simp [literal]), hskip _ _ _ (by simp [literal])]
    rw [show List.replicate 4 '#' ++ ' ' :: t = "#### ".toList ++ t from rfl,
      heading_hit "#### ".toList _ _ t (by decide) hlt,
      key "### ".toList _ _ _ _ rfl (by decide) (by decide),
      key "## ".toList _ _ _ _ rfl (by decide) (by decide)]
    exact key "# ".toList _ _ _ _ rfl (by decide) (by decide)
  · rw [hskip _ _ _ (by simp [literal])]
    rw [show List.replicate 5 '#' ++ ' ' :: t = "##### ".toList ++ t from rfl,
      heading_hit "##### ".toList _ _ t (by decide) hlt,
      key "#### ".toList _ _ _ _ rfl (by decide) (by decide),
      key "### ".toList _ _ _ _ rfl (by decide) (by decide),
      key "## ".toList _ _ _ _ rfl (by decide) (by decide)]
    exact key "# ".toList _ _ _ _ rfl (by decide) (by decide)
  · rw [show List.replicate 6 '#' ++ ' ' :: t = "###### ".toList ++ t from rfl,
      heading_hit "###### ".toList _ _ t (by decide) hlt,
      key "##### ".toList _ _ _ _ rfl (by decide) (by decide),
      key "#### ".toList _ _ _ _ rfl (by decide) (by decide),
      key "### ".toList _ _ _ _ rfl (by decide) (by decide),
      key "## ".toList _ _ _ _ rfl (by decide) (by decide)]
    exact key "# ".toList _ _ _ _ rfl (by decide) (by decide)

theorem heading_tags_mem (n : Nat) (hn : 1 ≤ n ∧ n ≤ 6) :
    (headingOpen n, none) ∈ tokensB ∧ (headingClose n, none) ∈ tokensB := by
  obtain ⟨h1, h6⟩ := hn
  interval_cases n <;> decide

theorem heading_tags_chars (n : Nat) (hn : 1 ≤ n ∧ n ≤ 6) (x : Char)
    (hx : x = '*' ∨ x = '`' ∨ x = '[' ∨ x = '-' ∨ x = '\n') :
    x ∉ headingOpen n ∧ x ∉ headingClose n := by
  obtain ⟨h1, h6⟩ := hn
  interval_cases n <;> rcases hx with rfl | rfl | rfl | rfl | rfl <;> decide

theorem heading_tags_shape (n : Nat) (hn : 1 ≤ n ∧ n ≤ 6) :
    ∃ d r r', headingOpen n = '<' :: 'h' :: d :: r ∧ ('1' ≤ d && d ≤ '6') = true ∧
      headingClose n = r' ++ ['>'] := by
  obtain ⟨h1, h6⟩ := hn
  interval_cases n
  · exact ⟨'1', ['>'], "</h1".toList, rfl, by decide, rfl⟩
  · exact ⟨'2', ['>'], "</h2".toList, rfl, by decide, rfl⟩
  · exact ⟨'3', ['>'], "</h3".toList, rfl, by decide, rfl⟩
  · exact ⟨'4', ['>'], "</h4".toList, rfl, by decide, rfl⟩
  · exact ⟨'5', ['>'], "</h5".toList, rfl, by decide, rfl⟩
  · exact ⟨'6', ['>'], "</h6".toList, rfl, by decide, rfl⟩

/-- C3: a line of `n` characters `#` (`n` from 1 to 6), a space and a plain text
`t` is rendered as exactly the heading element of level `n` that holds `t`,
not wrapped in a paragraph. -/
theorem heading_line (n : Nat) (t : Str) (hn : 1 ≤ n ∧ n ≤ 6) (ht : isPlainText t = true) :
    renderMarkdown (List.replicate n '#' ++ ' ' :: t) =
      headingOpen n ++ t ++ headingClose n := by
  have hnot : ∀ x : Char, (x.isAlphanum || x == ' ') = false → x ≠ '#' →
      x ∉ List.replicate n '#' ++ ' ' :: t := by
    intro x hx hx' hm
    rcases List.mem_append.1 hm with h | h
    · exact hx' (List.eq_of_mem_replicate h)
    · rcases List.mem_cons.1 h with h | h
      · subst h; exact absurd hx (by decide)
      · exact plainText_not_mem ht hx h
  have hplain : ∀ c ∈ List.replicate n '#' ++ ' ' :: t, isPlain c = true := by
    intro c hc
    rcases List.mem_append.1 hc with h | h
    · rw [List.eq_of_mem_replicate h]; decide
    · rcases List.mem_cons.1 h with h | h
      · rw [h]; decide
      · exact plainChar_isPlain (plainText_mem ht h)
  have hout : ∀ x : Char, (x.isAlphanum || x == ' ') = false →
      (x = '*' ∨ x = '`' ∨ x = '[' ∨ x = '-' ∨ x = '\n') →
      x ∉ headingOpen n ++ t ++ headingClose n := by
    intro x hx hx' hm
    obtain ⟨ho, hc⟩ := heading_tags_chars n hn x hx'
    rcases List.mem_append.1 hm with h | h
    · rcases List.mem_append.1 h with h | h
      · exact ho h
      · exact plainText_not_mem ht hx h
    · exact hc h
  have hmk : Markup tokensB false false (headingOpen n ++ t ++ headingClose n) :=
    ((Markup.single false _ (heading_tags_mem n hn).1).append
      (Markup.of_plain false (fun c hc => plainChar_isPlain (plainText_mem ht hc)))).append
      (Markup.single false _ (heading_tags_mem n hn).2)
  unfold renderMarkdown
  rw [if_neg (by simp), normalizeLineEndings_id _ (hnot _ (by decide) (by decide)),
    escapeHtml_id _ hplain, codeBlocks_id _ (hnot _ (by decide) (by decide)),
    headings_level n t hn ht,
    emphasis_id _ (hout _ (by decide) (by simp)),
    inlineCode_id _ (hout _ (by decide) (by simp)),
    links_id _ (hout _ (by decide) (by simp)),
    lists_id_of_markup hmk (hout _ (by decide) (by simp)) (hout _ (by decide) (by simp)),
    paragraphs_one _ (hout _ (by decide) (by simp))]
  obtain ⟨d, r, r', ho, hd, hc⟩ := heading_tags_shape n hn
  have htrim : trim (headingOpen n ++ t ++ headingClose n) =
      headingOpen n ++ t ++ headingClose n := by
    apply trim_id
    · intro c h
      rw [ho] at h
      have : c = '<' := by simpa using h.symm
      subst this
      decide
    · intro c h
      rw [hc, ← List.append_assoc, List.getLast?_append_of_ne_nil _ (by simp)] at h
      have : c = '>' := by simpa using h.symm
      subst this
      decide
  unfold renderBlock
  simp only [htrim]
  rw [if_neg (by simp [ho]), if_pos (by simp [ho, startsWithBlockTag, hd])]

/-- Witness for `heading_line`: the line `# Title`. -/
theorem heading_line_witness :
    (1 ≤ 1 ∧ 1 ≤ 6) ∧ isPlainText "Title".toList = true ∧
    renderMarkdown "# Title".toList = "<h1>Title</h1>".toList :=
  ⟨by decide, by decide, heading_line 1 "Title".toList (by decide) (by decide)⟩

/-! ## Links -/

theorem not_mem_of_all (p : Char → Bool) {t : Str} (h : t.all p = true) {x : Char}
    (hx : p x = false) : x ∉ t := by
  intro hm
  rw [List.all_eq_true.1 h x hm] at hx
  exact Bool.noConfusion hx

theorem runUntil_hit (x : Char) (cap rest : Str) (h0 : cap ≠ []) (hx : x ∉ cap) :
    runUntil x (cap ++ x :: rest) = some (cap, rest) := by
  have h1 : (cap ++ x :: rest).takeWhile (· != x) = cap := by
    rw [List.takeWhile_append_of_pos (fun c hc => by
      simp only [bne_iff_ne, ne_eq]; rintro rfl; exact hx hc)]
    simp
  have h2 : (cap ++ x :: rest).dropWhile (· != x) = x :: rest := by
    rw [List.dropWhile_append_of_pos (fun c hc => by
      simp only [bne_iff_ne, ne_eq]; rintro rfl; exact hx hc)]
    simp
  unfold runUntil
  rw [h1, h2]
  cases cap with
  | nil => exact absurd rfl h0
  | cons c cap => rfl

theorem links_single (label target : Str) (hl0 : label ≠ []) (hl : ']' ∉ label)
    (ht0 : target ≠ []) (ht : ')' ∉ target) :
    links ("[".toList ++ label ++ "](".toList ++ target ++ ")".toList) =
      anchorOpen ++ target ++ anchorAttrs ++ label ++ "</a>".toList := by
  unfold links replaceAll
  have hr : linkRule none (("[".toList ++ label ++ "](".toList ++ target ++ ")".toList) ++ []) =
      some (anchorOpen ++ target ++ anchorAttrs ++ label ++ "</a>".toList,
        ("[".toList ++ label ++ "](".toList ++ target ++ ")".toList).length) := by
    have e : "[".toList ++ label ++ "](".toList ++ target ++ ")".toList ++ [] =
        '[' :: (label ++ ']' :: ('(' :: (target ++ ')' :: []))) := by simp
    rw [e]
    simp only [linkRule, literal, if_true, Option.bind_eq_bind, Option.some_bind,
      runUntil_hit ']' label _ hl0 hl, runUntil_hit ')' target [] ht0 ht, Option.map_some']
    simp
    omega
  have := replaceFrom_match _ none _ [] _ (by simp) hr
  simpa [replaceFrom_nil] using this

/-- C8: a link with a plain label `L` and a target `T` of letters, digits, `:`,
`/` and `.` is rendered as one paragraph holding the anchor element whose `href`
is `T`, whose text is `L`, and which carries `target="_blank"` and
`rel="noreferrer"`. -/
theorem link_paragraph (L T : Str) (hL : isInteriorText L = true) (hL0 : L ≠ [])
    (hT : isTargetText T = true) (hT0 : T ≠ []) :
    renderMarkdown ("[".toList ++ L ++ "](".toList ++ T ++ ")".toList) =
      "<p><a href=\"".toList ++ T ++ "\" target=\"_blank\" rel=\"noreferrer\">".toList ++ L ++
        "</a></p>".toList := by
  have hpL := interiorText_plainText hL
  have hin : ∀ x : Char, (x.isAlphanum || x == ' ') = false →
      (x.isAlphanum || x == ':' || x == '/' || x == '.') = false →
      x ∉ "[]()".toList → x ∉ "[".toList ++ L ++ "](".toList ++ T ++ ")".toList := by
    intro x h1 h2 h3 hm
    simp only [List.mem_append] at hm
    rcases hm with (((h | h) | h) | h) | h
    · exact h3 (by revert h; simp; rintro rfl; decide)
    · exact plainText_not_mem hpL h1 h
    · exact h3 (by revert h; simp; rintro (rfl | rfl) <;> decide)
    · exact not_mem_of_all _ hT h2 h
    · exact h3 (by revert h; simp; rintro rfl; decide)
  have hTplain : ∀ c ∈ T, isPlain c = true := by
    intro c hc
    have := List.all_eq_true.1 hT c hc
    simp only [isPlain, Bool.and_eq_true, bne_iff_ne, ne_eq]
    refine ⟨⟨?_, ?_⟩, ?_⟩ <;> (rintro rfl; revert this; decide)
  have hplain : ∀ c ∈ "[".toList ++ L ++ "](".toList ++ T ++ ")".toList, isPlain c = true := by
    intro c hc
    simp only [List.mem_append] at hc
    rcases hc with (((h | h) | h) | h) | h
    · exact (by decide : ∀ c ∈ "[".toList, isPlain c = true) c h
    · exact plainChar_isPlain (plainText_mem hpL h)
    · exact (by decide : ∀ c ∈ "](".toList, isPlain c = true) c h
    · exact hTplain c h
    · exact (by decide : ∀ c ∈ ")".toList, isPlain c = true) c h
  have hout : ∀ x : Char, (x.isAlphanum || x == ' ') = false →
      (x.isAlphanum || x == ':' || x == '/' || x == '.') = false →
      x ∉ anchorOpen ++ anchorAttrs ++ "</a>".toList →
      x ∉ anchorOpen ++ T ++ anchorAttrs ++ L ++ "</a>".toList := by
    intro x h1 h2 h3 hm
    simp only [List.mem_append] at hm h3
    rcases hm with (((h | h) | h) | h) | h
    · exact h3 (Or.inl (Or.inl h))
    · exact not_mem_of_all _ hT h2 h
    · exact h3 (Or.inl (Or.inr h))
    · exact plainText_not_mem hpL h1 h
    · exact h3 (Or.inr h)
  have hmk : Markup tokensB false false
      (anchorOpen ++ T ++ anchorAttrs ++ L ++ "</a>".toList) := by
    have hl : Markup tokensB false false (L ++ "</a>".toList) :=
      (Markup.of_plain false (fun c hc => plainChar_isPlain (plainText_mem hpL hc))).append
        (Markup.single false _ (by decide))
    have ha : Markup tokensB true false (anchorAttrs ++ (L ++ "</a>".toList)) :=
      Markup.tok anchorAttrs (some true) (by decide) (by simp) (by simpa [sideAfter] using hl)
    have ho : Markup tokensB false false
        (anchorOpen ++ (T ++ (anchorAttrs ++ (L ++ "</a>".toList)))) :=
      Markup.tok anchorOpen (some false) (by decide) (by simp)
        (by simpa [sideAfter] using (Markup.of_plain (T := tokensB) true hTplain).append ha)
    simpa using ho
  unfold renderMarkdown
  rw [if_neg (by simp), normalizeLineEndings_id _ (hin _ (by decide) (by decide) (by decide)),
    escapeHtml_id _ hplain, codeBlocks_id _ (hin _ (by decide) (by decide) (by decide)),
    headings_id _ (hin _ (by decide) (by decide) (by decide)),
    emphasis_id _ (hin _ (by decide) (by decide) (by decide)),
    inlineCode_id _ (hin _ (by decide) (by decide) (by decide)),
    links_single L T hL0 (plainText_not_mem hpL (by decide)) hT0
      (not_mem_of_all _ hT (by decide)),
    lists_id_of_markup hmk (hout _ (by decide) (by decide) (by decide))
      (hout _ (by decide) (by decide) (by decide)),
    paragraphs_one _ (hout _ (by decide) (by decide) (by decide))]
  have htrim : trim (anchorOpen ++ T ++ anchorAttrs ++ L ++ "</a>".toList) =
      anchorOpen ++ T ++ anchorAttrs ++ L ++ "</a>".toList := by
    apply trim_id
    · intro c h
      have : c = '<' := by simpa [anchorOpen] using h.symm
      subst this
      decide
    · intro c h
      rw [List.getLast?_append_of_ne_nil _ (by decide)] at h
      have : c = '>' := by simpa using h.symm
      subst this
      decide
  unfold renderBlock
  simp only [htrim]
  rw [if_neg (by simp [anchorOpen]), if_neg (by simp [anchorOpen, startsWithBlockTag])]
  simp [anchorOpen, anchorAttrs]

/-- Witness for `link_paragraph`: a link to `http://x.y/z`. -/
theorem link_paragraph_witness :
    isInteriorText "the site".toList = true ∧ "the site".toList ≠ [] ∧
    isTargetText "http://x.y/z".toList = true ∧ "http://x.y/z".toList ≠ [] ∧
    renderMarkdown "[the site](http://x.y/z)".toList =
      "<p><a href=\"http://x.y/z\" target=\"_blank\" rel=\"noreferrer\">the site</a></p>".toList :=
  ⟨by decide, by decide, by decide, by decide,
    link_paragraph "the site".toList "http://x.y/z".toList (by decide) (by decide) (by decide)
      (by decide)⟩

/-! ## Emphasis -/

theorem replaceFrom_prev_irrelevant (r : Rule) (hr : ∀ p q s, r p s = r q s) (k : Nat)
    (p q : Option Char) (s : Str) : replaceFrom r k p s = replaceFrom r k q s := by
  induction s generalizing k p q with
  | nil => rw [replaceFrom_nil, replaceFrom_nil]
  | cons c s ih =>
    cases k with
    | succ k => rw [replaceFrom_cons_succ, replaceFrom_cons_succ]
    | zero =>
      rw [replaceFrom_cons_zero, replaceFrom_cons_zero, hr p q]

theorem emphasis_prev (d o cl : Str) (p : Option Char) (s : Str) :
    replaceFrom (emphasisRule d o cl) 0 p s = replaceFrom (emphasisRule d o cl) 0 none s :=
  replaceFrom_prev_irrelevant (emphasisRule d o cl) (fun _ _ _ => rfl) 0 p none s

theorem literal_stars_none (k j : Nat) (r : Str) (hj : j < k) (hr : r.head? ≠ some '*') :
    literal (List.replicate k '*') (List.replicate j '*' ++ r) = none := by
  induction j generalizing k with
  | zero =>
    obtain ⟨k', rfl⟩ : ∃ k', k = k' + 1 := ⟨k - 1, by omega⟩
    cases r with
    | nil => rfl
    | cons c r =>
      have hc : c ≠ '*' := fun e => hr (by simp [e])
      simp [List.replicate_succ, literal, hc]
  | succ j ih =>
    obtain ⟨k', rfl⟩ : ∃ k', k = k' + 1 := ⟨k - 1, by omega⟩
    simp only [List.replicate_succ, List.cons_append, literal, if_true]
    exact ih k' (by omega)

theorem emphasis_star_run (k j : Nat) (o cl r : Str) (prev : Option Char) (hj : j < k)
    (hr : r.head? ≠ some '*') :
    replaceFrom (emphasisRule (List.replicate k '*') o cl) 0 prev (List.replicate j '*' ++ r) =
      List.replicate j '*' ++
        replaceFrom (emphasisRule (List.replicate k '*') o cl) 0 none r := by
  induction j generalizing prev with
  | zero => simpa using emphasis_prev _ o cl prev r
  | succ j ih =>
    have hn : emphasisRule (List.replicate k '*') o cl prev
        ('*' :: (List.replicate j '*' ++ r)) = none := by
      have := literal_stars_none k (j + 1) r hj hr
      simp only [List.replicate_succ, List.cons_append] at this
      simp [emphasisRule, this]
    rw [List.replicate_succ, List.cons_append, replaceFrom_none _ _ _ _ hn, ih _ (by omega)]
    rfl

theorem emphasis_plain_run (d o cl t r : Str) (prev : Option Char) (hd : d.head? = some '*')
    (ht : '*' ∉ t) :
    replaceFrom (emphasisRule d o cl) 0 prev (t ++ r) =
      t ++ replaceFrom (emphasisRule d o cl) 0 none r := by
  have hs : (emphasisRule d o cl).StartsIn (· = '*') := by
    intro p c s hne
    by_contra hc
    apply hne
    cases d with
    | nil => simp at hd
    | cons e d =>
      have he : e = '*' := by simpa using hd
      subst he
      simp [emphasisRule, literal, hc]
  rw [replaceFrom_pass_of_startsIn hs t r prev (fun c hc e => ht (e ▸ hc)), emphasis_prev]

theorem lazyDot_hit (d a r : Str) (hd : d.head? = some '*')
    (ha : ∀ c ∈ a, c ≠ '*' ∧ isLineTerminator c = false) :
    lazyDot d (a ++ d ++ r) = some a := by
  induction a with
  | nil =>
    cases h : d ++ r with
    | nil =>
      have : d = [] := (List.append_eq_nil.1 h).1
      simp [this] at hd
    | cons c s =>
      have hp : d.isPrefixOf (c :: s) = true := (isPrefixOf_iff _ _).2 ⟨r, h.symm⟩
      simp [lazyDot, h, hp]
  | cons c a ih =>
    obtain ⟨hc1, hc2⟩ := ha c (by simp)
    have hp : d.isPrefixOf (c :: (a ++ d ++ r)) = false := by
      cases d with
      | nil => simp at hd
      | cons e d =>
        have he : e = '*' := by simpa using hd
        subst he
        simp [List.isPrefixOf, Ne.symm hc1]
    rw [List.cons_append, List.cons_append, lazyDot,
      if_neg (by rw [hp]; exact Bool.false_ne_true),
      if_neg (by rw [hc2]; exact Bool.false_ne_true), ih (fun x hx => ha x (by simp [hx]))]
    rfl

theorem emphasis_hit (k : Nat) (o cl a r : Str) (prev : Option Char) (hk : 0 < k)
    (ha0 : a ≠ []) (ha : ∀ c ∈ a, c ≠ '*' ∧ isLineTerminator c = false) :
    replaceFrom (emphasisRule (List.replicate k '*') o cl) 0 prev
        (List.replicate k '*' ++ a ++ List.replicate k '*' ++ r) =
      o ++ a ++ cl ++ replaceFrom (emphasisRule (List.replicate k '*') o cl) 0 none r := by
  have hd : (List.replicate k '*').head? = some '*' := by
    obtain ⟨k', rfl⟩ : ∃ k', k = k' + 1 := ⟨k - 1, by omega⟩
    rfl
  have hrule : emphasisRule (List.replicate k '*') o cl prev
      ((List.replicate k '*' ++ a ++ List.replicate k '*') ++ r) =
      some (o ++ a ++ cl, (List.replicate k '*' ++ a ++ List.replicate k '*').length) := by
    cases a with
    | nil => exact absurd rfl ha0
    | cons c a =>
      have hc := ha c (by simp)
      have e : List.replicate k '*' ++ c :: a ++ List.replicate k '*' ++ r =
          List.replicate k '*' ++ (c :: (a ++ List.replicate k '*' ++ r)) := by simp
      rw [e]
      simp only [emphasisRule, literal_append, Option.some_bind, Option.bind_eq_bind,
        lazyDotPlus, hc.2, Bool.false_eq_true, if_false,
        lazyDot_hit _ a r hd (fun x hx => ha x (by simp [hx])), Option.map_some']
      simp
      omega
  rw [replaceFrom_match _ prev _ r _ (by simp [ha0]) hrule, emphasis_prev]

theorem word_chars {a : Str} (ha : isPlainText a = true) :
    ∀ c ∈ a, c ≠ '*' ∧ isLineTerminator c = false :=
  fun c hc => ⟨plainChar_ne (plainText_mem ha hc) (by decide),
    plainChar_not_lineTerminator (plainText_mem ha hc)⟩

theorem plainText_head {a : Str} (ha : isPlainText a = true) (r : Str) (ha0 : a ≠ []) :
    (a ++ r).head? ≠ some '*' := by
  cases a with
  | nil => exact absurd rfl ha0
  | cons c a =>
    simpa using plainChar_ne (plainText_mem ha (List.mem_cons_self _ _)) (by decide)

/-- The rule for `k` asterisks leaves spans delimited by fewer asterisks alone. -/
theorem emphasis_skip_span (k d : Nat) (o cl a r : Str) (prev : Option Char) (hd : d < k)
    (ha : isPlainText a = true) (ha0 : a ≠ []) (hr : r.head? ≠ some '*') :
    replaceFrom (emphasisRule (List.replicate k '*') o cl) 0 prev
        (List.replicate d '*' ++ a ++ List.replicate d '*' ++ r) =
      List.replicate d '*' ++ a ++ List.replicate d '*' ++
        replaceFrom (emphasisRule (List.replicate k '*') o cl) 0 none r := by
  have hk : (List.replicate k '*').head? = some '*' := by
    obtain ⟨k', rfl⟩ : ∃ k', k = k' + 1 := ⟨k - 1, by omega⟩
    rfl
  rw [List.append_assoc, List.append_assoc,
    emphasis_star_run k d o cl _ prev hd (plainText_head ha _ ha0),
    emphasis_plain_run _ o cl a _ none hk (plainText_not_mem ha (by decide)),
    emphasis_star_run k d o cl r none hd hr]
  simp

theorem emphasis_skip_one (k d : Nat) (o cl a : Str) (hd : d < k)
    (ha : isPlainText a = true) (ha0 : a ≠ []) :
    replaceAll (emphasisRule (List.replicate k '*') o cl)
        (List.replicate d '*' ++ a ++ List.replicate d '*') =
      List.replicate d '*' ++ a ++ List.replicate d '*' := by
  have := emphasis_skip_span k d o cl a [] none hd ha ha0 (by simp)
  simpa [replaceAll, replaceFrom_nil] using this

theorem emphasis_skip_two (k d : Nat) (o cl a s b : Str) (hd : d < k)
    (ha : isPlainText a = true) (ha0 : a ≠ []) (hs : isPlainText s = true) (hs0 : s ≠ [])
    (hb : isPlainText b = true) (hb0 : b ≠ []) :
    replaceAll (emphasisRule (List.replicate k '*') o cl)
        (List.replicate d '*' ++ a ++ List.replicate d '*' ++ s ++
          List.replicate d '*' ++ b ++ List.replicate d '*') =
      List.replicate d '*' ++ a ++ List.replicate d '*' ++ s ++
          List.replicate d '*' ++ b ++ List.replicate d '*' := by
  have hk : (List.replicate k '*').head? = some '*' := by
    obtain ⟨k', rfl⟩ : ∃ k', k = k' + 1 := ⟨k - 1, by omega⟩
    rfl
  have h1 := emphasis_skip_span k d o cl a
    (s ++ (List.replicate d '*' ++ b ++ List.replicate d '*')) none hd ha ha0
    (plainText_head hs _ hs0)
  have h2 := emphasis_plain_run (List.replicate k '*') o cl s
    (List.replicate d '*' ++ b ++ List.replicate d '*') none hk
    (plainText_not_mem hs (by decide))
  have h3 := emphasis_skip_span k d o cl b [] none hd hb hb0 (by simp)
  simp only [List.append_nil, replaceFrom_nil] at h3
  rw [h2, h3] at h1
  unfold replaceAll
  simpa [List.append_assoc] using h1

theorem emphasis_hit_one (k : Nat) (o cl a : Str) (hk : 0 < k)
    (ha : isPlainText a = true) (ha0 : a ≠ []) :
    replaceAll (emphasisRule (List.replicate k '*') o cl)
        (List.replicate k '*' ++ a ++ List.replicate k '*') = o ++ a ++ cl := by
  have := emphasis_hit k o cl a [] none hk ha0 (word_chars ha)
  simpa [replaceAll, replaceFrom_nil] using this

theorem emphasis_hit_two (k : Nat) (o cl a s b : Str) (hk : 0 < k)
    (ha : isPlainText a = true) (ha0 : a ≠ []) (hs : isPlainText s = true)
    (hb : isPlainText b = true) (hb0 : b ≠ []) :
    replaceAll (emphasisRule (List.replicate k '*') o cl)
        (List.replicate k '*' ++ a ++ List.replicate k '*' ++ s ++
          List.replicate k '*' ++ b ++ List.replicate k '*') =
      (o ++ a ++ cl) ++ s ++ (o ++ b ++ cl) := by
  have hd : (List.replicate k '*').head? = some '*' := by
    obtain ⟨k', rfl⟩ : ∃ k', k = k' + 1 := ⟨k - 1, by omega⟩
    rfl
  have h1 := emphasis_hit k o cl a
    (s ++ (List.replicate k '*' ++ b ++ List.replicate k '*')) none hk ha0 (word_chars ha)
  have h2 := emphasis_plain_run (List.replicate k '*') o cl s
    (List.replicate k '*' ++ b ++ List.replicate k '*') none hd
    (plainText_not_mem hs (by decide))
  have h3 := emphasis_hit k o cl b [] none hk hb0 (word_chars hb)
  simp only [List.append_nil, replaceFrom_nil] at h3
  rw [h2, h3] at h1
  unfold replaceAll
  simpa [List.append_assoc] using h1

theorem emphasis_tags_chars (d : Nat) (hd : 1 ≤ d ∧ d ≤ 3) (x : Char)
    (hx : x = '`' ∨ x = '[' ∨ x = '-' ∨ x = '*' ∨ x = '\n') :
    x ∉ emphasisOpen d ∧ x ∉ emphasisClose d := by
  obtain ⟨h1, h3⟩ := hd
  interval_cases d <;> rcases hx with rfl | rfl | rfl | rfl | rfl <;> decide

theorem emphasis_tags_markup (d : Nat) (hd : 1 ≤ d ∧ d ≤ 3) (x : Bool) :
    Markup tokensB x x (emphasisOpen d) ∧ Markup tokensB x x (emphasisClose d) := by
  obtain ⟨h1, h3⟩ := hd
  interval_cases d
  · exact ⟨Markup.single x _ (by decide), Markup.single x _ (by decide)⟩
  · exact ⟨Markup.single x _ (by decide), Markup.single x _ (by decide)⟩
  · exact ⟨Markup.tags x ["<strong>".toList, "<em>".toList] (by decide),
      Markup.tags x ["</em>".toList, "</strong>".toList] (by decide)⟩

theorem emphasis_tags_shape (d : Nat) (hd : 1 ≤ d ∧ d ≤ 3) :
    ∃ e r r', emphasisOpen d = '<' :: e :: r ∧ (e = 'e' ∨ e = 's') ∧
      emphasisClose d = r' ++ ['>'] := by
  obtain ⟨h1, h3⟩ := hd
  interval_cases d
  · exact ⟨'e', "m>".toList, "</em".toList, rfl, Or.inl rfl, rfl⟩
  · exact ⟨'s', "trong>".toList, "</strong".toList, rfl, Or.inr rfl, rfl⟩
  · exact ⟨'s', "trong><em>".toList, "</em></strong".toList, rfl, Or.inr rfl, rfl⟩

/-- The last four stages on a text that holds none of their delimiters and is not
a block: it becomes one paragraph. -/
theorem finish_paragraph (y : Str) (hmk : Markup tokensB false false y)
    (hno : ∀ x, x = '`' ∨ x = '[' ∨ x = '-' ∨ x = '*' ∨ x = '\n' → x ∉ y)
    (hhead : ∀ c, y.head? = some c → isWhiteSpace c = false)
    (hlast : ∀ c, y.getLast? = some c → isWhiteSpace c = false) (h0 : y ≠ [])
    (hblock : startsWithBlockTag y = false) :
    paragraphs (lists (links (inlineCode y))) = "<p>".toList ++ y ++ "</p>".toList := by
  rw [inlineCode_id _ (hno _ (by simp)), links_id _ (hno _ (by simp)),
    lists_id_of_markup hmk (hno _ (by simp)) (hno _ (by simp)),
    paragraphs_one _ (hno _ (by simp))]
  unfold renderBlock
  simp only [trim_id y hhead hlast]
  rw [if_neg (by simpa using h0), if_neg (by simp [hblock])]

theorem emphasis_single (d : Nat) (a : Str) (hd : 1 ≤ d ∧ d ≤ 3)
    (ha : isPlainText a = true) (ha0 : a ≠ []) :
    emphasis (List.replicate d '*' ++ a ++ List.replicate d '*') =
      emphasisOpen d ++ a ++ emphasisClose d := by
  have key : ∀ (k : Nat) (o cl o' cl' : Str), 0 < k → '*' ∉ o' → '*' ∉ cl' →
      replaceAll (emphasisRule (List.replicate k '*') o cl) (o' ++ a ++ cl') =
        o' ++ a ++ cl' := by
    intro k o cl o' cl' hk ho hcl
    obtain ⟨k', rfl⟩ : ∃ k', k = k' + 1 := ⟨k - 1, by omega⟩
    refine replaceAll_id_of_needs (emphasisRule_needs (List.replicate (k' + 1) '*') o cl rfl) _ ?_
    intro c hc e
    subst e
    simp only [List.mem_append] at hc
    rcases hc with (h | h) | h
    · exact ho h
    · exact plainText_not_mem ha (by decide) h
    · exact hcl h
  obtain ⟨h1, h3⟩ := hd
  unfold emphasis
  show replaceAll (emphasisRule (List.replicate 1 '*') _ _)
    (replaceAll (emphasisRule (List.replicate 2 '*') _ _)
      (replaceAll (emphasisRule (List.replicate 3 '*') _ _) _)) = _
  interval_cases d
  · rw [emphasis_skip_one 3 1 _ _ a (by omega) ha ha0,
      emphasis_skip_one 2 1 _ _ a (by omega) ha ha0,
      emphasis_hit_one 1 _ _ a (by omega) ha ha0]
    rfl
  · rw [emphasis_skip_one 3 2 _ _ a (by omega) ha ha0,
      emphasis_hit_one 2 _ _ a (by omega) ha ha0,
      key 1 _ _ _ _ (by omega) (by decide) (by decide)]
    rfl
  · rw [emphasis_hit_one 3 _ _ a (by omega) ha ha0,
      key 2 _ _ _ _ (by omega) (by decide) (by decide),
      key 1 _ _ _ _ (by omega) (by decide) (by decide)]
    rfl

theorem emphasis_double (d : Nat) (a s b : Str) (hd : 1 ≤ d ∧ d ≤ 3)
    (ha : isPlainText a = true) (ha0 : a ≠ []) (hs : isPlainText s = true) (hs0 : s ≠ [])
    (hb : isPlainText b = true) (hb0 : b ≠ []) :
    emphasis (List.replicate d '*' ++ a ++ List.replicate d '*' ++ s ++
        List.replicate d '*' ++ b ++ List.replicate d '*') =
      (emphasisOpen d ++ a ++ emphasisClose d) ++ s ++
        (emphasisOpen d ++ b ++ emphasisClose d) := by
  have key : ∀ (k : Nat) (o cl o' cl' : Str), 0 < k → '*' ∉ o' → '*' ∉ cl' →
      replaceAll (emphasisRule (List.replicate k '*') o cl)
          ((o' ++ a ++ cl') ++ s ++ (o' ++ b ++ cl')) =
        (o' ++ a ++ cl') ++ s ++ (o' ++ b ++ cl') := by
    intro k o cl o' cl' hk ho hcl
    obtain ⟨k', rfl⟩ : ∃ k', k = k' + 1 := ⟨k - 1, by omega⟩
    refine replaceAll_id_of_needs (emphasisRule_needs (List.replicate (k' + 1) '*') o cl rfl) _ ?_
    intro c hc e
    subst e
    simp only [List.mem_append] at hc
    rcases hc with (((h | h) | h) | h) | ((h | h) | h)
    · exact ho h
    · exact plainText_not_mem ha (by decide) h
    · exact hcl h
    · exact plainText_not_mem hs (by decide) h
    · exact ho h
    · exact plainText_not_mem hb (by decide) h
    · exact hcl h
  obtain ⟨h1, h3⟩ := hd
  unfold emphasis
  show replaceAll (emphasisRule (List.replicate 1 '*') _ _)
    (replaceAll (emphasisRule (List.replicate 2 '*') _ _)
      (replaceAll (emphasisRule (List.replicate 3 '*') _ _) _)) = _
  interval_cases d
  · rw [emphasis_skip_two 3 1 _ _ a s b (by omega) ha ha0 hs hs0 hb hb0,
      emphasis_skip_two 2 1 _ _ a s b (by omega) ha ha0 hs hs0 hb hb0,
      emphasis_hit_two 1 _ _ a s b (by omega) ha ha0 hs hb hb0]
    rfl
  · rw [emphasis_skip_two 3 2 _ _ a s b (by omega) ha ha0 hs hs0 hb hb0,
      emphasis_hit_two 2 _ _ a s b (by omega) ha ha0 hs hb hb0,
      key 1 _ _ _ _ (by omega) (by decide) (by decide)]
    rfl
  · rw [emphasis_hit_two 3 _ _ a s b (by omega) ha ha0 hs hb hb0,
      key 2 _ _ _ _ (by omega) (by decide) (by decide),
      key 1 _ _ _ _ (by omega) (by decide) (by decide)]
    rfl

theorem front_stages_starred (x : Str)
    (hx : ∀ c ∈ x, c = '*' ∨ (c.isAlphanum || c == ' ') = true) :
    headings (codeBlocks (escapeHtml (normalizeLineEndings x))) = x := by
  have hnot : ∀ y : Char, (y.isAlphanum || y == ' ') = false → y ≠ '*' → y ∉ x := by
    intro y hy hy' hm
    rcases hx y hm with h | h
    · exact hy' h
    · rw [h] at hy; exact Bool.noConfusion hy
  have hplain : ∀ c ∈ x, isPlain c = true := by
    intro c hc
    rcases hx c hc with h | h
    · rw [h]; decide
    · exact plainChar_isPlain h
  rw [normalizeLineEndings_id _ (hnot _ (by decide) (by decide)), escapeHtml_id _ hplain,
    codeBlocks_id _ (hnot _ (by decide) (by decide)),
    headings_id _ (hnot _ (by decide) (by decide))]

/-- C4: each asterisk-delimited span becomes its own emphasis element, chosen by
the number `d` of asterisks (1, 2 or 3) of its delimiter: one span between
delimiters is rendered as a paragraph holding one element, and two spans
separated by a plain text `s` as a paragraph holding two elements around `s`. -/
theorem emphasis_spans (d : Nat) (a b s : Str) (hd : 1 ≤ d ∧ d ≤ 3)
    (ha : isWord a = true) (ha0 : a ≠ []) (hb : isWord b = true) (hb0 : b ≠ [])
    (hs : isPlainText s = true) (hs0 : s ≠ []) :
    renderMarkdown (List.replicate d '*' ++ a ++ List.replicate d '*') =
      "<p>".toList ++ (emphasisOpen d ++ a ++ emphasisClose d) ++ "</p>".toList ∧
    renderMarkdown (List.replicate d '*' ++ a ++ List.replicate d '*' ++ s ++
        List.replicate d '*' ++ b ++ List.replicate d '*') =
      "<p>".toList ++ ((emphasisOpen d ++ a ++ emphasisClose d) ++ s ++
        (emphasisOpen d ++ b ++ emphasisClose d)) ++ "</p>".toList := by
  have hpa := isWord_plainText ha
  have hpb := isWord_plainText hb
  have hd0 : List.replicate d '*' ≠ [] := by
    obtain ⟨d', rfl⟩ : ∃ d', d = d' + 1 := ⟨d - 1, by omega⟩
    simp [List.replicate_succ]
  have hstar : ∀ c ∈ List.replicate d '*', c = '*' ∨ (c.isAlphanum || c == ' ') = true :=
    fun c hc => Or.inl (List.eq_of_mem_replicate hc)
  have hpl : ∀ t : Str, isPlainText t = true →
      ∀ c ∈ t, c = '*' ∨ (c.isAlphanum || c == ' ') = true :=
    fun t ht c hc => Or.inr (plainText_mem ht hc)
  obtain ⟨e, r, r', hopen, he, hclose⟩ := emphasis_tags_shape d hd
  have hmo := fun x => (emphasis_tags_markup d hd x).1
  have hmc := fun x => (emphasis_tags_markup d hd x).2
  have hmp : ∀ t : Str, isPlainText t = true → Markup tokensB false false t :=
    fun t ht => Markup.of_plain false (fun c hc => plainChar_isPlain (plainText_mem ht hc))
  have hspan : ∀ t : Str, isPlainText t = true →
      Markup tokensB false false (emphasisOpen d ++ t ++ emphasisClose d) :=
    fun t ht => ((hmo false).append (hmp t ht)).append (hmc false)
  have hnospan : ∀ (t : Str) (x : Char), isPlainText t = true →
      (x = '`' ∨ x = '[' ∨ x = '-' ∨ x = '*' ∨ x = '\n') →
      x ∉ emphasisOpen d ++ t ++ emphasisClose d := by
    intro t x ht hx hm
    obtain ⟨ho, hc⟩ := emphasis_tags_chars d hd x hx
    have hxp : (x.isAlphanum || x == ' ') = false := by
      rcases hx with rfl | rfl | rfl | rfl | rfl <;> decide
    simp only [List.mem_append] at hm
    rcases hm with (h | h) | h
    · exact ho h
    · exact plainText_not_mem ht hxp h
    · exact hc h
  have hws : isWhiteSpace '<' = false ∧ isWhiteSpace '>' = false := by decide
  have hblock : ∀ t : Str, startsWithBlockTag (emphasisOpen d ++ t) = false := by
    intro t
    rw [hopen]
    rcases he with rfl | rfl <;> simp [startsWithBlockTag, List.isPrefixOf]
  constructor
  · unfold renderMarkdown
    rw [if_neg (by simp [hd0]), front_stages_starred _ (by
        intro c hc
        simp only [List.mem_append] at hc
        rcases hc with (h | h) | h
        · exact hstar c h
        · exact hpl a hpa c h
        · exact hstar c h),
      emphasis_single d a hd hpa ha0]
    apply finish_paragraph _ (hspan a hpa) (fun x hx => hnospan a x hpa hx)
    · intro c hc
      rw [hopen] at hc
      have : c = '<' := by simpa using hc.symm
      rw [this]; exact hws.1
    · intro c hc
      rw [hclose, ← List.append_assoc, List.getLast?_append_of_ne_nil _ (by simp)] at hc
      have : c = '>' := by simpa using hc.symm
      rw [this]; exact hws.2
    · rw [hopen]; simp
    · rw [List.append_assoc]; exact hblock _
  · unfold renderMarkdown
    rw [if_neg (by simp [hd0]), front_stages_starred _ (by
        intro c hc
        simp only [List.mem_append] at hc
        rcases hc with (((((h | h) | h) | h) | h) | h) | h
        · exact hstar c h
        · exact hpl a hpa c h
        · exact hstar c h
        · exact hpl s hs c h
        · exact hstar c h
        · exact hpl b hpb c h
        · exact hstar c h),
      emphasis_double d a s b hd hpa ha0 hs hs0 hpb hb0]
    apply finish_paragraph _ (((hspan a hpa).append (hmp s hs)).append (hspan b hpb))
    · intro x hx hm
      have hxp : (x.isAlphanum || x == ' ') = false := by
        rcases hx with rfl | rfl | rfl | rfl | rfl <;> decide
      rcases List.mem_append.1 hm with h | h
      · rcases List.mem_append.1 h with h | h
        · exact hnospan a x hpa hx h
        · exact plainText_not_mem hs hxp h
      · exact hnospan b x hpb hx h
    · intro c hc
      rw [hopen] at hc
      have : c = '<' := by simpa using hc.symm
      rw [this]; exact hws.1
    · intro c hc
      rw [hclose, ← List.append_assoc, ← List.append_assoc,
        List.getLast?_append_of_ne_nil _ (by simp)] at hc
      have : c = '>' := by simpa using hc.symm
      rw [this]; exact hws.2
    · rw [hopen]; simp
    · rw [List.append_assoc, List.append_assoc, List.append_assoc]; exact hblock _

/-- Witness for `emphasis_spans`: `*a*` and `*a* and *b*`. -/
theorem emphasis_spans_witness :
    (1 ≤ 1 ∧ 1 ≤ 3) ∧ isWord "a".toList = true ∧ "a".toList ≠ [] ∧
    isWord "b".toList = true ∧ "b".toList ≠ [] ∧
    isPlainText " and ".toList = true ∧ " and ".toList ≠ [] ∧
    renderMarkdown "*a*".toList = "<p><em>a</em></p>".toList ∧
    renderMarkdown "*a* and *b*".toList = "<p><em>a</em> and <em>b</em></p>".toList :=
  ⟨by decide, by decide, by decide, by decide, by decide, by decide, by decide,
    emphasis_spans 1 "a".toList "b".toList " and ".toList (by decide) (by decide) (by decide)
      (by decide) (by decide) (by decide) (by decide)⟩

/-! ## The characters a stage can add -/

theorem replaceFrom_chars {r : Rule} (hr : r.Emits) (k : Nat) (prev : Option Char) (s : Str) :
    ∀ c ∈ replaceFrom r k prev s, c ∈ s ∨ c ∈ tokenChars tokensC := by
  induction s generalizing k prev with
  | nil => intro c hc; rw [replaceFrom_nil] at hc; exact absurd hc (List.not_mem_nil c)
  | cons d s ih =>
    intro c hc
    cases k with
    | succ k =>
      rw [replaceFrom_cons_succ] at hc
      rcases ih k _ c hc with h | h
      · exact Or.inl (List.mem_cons_of_mem _ h)
      · exact Or.inr h
    | zero =>
      rw [replaceFrom_cons_zero] at hc
      cases hm : r prev (d :: s) with
      | none =>
        rw [hm] at hc
        rcases List.mem_cons.1 hc with h | h
        · exact Or.inl (h ▸ List.mem_cons_self _ _)
        · rcases ih 0 _ c h with h | h
          · exact Or.inl (List.mem_cons_of_mem _ h)
          · exact Or.inr h
      | some res =>
        obtain ⟨rep, n⟩ := res
        rw [hm] at hc
        rcases List.mem_append.1 hc with h | h
        · exact hr prev _ rep n hm c h
        · rcases ih (n - 1) _ c h with h | h
          · exact Or.inl (List.mem_cons_of_mem _ h)
          · exact Or.inr h

theorem mem_trim {s : Str} {c : Char} (h : c ∈ trim s) : c ∈ s := by
  unfold trim at h
  rw [List.mem_reverse] at h
  have h1 := (List.dropWhile_sublist (l := (s.dropWhile isWhiteSpace).reverse)
    isWhiteSpace).subset h
  rw [List.mem_reverse] at h1
  exact (List.dropWhile_sublist (l := s) isWhiteSpace).subset h1

theorem codeBlockRule_emits : Rule.Emits codeBlockRule := by
  intro prev s rep n h c hc
  obtain ⟨code, rest, hs, hrep, _⟩ := codeBlockRule_some h
  rw [hrep] at hc
  simp only [List.mem_append] at hc
  rcases hc with (h1 | h1) | h1
  · exact Or.inr ((by decide! : ∀ c ∈ "<pre><code>".toList, c ∈ tokenChars tokensC) c h1)
  · left
    rw [hs]
    simp only [List.mem_append]
    exact Or.inl (Or.inl (Or.inr (mem_trim h1)))
  · exact Or.inr ((by decide! : ∀ c ∈ "</code></pre>".toList, c ∈ tokenChars tokensC) c h1)

theorem emphasisRule_emits (d o cl : Str) (ho : ∀ c ∈ o, c ∈ tokenChars tokensC)
    (hcl : ∀ c ∈ cl, c ∈ tokenChars tokensC) : Rule.Emits (emphasisRule d o cl) := by
  intro prev s rep n h c hc
  obtain ⟨cap, rest, hs, _, _, hrep, _⟩ := emphasisRule_some h
  rw [hrep] at hc
  simp only [List.mem_append] at hc
  rcases hc with (h1 | h1) | h1
  · exact Or.inr (ho c h1)
  · left
    rw [hs]
    simp only [List.mem_append]
    exact Or.inl (Or.inl (Or.inr h1))
  · exact Or.inr (hcl c h1)

theorem inlineCodeRule_emits : Rule.Emits inlineCodeRule := by
  intro prev s rep n h c hc
  obtain ⟨cap, rest, hs, _, _, hrep, _⟩ := inlineCodeRule_some h
  rw [hrep] at hc
  simp only [List.mem_append] at hc
  rcases hc with (h1 | h1) | h1
  · exact Or.inr ((by decide! : ∀ c ∈ "<code>".toList, c ∈ tokenChars tokensC) c h1)
  · left
    rw [hs]
    simp [h1]
  · exact Or.inr ((by decide! : ∀ c ∈ "</code>".toList, c ∈ tokenChars tokensC) c h1)

theorem linkRule_emits : Rule.Emits linkRule := by
  intro prev s rep n h c hc
  obtain ⟨label, target, rest, hs, _, _, _, _, hrep, _⟩ := linkRule_some h
  rw [hrep] at hc
  simp only [List.mem_append] at hc
  rcases hc with (((h1 | h1) | h1) | h1) | h1
  · exact Or.inr ((by decide! : ∀ c ∈ anchorOpen, c ∈ tokenChars tokensC) c h1)
  · left
    rw [hs]
    simp [h1]
  · exact Or.inr ((by decide! : ∀ c ∈ anchorAttrs, c ∈ tokenChars tokensC) c h1)
  · left
    rw [hs]
    simp [h1]
  · exact Or.inr ((by decide! : ∀ c ∈ "</a>".toList, c ∈ tokenChars tokensC) c h1)

theorem escapeHtml_chars (s : Str) :
    ∀ c ∈ escapeHtml s, c ∈ s ∨ c ∈ tokenChars tokensC := by
  intro c hc
  rw [escapeHtml_eq, List.mem_flatMap] at hc
  obtain ⟨d, hd, hcd⟩ := hc
  unfold escapeChar at hcd
  split at hcd
  · exact Or.inr ((by decide! : ∀ c ∈ "&amp;".toList, c ∈ tokenChars tokensC) c hcd)
  · split at hcd
    · exact Or.inr ((by decide! : ∀ c ∈ "&lt;".toList, c ∈ tokenChars tokensC) c hcd)
    · split at hcd
      · exact Or.inr ((by decide! : ∀ c ∈ "&gt;".toList, c ∈ tokenChars tokensC) c hcd)
      · left
        have : c = d := by simpa using hcd
        rw [this]; exact hd

/-! ## A bullet line -/

theorem startsIn_of_start {r : Rule} {x : Char}
    (h : ∀ prev c s, (c == x) = false → r prev (c :: s) = none) : r.StartsIn (· = x) := by
  intro prev c s hne
  by_contra hc
  exact hne (h prev c s (by simpa using hc))

theorem bulletLine_step {T T' : List Token} {p : Str} {star : Bool} {r : Rule} {q : Char}
    (hs : r.StartsIn (· = q)) (hp : q ∉ p) (he : r.Emits)
    (hmk : ∀ prev y, Markup T false false y → Markup T' false false (replaceFrom r 0 prev y))
    {x : Str} (h : BulletLine T p star x) : BulletLine T' p star (replaceAll r x) := by
  obtain ⟨y, rfl, hy, hlt, hst⟩ := h
  refine ⟨replaceFrom r 0 (prevAfter none p) y, ?_, hmk _ y hy, ?_, ?_⟩
  · exact replaceFrom_pass_of_startsIn hs p y none (fun c hc e => hp (e ▸ hc))
  · intro c hc
    rcases replaceFrom_chars he 0 _ y c hc with h | h
    · exact hlt c h
    · exact tokenChars_not_lineTerminator c h
  · intro hstar hm
    rcases replaceFrom_chars he 0 _ y _ hm with h | h
    · exact hst hstar h
    · exact sep_cases (Or.inl rfl) h

theorem bulletLine_escape (p r : Str) (star : Bool) (hp : ∀ c ∈ p, isPlain c = true)
    (hp' : '\r' ∉ p) (hr : ∀ c ∈ r, isLineTerminator c = false) (hst : star = true → '*' ∉ r) :
    BulletLine tokensA p star (escapeHtml (normalizeLineEndings (p ++ r))) := by
  have hcr : '\r' ∉ p ++ r := by
    intro hm
    rcases List.mem_append.1 hm with h | h
    · exact hp' h
    · exact absurd (hr _ h) (by decide)
  rw [normalizeLineEndings_id _ hcr, escapeHtml_append, escapeHtml_id p hp]
  refine ⟨escapeHtml r, rfl, escapeHtml_markup false r, ?_, ?_⟩
  · intro c hc
    rcases escapeHtml_chars r c hc with h | h
    · exact hr c h
    · exact tokenChars_not_lineTerminator c h
  · intro hstar hm
    rcases escapeHtml_chars r _ hm with h | h
    · exact hst hstar h
    · exact sep_cases (Or.inl rfl) h

theorem bulletLine_headings {p : Str} {star : Bool} {x : Str}
    (hp : ∀ c ∈ p, isLineTerminator c = false) (hp0 : ∀ c, p.head? = some c → c ≠ '#')
    (hne : p ≠ []) (h : BulletLine tokensA p star x) : headings x = x := by
  obtain ⟨y, rfl, _, hlt, _⟩ := h
  have hall : ∀ c ∈ p ++ y, isLineTerminator c = false := by
    intro c hc
    rcases List.mem_append.1 hc with h | h
    · exact hp c h
    · exact hlt c h
  have key : ∀ marker o cl : Str, marker.head? = some '#' →
      replaceAll (headingRule marker o cl) (p ++ y) = p ++ y := by
    intro marker o cl hm
    apply heading_skip marker o cl _ hall
    cases p with
    | nil => exact absurd rfl hne
    | cons c p =>
      cases marker with
      | nil => simp at hm
      | cons e marker =>
        have he : e = '#' := by simpa using hm
        subst he
        exact literal_cons_ne _ _ _ _ (hp0 c rfl)
  unfold headings
  rw [key "###### ".toList _ _ rfl, key "##### ".toList _ _ rfl, key "#### ".toList _ _ rfl,
    key "### ".toList _ _ rfl, key "## ".toList _ _ rfl, key "# ".toList _ _ rfl]

theorem emphasisRule_count {d o cl : Str} (hd : d.head? = some '*') {prev : Option Char}
    {s : Str} (h : emphasisRule d o cl prev s ≠ none) : 2 ≤ s.count '*' := by
  obtain ⟨⟨rep, n⟩, hr⟩ := Option.ne_none_iff_exists'.1 h
  obtain ⟨cap, rest, hs, _⟩ := emphasisRule_some hr
  have hd1 : 1 ≤ d.count '*' := by
    cases d with
    | nil => simp at hd
    | cons e d =>
      have he : e = '*' := by simpa using hd
      subst he
      simp
  rw [hs]
  simp only [List.count_append]
  omega

theorem emphasis_id_of_count (s : Str) (h : s.count '*' < 2) : emphasis s = s := by
  have key : ∀ d o cl : Str, d.head? = some '*' → replaceAll (emphasisRule d o cl) s = s := by
    intro d o cl hd
    apply replaceFrom_id
    intro x c y hs
    by_contra hne
    have := emphasisRule_count hd hne
    rw [hs, List.count_append] at h
    omega
  unfold emphasis
  rw [key "***".toList _ _ rfl, key "**".toList _ _ rfl, key "*".toList _ _ rfl]

theorem bulletLine_emphasis {p : Str} {star : Bool} {x : Str}
    (hp : if star then p.count '*' = 1 else '*' ∉ p) (h : BulletLine tokensA p star x) :
    BulletLine tokensA p star (emphasis x) := by
  cases star with
  | true =>
    simp only [if_true] at hp
    have hx : emphasis x = x := by
      obtain ⟨y, rfl, _, _, hst⟩ := h
      apply emphasis_id_of_count
      rw [List.count_append, hp, List.count_eq_zero_of_not_mem (hst rfl)]
      omega
    rw [hx]; exact h
  | false =>
    simp only [Bool.false_eq_true, if_false] at hp
    have hk : ∀ (k : Nat) (x : Char), x ∈ List.replicate k '*' → x = '*' :=
      fun k x hx => List.eq_of_mem_replicate hx
    have step : ∀ (k : Nat) (o cl : Str), 0 < k → (∀ x, Markup tokensA x x o) →
        (∀ x, Markup tokensA x x cl) → (∀ c ∈ o, c ∈ tokenChars tokensC) →
        (∀ c ∈ cl, c ∈ tokenChars tokensC) → ∀ z, BulletLine tokensA p false z →
        BulletLine tokensA p false (replaceAll (emphasisRule (List.replicate k '*') o cl) z) := by
      intro k o cl hk0 ho hcl ho' hcl' z hz
      have hne : List.replicate k '*' ≠ [] := by
        obtain ⟨k', rfl⟩ : ∃ k', k = k' + 1 := ⟨k - 1, by omega⟩
        simp [List.replicate_succ]
      exact bulletLine_step
        (startsIn_of_start (fun prev c s hc => emphasisRule_start (hk k) hne prev c s hc))
        hp (emphasisRule_emits _ o cl ho' hcl')
        (fun prev y hy => emphasisRule_stage (hk k) hne ho hcl prev hy) hz
    unfold emphasis
    refine step 1 _ _ (by omega) (fun x => Markup.tags x ["<em>".toList] (by decide))
      (fun x => Markup.tags x ["</em>".toList] (by decide)) (by decide!) (by decide!) _ ?_
    refine step 2 _ _ (by omega) (fun x => Markup.tags x ["<strong>".toList] (by decide))
      (fun x => Markup.tags x ["</strong>".toList] (by decide)) (by decide!) (by decide!) _ ?_
    exact step 3 _ _ (by omega)
      (fun x => Markup.tags x ["<strong>".toList, "<em>".toList] (by decide))
      (fun x => Markup.tags x ["</em>".toList, "</strong>".toList] (by decide))
      (by decide!) (by decide!) _ h

theorem lazyAny_hit (d y r : Str) (hd : d ≠ [])
    (h : ∀ x z, y = x ++ z → z ≠ [] → d.isPrefixOf (z ++ d ++ r) = false) :
    lazyAny d (y ++ d ++ r) = some y := by
  induction y with
  | nil =>
    cases hdr : d ++ r with
    | nil => exact absurd (List.append_eq_nil.1 hdr).1 hd
    | cons c s =>
      have hp : d.isPrefixOf (c :: s) = true := (isPrefixOf_iff _ _).2 ⟨r, hdr.symm⟩
      simp [lazyAny, hdr, hp]
  | cons c y ih =>
    have h0 := h [] (c :: y) rfl (by simp)
    rw [List.cons_append, List.cons_append, lazyAny,
      if_neg (by rw [← List.cons_append, ← List.cons_append, h0]; exact Bool.false_ne_true),
      ih (fun x z hy hz => h (c :: x) z (by simp [hy]) hz)]
    rfl

theorem tokensB_not_li_close :
    ∀ t ∈ tokensB, t.1.take 3 ≠ ['<', '/', 'l'] ∧ 3 ≤ t.1.length := by decide!

theorem markup_no_li_close {a b : Bool} {y : Str} (h : Markup tokensB a b y) (r : Str) :
    ∀ x z, y = x ++ z → z ≠ [] → "</li>".toList.isPrefixOf (z ++ "</li>".toList ++ r) = false := by
  intro x z hy hz
  by_contra hp
  have hp' : "</li>".toList.isPrefixOf (z ++ "</li>".toList ++ r) = true := by simpa using hp
  obtain ⟨u, hu⟩ := (isPrefixOf_iff _ _).1 hp'
  cases z with
  | nil => exact hz rfl
  | cons c z =>
    have hc : c = '<' := by
      have : (c :: z ++ "</li>".toList ++ r).head? = ("</li>".toList ++ u).head? := by rw [hu]
      simpa using this
    subst hc hy
    obtain ⟨b', _, h2⟩ := h.split x ('<' :: z) rfl
      (NoStraddle.of_head (fun hm => lt_not_tailChars (flatMap_sub tokensB_sub_C _ hm)) _ _)
    rcases h2.cases_head with ⟨h0, _⟩ | ⟨d, s', hs, hd, _⟩ | ⟨t, k, s', hs, ht, _, _⟩
    · simp at h0
    · simp only [List.cons.injEq] at hs
      rw [← hs.1] at hd
      exact absurd hd (by decide)
    · obtain ⟨h1, h3⟩ := tokensB_not_li_close _ ht
      apply h1
      have e1 : ('<' :: z ++ "</li>".toList ++ r).take 3 = ['<', '/', 'l'] := by
        rw [hu]; rfl
      rw [hs, List.append_assoc, List.append_assoc, List.take_append_of_le_length h3] at e1
      exact e1

theorem lists_one_item (w y : Str) (m : Char) (hw : ∀ c ∈ w, isWhiteSpace c = true)
    (hm : m = '-' ∨ m = '*') (hy : Markup tokensB false false y)
    (hlt : ∀ c ∈ y, isLineTerminator c = false) :
    lists (w ++ m :: ' ' :: y) = "<ul><li>".toList ++ y ++ "</li></ul>".toList := by
  have hmws : isWhiteSpace m = false := by rcases hm with rfl | rfl <;> decide
  have hitem : replaceAll listItemRule (w ++ m :: ' ' :: y) =
      "<li>".toList ++ y ++ "</li>".toList := by
    have h1 : (w ++ m :: ' ' :: y).dropWhile isWhiteSpace = m :: ' ' :: y := by
      rw [List.dropWhile_append_of_pos (fun c hc => hw c hc),
        List.dropWhile_cons_of_neg (by simp [hmws])]
    have h2 : (w ++ m :: ' ' :: y).takeWhile isWhiteSpace = w := by
      rw [List.takeWhile_append_of_pos (fun c hc => hw c hc),
        List.takeWhile_cons_of_neg (by simp [hmws])]
      simp
    have hr : listItemRule none ((w ++ m :: ' ' :: y) ++ []) =
        some ("<li>".toList ++ y ++ "</li>".toList, (w ++ m :: ' ' :: y).length) := by
      rw [List.append_nil]
      unfold listItemRule
      simp only [atLineStart, if_true, h1, h2, restOfLine_id y hlt]
      rw [if_pos hm]
      simp
      omega
    have := replaceFrom_match _ none _ [] _ (by simp) hr
    simpa [replaceAll, replaceFrom_nil] using this
  have hwrap : replaceAll listWrapRule ("<li>".toList ++ y ++ "</li>".toList) =
      "<ul><li>".toList ++ y ++ "</li></ul>".toList := by
    have hlazy := lazyAny_hit "</li>".toList y [] (by decide) (markup_no_li_close hy [])
    have hr : listWrapRule none (("<li>".toList ++ y ++ "</li>".toList) ++ []) =
        some ("<ul>".toList ++ ("<li>".toList ++ y ++ "</li>".toList) ++ "</ul>".toList,
          ("<li>".toList ++ y ++ "</li>".toList).length) := by
      have e : "<li>".toList ++ y ++ "</li>".toList ++ [] =
          "<li>".toList ++ (y ++ "</li>".toList ++ []) := by simp
      rw [e]
      simp only [listWrapRule, literal_append, Option.some_bind, Option.bind_eq_bind, hlazy,
        Option.map_some']
      simp
      omega
    have := replaceFrom_match _ none _ [] _ (by simp) hr
    simpa [replaceAll, replaceFrom_nil] using this
  unfold lists
  rw [hitem, hwrap]

/-- C7, as the code has it: a single line made of spaces or tabs, a bullet (`-`,
or `*` when the rest of the line holds no other asterisk), a space and any text
`r` without line terminator is rendered as one list item in its own container:
the output begins with `<ul><li>` and ends with `</li></ul>`. -/
theorem bullet_line (w r : Str) (m : Char) (hw : ∀ c ∈ w, c = ' ' ∨ c = '\t')
    (hm : m = '-' ∨ (m = '*' ∧ '*' ∉ r)) (hr : ∀ c ∈ r, isLineTerminator c = false) :
    ∃ body, renderMarkdown (w ++ m :: ' ' :: r) =
      "<ul><li>".toList ++ body ++ "</li></ul>".toList := by
  have hm' : m = '-' ∨ m = '*' := hm.imp id And.left
  have hpw : ∀ c ∈ w ++ [m, ' '], c = ' ' ∨ c = '\t' ∨ c = '-' ∨ c = '*' := by
    intro c hc
    simp only [List.mem_append, List.mem_cons, List.mem_singleton, List.not_mem_nil,
      or_false] at hc
    rcases hc with h | h | h
    · rcases hw c h with h | h
      · exact Or.inl h
      · exact Or.inr (Or.inl h)
    · rcases hm' with h' | h'
      · exact Or.inr (Or.inr (Or.inl (h.trans h')))
      · exact Or.inr (Or.inr (Or.inr (h.trans h')))
    · exact Or.inl h
  have hpc : ∀ (P : Char → Prop), P ' ' → P '\t' → P '-' → P '*' → ∀ c ∈ w ++ [m, ' '], P c := by
    intro P h1 h2 h3 h4 c hc
    rcases hpw c hc with rfl | rfl | rfl | rfl <;> assumption
  have hnotp : ∀ x : Char, x ≠ ' ' → x ≠ '\t' → x ≠ '-' → x ≠ '*' → x ∉ w ++ [m, ' '] := by
    intro x h1 h2 h3 h4 hx
    rcases hpw x hx with h | h | h | h
    · exact h1 h
    · exact h2 h
    · exact h3 h
    · exact h4 h
  have hx : w ++ m :: ' ' :: r = (w ++ [m, ' ']) ++ r := by simp
  have hstar : (if (m == '*') then (w ++ [m, ' ']).count '*' = 1 else '*' ∉ w ++ [m, ' ']) := by
    have hwc : w.count '*' = 0 := List.count_eq_zero_of_not_mem (fun h => by
      rcases hw _ h with h | h <;> exact absurd h (by decide))
    rcases hm' with rfl | rfl
    · simp only [show ('-' == '*') = false by decide, Bool.false_eq_true, if_false]
      intro h
      rcases List.mem_append.1 h with h | h
      · rcases hw _ h with h | h <;> exact absurd h (by decide)
      · exact absurd h (by decide)
    · simp only [beq_self_eq_true, if_true, List.count_append, hwc]
      decide
  have h1 : BulletLine tokensA (w ++ [m, ' ']) (m == '*')
      (escapeHtml (normalizeLineEndings (w ++ m :: ' ' :: r))) := by
    rw [hx]
    refine bulletLine_escape _ r _ (hpc _ (by decide) (by decide) (by decide) (by decide))
      (hnotp _ (by decide) (by decide) (by decide) (by decide)) hr ?_
    intro hs
    rcases hm with h | h
    · subst h; exact absurd hs (by decide)
    · exact h.2
  have h2 : BulletLine tokensA (w ++ [m, ' ']) (m == '*') (codeBlocks
      (escapeHtml (normalizeLineEndings (w ++ m :: ' ' :: r)))) :=
    bulletLine_step (startsIn_of_start codeBlockRule_start)
      (hnotp _ (by decide) (by decide) (by decide) (by decide)) codeBlockRule_emits
      (fun prev y hy => codeBlocks_markup prev hy) h1
  have h3 := bulletLine_headings (p := w ++ [m, ' '])
    (hpc _ (by decide) (by decide) (by decide) (by decide))
    (fun c hc => hpc (· ≠ '#') (by decide) (by decide) (by decide) (by decide) c
      (List.mem_of_mem_head? hc)) (by simp) h2
  have h4 := bulletLine_emphasis hstar h2
  have h5 : BulletLine tokensA (w ++ [m, ' ']) (m == '*') (inlineCode (emphasis (codeBlocks
      (escapeHtml (normalizeLineEndings (w ++ m :: ' ' :: r)))))) :=
    bulletLine_step (startsIn_of_start inlineCodeRule_start)
      (hnotp _ (by decide) (by decide) (by decide) (by decide)) inlineCodeRule_emits
      (fun prev y hy => inlineCode_markup prev hy) h4
  have h6 : BulletLine tokensB (w ++ [m, ' ']) (m == '*') (links (inlineCode (emphasis
      (codeBlocks (escapeHtml (normalizeLineEndings (w ++ m :: ' ' :: r))))))) :=
    bulletLine_step (startsIn_of_start linkRule_start)
      (hnotp _ (by decide) (by decide) (by decide) (by decide)) linkRule_emits
      (fun prev y hy => links_markup prev hy) h5
  obtain ⟨y, hy, hmk, hlt, _⟩ := h6
  refine ⟨y, ?_⟩
  unfold renderMarkdown
  rw [if_neg (by simp), h3, hy, show w ++ [m, ' '] ++ y = w ++ m :: ' ' :: y by simp,
    lists_one_item w y m (fun c hc => by rcases hw c hc with rfl | rfl <;> decide) hm' hmk hlt]
  have hnl : '\n' ∉ "<ul><li>".toList ++ y ++ "</li></ul>".toList := by
    intro h
    simp only [List.mem_append] at h
    rcases h with (h | h) | h
    · exact absurd h (by decide)
    · exact absurd (hlt _ h) (by decide)
    · exact absurd h (by decide)
  rw [paragraphs_one _ hnl]
  have htrim : trim ("<ul><li>".toList ++ y ++ "</li></ul>".toList) =
      "<ul><li>".toList ++ y ++ "</li></ul>".toList := by
    apply trim_id
    · intro c h
      have : c = '<' := by simpa using h.symm
      subst this
      decide
    · intro c h
      rw [List.getLast?_append_of_ne_nil _ (by decide)] at h
      have : c = '>' := by simpa using h.symm
      subst this
      decide
  unfold renderBlock
  simp only [htrim]
  rw [if_neg (by simp), if_pos (by simp [startsWithBlockTag, List.isPrefixOf])]

/-- Witness for `bullet_line`: an indented item with emphasis, `  - a *b*`. -/
theorem bullet_line_witness :
    (∀ c ∈ "  ".toList, c = ' ' ∨ c = '\t') ∧
    ('-' = '-' ∨ ('-' = '*' ∧ '*' ∉ "a *b*".toList)) ∧
    (∀ c ∈ "a *b*".toList, isLineTerminator c = false) ∧
    ∃ body, renderMarkdown "  - a *b*".toList =
      "<ul><li>".toList ++ body ++ "</li></ul>".toList :=
  ⟨by decide, by decide, by decide,
    bullet_line "  ".toList "a *b*".toList '-' (by decide) (by decide) (by decide)⟩

/-- C7 as stated fails: in `* a*b` the bullet is taken for the start of an
emphasis span, and the line is rendered as a paragraph. -/
theorem bullet_line_counterexample :
    ¬ ∃ body, renderMarkdown "* a*b".toList =
      "<ul><li>".toList ++ body ++ "</li></ul>".toList := by
  have h : renderMarkdown "* a*b".toList = "<p><em> a</em>b</p>".toList := by decide!
  rw [h]
  rintro ⟨body, hb⟩
  have h2 : ("<p><em> a</em>b</p>".toList).take 2 =
      ("<ul><li>".toList ++ (body ++ "</li></ul>".toList)).take 2 := by
    rw [← List.append_assoc, ← hb]
  rw [List.take_append_of_le_length (by decide)] at h2
  exact absurd h2 (by decide)

/-! ## A fenced code block -/

theorem escapeChar_head (c : Char) (hc : isWhiteSpace c = false) :
    ∃ d r, escapeChar c = d :: r ∧ isWhiteSpace d = false := by
  unfold escapeChar
  split
  · exact ⟨'&', "amp;".toList, rfl, by decide⟩
  · split
    · exact ⟨'&', "lt;".toList, rfl, by decide⟩
    · split
      · exact ⟨'&', "gt;".toList, rfl, by decide⟩
      · exact ⟨c, [], rfl, hc⟩

theorem escapeChar_last (c : Char) (hc : isWhiteSpace c = false) :
    ∃ r d, escapeChar c = r ++ [d] ∧ isWhiteSpace d = false := by
  unfold escapeChar
  split
  · exact ⟨"&amp".toList, ';', rfl, by decide⟩
  · split
    · exact ⟨"&lt".toList, ';', rfl, by decide⟩
    · split
      · exact ⟨"&gt".toList, ';', rfl, by decide⟩
      · exact ⟨[], c, rfl, hc⟩

theorem escapeChar_whiteSpace (c : Char) (hc : isWhiteSpace c = true) : escapeChar c = [c] := by
  unfold escapeChar
  rw [if_neg (by rintro rfl; exact absurd hc (by decide)),
    if_neg (by rintro rfl; exact absurd hc (by decide)),
    if_neg (by rintro rfl; exact absurd hc (by decide))]

theorem dropWhile_escape (s : Str) :
    (s.flatMap escapeChar).dropWhile isWhiteSpace =
      (s.dropWhile isWhiteSpace).flatMap escapeChar := by
  induction s with
  | nil => rfl
  | cons c s ih =>
    by_cases hc : isWhiteSpace c = true
    · rw [List.flatMap_cons, escapeChar_whiteSpace c hc, List.singleton_append,
        List.dropWhile_cons_of_pos hc, List.dropWhile_cons_of_pos hc, ih]
    · have hc' : isWhiteSpace c = false := by simpa using hc
      obtain ⟨d, r, hd, hdw⟩ := escapeChar_head c hc'
      rw [List.dropWhile_cons_of_neg hc, List.flatMap_cons, hd, List.cons_append,
        List.dropWhile_cons_of_neg (by simp [hdw])]

theorem rdropWhile_escape (s : Str) :
    ((s.flatMap escapeChar).reverse.dropWhile isWhiteSpace).reverse =
      ((s.reverse.dropWhile isWhiteSpace).reverse).flatMap escapeChar := by
  induction s using List.reverseRecOn with
  | nil => rfl
  | append_singleton s c ih =>
    by_cases hc : isWhiteSpace c = true
    · rw [List.flatMap_append, List.flatMap_singleton, escapeChar_whiteSpace c hc,
        List.reverse_append, List.reverse_append, List.reverse_singleton,
        List.singleton_append, List.singleton_append, List.dropWhile_cons_of_pos hc,
        List.dropWhile_cons_of_pos hc, ih]
    · have hc' : isWhiteSpace c = false := by simpa using hc
      obtain ⟨r, d, hd, hdw⟩ := escapeChar_last c hc'
      rw [List.flatMap_append, List.flatMap_singleton, hd, ← List.append_assoc,
        List.reverse_append, List.reverse_singleton, List.singleton_append,
        List.dropWhile_cons_of_neg (by simp [hdw]), @List.reverse_append _ s,
        List.reverse_singleton, List.singleton_append, List.dropWhile_cons_of_neg hc]
      simp [hd]

theorem trim_escapeHtml (s : Str) : trim (escapeHtml s) = escapeHtml (trim s) := by
  unfold trim
  rw [escapeHtml_eq, escapeHtml_eq, dropWhile_escape, rdropWhile_escape]

theorem trim_padded (a s b : Str) (ha : ∀ c ∈ a, isWhiteSpace c = true)
    (hb : ∀ c ∈ b, isWhiteSpace c = true) : trim (a ++ s ++ b) = trim s := by
  unfold trim
  rw [List.append_assoc, List.dropWhile_append_of_pos ha]
  by_cases hs : ∀ c ∈ s, isWhiteSpace c = true
  · have e1 : (s ++ b).dropWhile isWhiteSpace = [] := by
      rw [List.dropWhile_eq_nil_iff]
      intro c hc
      rcases List.mem_append.1 hc with h | h
      · exact hs c h
      · exact hb c h
    have e2 : s.dropWhile isWhiteSpace = [] := by
      rw [List.dropWhile_eq_nil_iff]; exact hs
    rw [e1, e2]
  · have e1 : (s ++ b).dropWhile isWhiteSpace = s.dropWhile isWhiteSpace ++ b := by
      induction s with
      | nil => exact absurd (fun c hc => absurd hc (List.not_mem_nil c)) hs
      | cons c s ih =>
        by_cases hc : isWhiteSpace c = true
        · rw [List.cons_append, List.dropWhile_cons_of_pos hc, List.dropWhile_cons_of_pos hc]
          apply ih
          intro h
          apply hs
          intro d hd
          rcases List.mem_cons.1 hd with rfl | hd
          · exact hc
          · exact h d hd
        · rw [List.cons_append, List.dropWhile_cons_of_neg hc, List.dropWhile_cons_of_neg hc]
          rfl
    rw [e1, List.reverse_append,
      List.dropWhile_append_of_pos (fun c hc => hb c (List.mem_reverse.1 hc))]

theorem hasBlankLine_append_right (y z : Str) (hy : hasBlankLine y = false) (hz : '\n' ∉ z) :
    hasBlankLine (y ++ z) = false := by
  induction y with
  | nil => exact hasBlankLine_of_not_mem z hz
  | cons c y ih =>
    simp only [hasBlankLine, Bool.or_eq_false_iff] at hy
    simp only [List.cons_append, hasBlankLine, Bool.or_eq_false_iff]
    refine ⟨?_, ih hy.2⟩
    cases y with
    | nil =>
      cases z with
      | nil => simp
      | cons d z =>
        have hd : d ≠ '\n' := fun e => hz (by simp [e])
        simp [hd]
    | cons d y => simpa using hy.1

theorem hasBlankLine_append_left (x y : Str) (hx : '\n' ∉ x) (hy : hasBlankLine y = false) :
    hasBlankLine (x ++ y) = false := by
  induction x with
  | nil => exact hy
  | cons c x ih =>
    have hc : c ≠ '\n' := fun e => hx (by simp [e])
    simp only [List.cons_append, hasBlankLine, Bool.or_eq_false_iff]
    exact ⟨by simp [hc], ih (fun h => hx (by simp [h]))⟩

theorem escape_head_newline (s : Str) :
    ((s.flatMap escapeChar).head? == some '\n') = (s.head? == some '\n') := by
  cases s with
  | nil => rfl
  | cons c s =>
    rw [List.flatMap_cons]
    unfold escapeChar
    by_cases h1 : c = '&'
    · subst h1; rfl
    · by_cases h2 : c = '<'
      · subst h2; rfl
      · by_cases h3 : c = '>'
        · subst h3; rfl
        · simp [h1, h2, h3]

theorem hasBlankLine_escape (s : Str) : hasBlankLine (escapeHtml s) = hasBlankLine s := by
  rw [escapeHtml_eq]
  induction s with
  | nil => rfl
  | cons c s ih =>
    rw [List.flatMap_cons]
    by_cases hc : c = '&' ∨ c = '<' ∨ c = '>'
    · have h1 : '\n' ∉ escapeChar c := by
        rcases hc with rfl | rfl | rfl <;> decide
      have h2 : hasBlankLine (c :: s) = hasBlankLine s := by
        have : (c == '\n') = false := by rcases hc with rfl | rfl | rfl <;> decide
        simp [hasBlankLine, this]
      rw [h2, ← ih]
      cases hb : hasBlankLine (s.flatMap escapeChar) with
      | false => exact hasBlankLine_append_left _ _ h1 hb
      | true =>
        have hgen : ∀ x : Str, hasBlankLine (x ++ s.flatMap escapeChar) = true := by
          intro x
          induction x with
          | nil => exact hb
          | cons d x ihx => simp [hasBlankLine, ihx]
        exact hgen _
    · have he : escapeChar c = [c] := by
        simp only [not_or] at hc
        simp [escapeChar, hc.1, hc.2.1, hc.2.2]
      rw [he, List.singleton_append]
      simp only [hasBlankLine, ih, escape_head_newline]

theorem fence_not_inside (y r : Str) (hy : '`' ∉ y) :
    ∀ x z, y = x ++ z → z ≠ [] → fence.isPrefixOf (z ++ fence ++ r) = false := by
  intro x z hyz hz
  cases z with
  | nil => exact absurd rfl hz
  | cons c z =>
    have hc : c ≠ '`' := fun e => hy (by rw [hyz, e]; simp)
    simp [fence, List.isPrefixOf, Ne.symm hc]

theorem codeBlocks_fenced (y : Str) (hy : '`' ∉ y) :
    codeBlocks (fence ++ y ++ fence) =
      "<pre><code>".toList ++ trim y ++ "</code></pre>".toList := by
  have hlazy := lazyAny_hit fence y [] (by decide) (fence_not_inside y [] hy)
  have hr : codeBlockRule none ((fence ++ y ++ fence) ++ []) =
      some ("<pre><code>".toList ++ trim y ++ "</code></pre>".toList,
        (fence ++ y ++ fence).length) := by
    have e : fence ++ y ++ fence ++ [] = fence ++ (y ++ fence ++ []) := by simp
    rw [e]
    simp only [codeBlockRule, literal_append, Option.some_bind, Option.bind_eq_bind, hlazy,
      Option.map_some']
    simp [fence]
    omega
  have := replaceFrom_match _ none _ [] _ (by simp [fence]) hr
  simpa [codeBlocks, replaceAll, replaceFrom_nil] using this

/-! ## Lines that begin with a marker -/

theorem leadAfter_append (lead : Bool) (x y : Str) :
    leadAfter lead (x ++ y) = leadAfter (leadAfter lead x) y := by
  simp [leadAfter, List.foldl_append]

theorem leadAfter_of_lineStart (lead : Bool) (x : Str) (hx : x ≠ [])
    (h : atLineStart (prevAfter none x) = true) : leadAfter lead x = true := by
  rcases List.eq_nil_or_concat x with h0 | ⟨x', c, rfl⟩
  · exact absurd h0 hx
  · rw [List.concat_eq_append] at h ⊢
    rw [prevAfter_append] at h
    rw [leadAfter_append]
    have hc : isLineTerminator c = true := by simpa [prevAfter, atLineStart] using h
    simp [leadAfter, hc]

theorem leadAfter_whiteSpace (ws : Str) (hws : ∀ c ∈ ws, isWhiteSpace c = true) :
    leadAfter true ws = true := by
  induction ws with
  | nil => rfl
  | cons c ws ih =>
    have hc := hws c (by simp)
    have : leadAfter true (c :: ws) = leadAfter true ws := by
      simp [leadAfter, hc]
    rw [this]
    exact ih (fun d hd => hws d (by simp [hd]))

theorem leadsWith_cons (q : Char → Bool) (lead : Bool) (c : Char) (s : Str) :
    leadsWith q lead (c :: s) =
      ((lead && q c) || leadsWith q (isLineTerminator c || (lead && isWhiteSpace c)) s) := rfl

theorem leadAfter_cons (lead : Bool) (c : Char) (s : Str) :
    leadAfter lead (c :: s) = leadAfter (isLineTerminator c || (lead && isWhiteSpace c)) s :=
  rfl

theorem leadsWith_append (q : Char → Bool) (lead : Bool) (x y : Str) :
    leadsWith q lead (x ++ y) = (leadsWith q lead x || leadsWith q (leadAfter lead x) y) := by
  induction x generalizing lead with
  | nil => simp [leadsWith, leadAfter]
  | cons c x ih =>
    rw [List.cons_append, leadsWith_cons, leadsWith_cons, ih, Bool.or_assoc, leadAfter_cons]

theorem leadsWith_split (q : Char → Bool) (lead : Bool) (x : Str) (c : Char) (y : Str)
    (h : leadsWith q lead (x ++ c :: y) = false) : (leadAfter lead x && q c) = false := by
  rw [leadsWith_append, Bool.or_eq_false_iff] at h
  have h2 := h.2
  simp only [leadsWith, Bool.or_eq_false_iff] at h2
  exact h2.1

theorem leadsWith_escape (q : Char → Bool)
    (hq : q '&' = false ∧ q '<' = false ∧ q '>' = false) (lead : Bool) (s : Str) :
    leadsWith q lead (s.flatMap escapeChar) = leadsWith q lead s ∧
    leadAfter lead (s.flatMap escapeChar) = leadAfter lead s := by
  induction s generalizing lead with
  | nil => exact ⟨rfl, rfl⟩
  | cons c s ih =>
    rw [List.flatMap_cons, leadsWith_append, leadAfter_append]
    by_cases hc : c = '&' ∨ c = '<' ∨ c = '>'
    · have h1 : leadsWith q lead (escapeChar c) = false ∧ leadAfter lead (escapeChar c) = false := by
        rcases hc with rfl | rfl | rfl <;>
          cases lead <;>
            simp [escapeChar, leadsWith, leadAfter, hq.1, isLineTerminator, isWhiteSpace]
      have h2 : isLineTerminator c = false ∧ isWhiteSpace c = false := by
        rcases hc with rfl | rfl | rfl <;> decide
      have h3 : (lead && q c) = false := by
        rcases hc with rfl | rfl | rfl <;> simp [hq.1, hq.2.1, hq.2.2]
      rw [h1.1, h1.2, (ih false).1, (ih false).2]
      simp [leadsWith, leadAfter, h2.1, h2.2, h3]
    · have he : escapeChar c = [c] := by
        simp only [not_or] at hc
        simp [escapeChar, hc.1, hc.2.1, hc.2.2]
      rw [he]
      have e1 : leadAfter lead [c] = (isLineTerminator c || (lead && isWhiteSpace c)) := rfl
      rw [e1, (ih _).1, (ih _).2]
      simp [leadsWith, leadAfter]

theorem headings_id_of_lines (q : Char → Bool) (hq : q '#' = true) (p : Str)
    (hp : leadsWith q false p = false) (h0 : p.head? ≠ some '#') : headings p = p := by
  have key : ∀ marker o cl : Str, marker.head? = some '#' →
      replaceAll (headingRule marker o cl) p = p := by
    intro marker o cl hm
    apply replaceFrom_id
    intro x c y hs
    by_cases hl : atLineStart (prevAfter none x) = true
    · have hc : c ≠ '#' := by
        by_cases hx : x = []
        · subst hx
          intro e
          apply h0
          rw [hs, e]; rfl
        · have h1 := leadAfter_of_lineStart false x hx hl
          have h2 := leadsWith_split q false x c y (hs ▸ hp)
          rw [h1, Bool.true_and] at h2
          intro e
          rw [e, hq] at h2
          exact Bool.noConfusion h2
      cases marker with
      | nil => simp at hm
      | cons e marker =>
        have he : e = '#' := by simpa using hm
        subst he
        simp [headingRule, literal_cons_ne _ _ _ _ hc]
    · exact headingRule_start marker o cl _ _ (by simpa using hl)
  unfold headings
  rw [key "###### ".toList _ _ rfl, key "##### ".toList _ _ rfl, key "#### ".toList _ _ rfl,
    key "### ".toList _ _ rfl, key "## ".toList _ _ rfl, key "# ".toList _ _ rfl]

theorem listItems_id_of_lines (q : Char → Bool) (hq : q '-' = true) (p : Str)
    (hp : leadsWith q false p = false) (hstar : '*' ∉ p)
    (h0 : ∀ c, p.head? = some c → isWhiteSpace c = false ∧ c ≠ '-') :
    replaceFrom listItemRule 0 none p = p := by
  apply replaceFrom_id
  intro x c y hs
  by_contra hne
  obtain ⟨⟨rep, n⟩, hr⟩ := Option.ne_none_iff_exists'.1 hne
  obtain ⟨hl, ws, b, cap, rest, hcy, hws, hb, _⟩ := listItemRule_some hr
  have hps : p = (x ++ ws) ++ b :: (' ' :: cap ++ rest) := by
    rw [hs, hcy]; simp
  rcases hb with rfl | rfl
  · by_cases hx : x = []
    · subst hx
      cases ws with
      | nil =>
        exact (h0 '-' (by rw [hps]; rfl)).2 rfl
      | cons d ws =>
        have := (h0 d (by rw [hps]; rfl)).1
        rw [hws d (by simp)] at this
        exact Bool.noConfusion this
    · have h1 := leadAfter_of_lineStart false x hx hl
      have h2 := leadsWith_split q false (x ++ ws) '-' _ (hps ▸ hp)
      rw [leadAfter_append, h1, leadAfter_whiteSpace ws hws, hq] at h2
      exact Bool.noConfusion h2
  · exact hstar (by rw [hps]; simp)

/-- C5, as the code has it: a fenced block is rendered as exactly one code block
holding its inner text, trimmed and with `&`, `<`, `>` escaped, when the inner
text holds no backtick, asterisk, `[` or carriage return, none of its lines but
the first begins (after optional white space) with `#` or `-`, and its trimmed
form holds no blank line.  The later stages do run over the content of the
block; they leave such a text as it is because they find none of their
delimiters in it, and so a `#` or `-` inside a line is kept. -/
theorem fenced_block (c : Str)
    (hc : ∀ x ∈ c, x ≠ '`' ∧ x ≠ '*' ∧ x ≠ '[' ∧ x ≠ '\r')
    (hl : leadsWith isLineMarker false (trim c) = false)
    (hb : hasBlankLine (trim c) = false) :
    renderMarkdown ("```\n".toList ++ c ++ "\n```".toList) =
      "<pre><code>".toList ++ escapeHtml (trim c) ++ "</code></pre>".toList := by
  have hcr : '\r' ∉ "```\n".toList ++ c ++ "\n```".toList := by
    intro h
    simp only [List.mem_append] at h
    rcases h with (h | h) | h
    · exact absurd h (by decide)
    · exact (hc _ h).2.2.2 rfl
    · exact absurd h (by decide)
  have hesc : escapeHtml ("```\n".toList ++ c ++ "\n```".toList) =
      fence ++ ('\n' :: escapeHtml c ++ ['\n']) ++ fence := by
    rw [escapeHtml_append, escapeHtml_append,
      escapeHtml_id "```\n".toList (by decide), escapeHtml_id "\n```".toList (by decide)]
    simp [fence]
  have hsp : ∀ x : Char, (x = '`' ∨ x = '*' ∨ x = '[') → x ∉ escapeHtml c := by
    intro x hx hm
    rcases escapeHtml_chars c x hm with h | h
    · obtain ⟨h1, h2, h3, _⟩ := hc x h
      rcases hx with e | e | e
      · exact h1 e
      · exact h2 e
      · exact h3 e
    · refine sep_cases ?_ h
      rcases hx with e | e | e
      · exact Or.inr (Or.inl e)
      · exact Or.inl e
      · exact Or.inr (Or.inr (Or.inr (Or.inl e)))
  have htick : '`' ∉ '\n' :: escapeHtml c ++ ['\n'] := by
    intro h
    simp only [List.cons_append, List.mem_cons, List.mem_append, List.mem_singleton,
      List.not_mem_nil, or_false] at h
    rcases h with h | h | h
    · exact absurd h (by decide)
    · exact hsp _ (Or.inl rfl) h
    · exact absurd h (by decide)
  have htrim : trim ('\n' :: escapeHtml c ++ ['\n']) = escapeHtml (trim c) := by
    have := trim_padded ['\n'] (escapeHtml c) ['\n'] (by decide) (by decide)
    rw [← trim_escapeHtml, ← this]
    rfl
  have hin : ∀ x : Char, (x = '`' ∨ x = '*' ∨ x = '[') →
      x ∉ "<pre><code>".toList ++ escapeHtml (trim c) ++ "</code></pre>".toList := by
    intro x hx hm
    simp only [List.mem_append] at hm
    rcases hm with (h | h) | h
    · rcases hx with rfl | rfl | rfl <;> exact absurd h (by decide)
    · rw [← trim_escapeHtml] at h
      exact hsp x hx (mem_trim h)
    · rcases hx with rfl | rfl | rfl <;> exact absurd h (by decide)
  have hmk : Markup tokensB false false
      ("<pre><code>".toList ++ escapeHtml (trim c) ++ "</code></pre>".toList) :=
    ((Markup.tags false ["<pre>".toList, "<code>".toList] (by decide)).append
      ((escapeHtml_markup false (trim c)).mono tokensA_sub_B)).append
      (Markup.tags false ["</code>".toList, "</pre>".toList] (by decide))
  have hblank : hasBlankLine
      ("<pre><code>".toList ++ escapeHtml (trim c) ++ "</code></pre>".toList) = false := by
    rw [List.append_assoc]
    exact hasBlankLine_append_left _ _ (by decide)
      (hasBlankLine_append_right _ _ (by rw [hasBlankLine_escape]; exact hb) (by decide))
  have hlines : leadsWith isLineMarker false
      ("<pre><code>".toList ++ escapeHtml (trim c) ++ "</code></pre>".toList) = false := by
    have hclose : ∀ l, leadsWith isLineMarker l "</code></pre>".toList = false := by decide
    have hesc := leadsWith_escape isLineMarker (by decide) false (trim c)
    have hopen : leadsWith isLineMarker false "<pre><code>".toList = false ∧
        leadAfter false "<pre><code>".toList = false := by decide
    rw [List.append_assoc, leadsWith_append, leadsWith_append, escapeHtml_eq, hopen.1,
      hopen.2, hesc.1, hl, hclose]
    rfl
  have hhead : ("<pre><code>".toList ++ escapeHtml (trim c) ++ "</code></pre>".toList).head? =
      some '<' := rfl
  unfold renderMarkdown
  rw [if_neg (by simp), normalizeLineEndings_id _ hcr, hesc, codeBlocks_fenced _ htick, htrim,
    headings_id_of_lines isLineMarker (by decide) _ hlines (by rw [hhead]; decide),
    emphasis_id _ (hin _ (by simp)),
    inlineCode_id _ (hin _ (by simp)), links_id _ (hin _ (by simp))]
  unfold lists replaceAll
  rw [listItems_id_of_lines isLineMarker (by decide) _ hlines (hin _ (by simp))
      (fun d hd => by
        rw [hhead] at hd
        have : d = '<' := by simpa using hd.symm
        subst this
        decide),
    listWrap_id_of_markup none hmk, paragraphs_single _ hblank]
  have htr : trim ("<pre><code>".toList ++ escapeHtml (trim c) ++ "</code></pre>".toList) =
      "<pre><code>".toList ++ escapeHtml (trim c) ++ "</code></pre>".toList := by
    apply trim_id
    · intro d h
      have : d = '<' := by simpa using h.symm
      subst this
      decide
    · intro d h
      rw [List.getLast?_append_of_ne_nil _ (by decide)] at h
      have : d = '>' := by simpa using h.symm
      subst this
      decide
  unfold renderBlock
  simp only [htr]
  rw [if_neg (by simp), if_pos (by simp [startsWithBlockTag, List.isPrefixOf])]

/-- Witness for `fenced_block`: the block of the specification, `code & more`. -/
theorem fenced_block_witness :
    (∀ x ∈ "code & more".toList, x ≠ '`' ∧ x ≠ '*' ∧ x ≠ '[' ∧ x ≠ '\r') ∧
    leadsWith isLineMarker false (trim "code & more".toList) = false ∧
    hasBlankLine (trim "code & more".toList) = false ∧
    renderMarkdown "```\ncode & more\n```".toList =
      "<pre><code>code &amp; more</code></pre>".toList :=
  ⟨by decide, by decide, by decide,
    fenced_block "code & more".toList (by decide) (by decide) (by decide)⟩

/-- C5 as stated fails: asterisks inside a fence are turned into an emphasis
element by the later emphasis stage. -/
theorem fenced_block_counterexample :
    '`' ∉ "*a*".toList ∧
    renderMarkdown ("```\n".toList ++ "*a*".toList ++ "\n```".toList) =
      "<pre><code><em>a</em></code></pre>".toList ∧
    renderMarkdown ("```\n".toList ++ "*a*".toList ++ "\n```".toList) ≠
      "<pre><code>".toList ++ escapeHtml (trim "*a*".toList) ++ "</code></pre>".toList := by
  decide!

/-! ## Lists -/

/-- C6 at its own witness: two consecutive bullet lines are rendered as two list
containers of one item each, not as one container of two items. -/
theorem two_bullets_two_containers :
    renderMarkdown "- one\n- two".toList =
      "<ul><li>one</li></ul>\n<ul><li>two</li></ul>".toList := by
  decide!

/-! ## The properties of the specification -/

/-- C1: source content never leaks as markup.  At every position of the output of
`renderMarkdown`, a `<` is the first character of a tag the renderer emits, a `>`
is the last character of such a tag, and a `&` is the first character of one of
the entities `&amp;`, `&lt;`, `&gt;`. -/
theorem renderMarkdown_no_source_markup (s pre post : Str) (c : Char)
    (h : renderMarkdown s = pre ++ c :: post) : MarkupAt pre c post := by
  have hm := renderMarkdown_markup s
  rw [h] at hm
  refine ⟨?_, ?_, ?_⟩
  · rintro rfl; exact hm.at_lt
  · rintro rfl; exact hm.at_gt
  · rintro rfl; exact hm.at_amp

/-- Witness for `renderMarkdown_no_source_markup`: the `&` that the escaping of
`<` leaves in the rendering of `a<b`. -/
theorem renderMarkdown_no_source_markup_witness :
    renderMarkdown "a<b".toList = "<p>a".toList ++ '&' :: "lt;b</p>".toList ∧
    MarkupAt "<p>a".toList '&' "lt;b</p>".toList :=
  ⟨by decide!, renderMarkdown_no_source_markup "a<b".toList _ _ _ (by decide!)⟩

/-- C2: `renderMarkdown` never fails.  It is a total function, so it returns a
string for every input string, and it returns the empty string for the empty
string. -/
theorem renderMarkdown_total :
    renderMarkdown [] = [] ∧ ∀ s : Str, ∃ out : Str, renderMarkdown s = out :=
  ⟨rfl, fun s => ⟨renderMarkdown s, rfl⟩⟩

end AspNetWebHelp
